import Mathlib

/-!
# DSA Notation Converter: a shallow embedding of `src/app.js`

JavaScript strings are modelled by `String`, read through their character
lists.  Arrays used as stacks are modelled by lists whose head is the top of
the stack (the last array element); arrays that are only appended to are
lists in array order.  A value that may be `undefined` is an `Option String`.
Characters outside the Basic Multilingual Plane are two UTF-16 code units in
JavaScript and one `Char` here; every such code unit is rejected by
`tokenize`, so only the text of the error message differs for them.  The
tokenizer is therefore embedded a second time over code units
(`tokenizeUnits`), the statement on the error message is made there, and
`tokenizeUnits_refines` relates the two embeddings.
-/

deriving instance DecidableEq for Except

namespace NotationConverter

/-! ## Utilities -/

/-- The character class `[A-Za-z]`. -/
def isLetter (c : Char) : Bool :=
  ('A'.toNat ≤ c.toNat && c.toNat ≤ 'Z'.toNat) || ('a'.toNat ≤ c.toNat && c.toNat ≤ 'z'.toNat)

/-- The character class `[0-9]`. -/
def isDigit (c : Char) : Bool :=
  '0'.toNat ≤ c.toNat && c.toNat ≤ '9'.toNat

/-- The method `String.prototype.includes`: `needle` occurs in `hay` as a contiguous run. -/
def jsIncludes (hay needle : String) : Bool :=
  hay.data.tails.any (fun t => needle.data.isPrefixOf t)

/-- The method `Array.prototype.join` on an array of strings. -/
def jsJoin (sep : String) : List String → String
  | [] => ""
  | [a] => a
  | a :: b :: rest => a ++ sep ++ jsJoin sep (b :: rest)

/-- Rendering of a possibly `undefined` value inside a template literal. -/
def jsShow : Option String → String
  | some s => s
  | none => "undefined"

/-- Function `isOperand`: the regular expression `/[A-Za-z0-9]/` finds a match somewhere in `tok`. -/
def isOperand (tok : String) : Bool :=
  tok.data.any (fun c => isLetter c || isDigit c)

/-- Function `precedence`: lookup in the table, `0` for a key that is absent.  The
arguments the code passes are tokens, never a name inherited from the
object prototype. -/
def precedence (op : String) : Nat :=
  if op = "^" then 4
  else if op = "*" then 3
  else if op = "/" then 3
  else if op = "+" then 2
  else if op = "-" then 2
  else 0

/-- Function `isRightAssoc`: only `^`. -/
def isRightAssoc (op : String) : Bool :=
  decide (op = "^")

/-! ## Tokenizer -/

/-- The body of the `for` loop of `tokenize`, over the characters from the
current index on.  The second argument counts the characters the inner
`while` loop has already consumed (the assignment `i = j`). -/
def tokenizeAux : List Char → Nat → Except String (List String)
  | [], _ => .ok []
  | _ :: rest, skip + 1 => tokenizeAux rest skip
  | ch :: rest, 0 =>
    if ch = ' ' then tokenizeAux rest 0
    else if isLetter ch then (tokenizeAux rest 0).map (String.singleton ch :: ·)
    else if isDigit ch then
      let more := rest.takeWhile isDigit
      (tokenizeAux rest more.length).map (String.mk (ch :: more) :: ·)
    else if jsIncludes "()+-*/^" (String.singleton ch) then
      (tokenizeAux rest 0).map (String.singleton ch :: ·)
    else .error ("Invalid character: " ++ String.singleton ch)

/-- Function `tokenize(expression)`: the token array, or the thrown error message. -/
def tokenize (expression : String) : Except String (List String) :=
  tokenizeAux expression.data 0

/-! ## Trace records -/

/-- One row of the trace: the object literal pushed on `steps`. -/
structure Step where
  iter : Nat
  input : String
  stack : String
  output : Option String
  action : String
  deriving DecidableEq, Repr

/-- The object `{result, steps}` returned by a conversion.  The field
`result` is `none` when the code returns `undefined` there. -/
structure ConversionResult where
  result : Option String
  steps : List Step
  deriving DecidableEq, Repr

/-! ## Infix to postfix (lines 24-66) -/

/-- The loop of the `)` branch: `while (stack.length && top !== '(') output.push(stack.pop())`.
Returns the stack and the output. -/
def popToParen : List String → List String → List String × List String
  | [], output => ([], output)
  | top :: stack, output =>
    if top ≠ "(" then popToParen stack (output ++ [top]) else (top :: stack, output)

/-- The loop of the operator branch: pops while the top is an operator that
binds at least as tightly as `tok` (strictly tighter when `tok` is
right-associative).  Returns the stack and the output. -/
def popOperators (tok : String) : List String → List String → List String × List String
  | [], output => ([], output)
  | top :: stack, output =>
    if jsIncludes "+-*/^" top then
      if precedence top > precedence tok ∨
          (precedence top = precedence tok ∧ isRightAssoc tok = false) then
        popOperators tok stack (output ++ [top])
      else (top :: stack, output)
    else (top :: stack, output)

/-- The mutable variables of `infixToPostfixWithSteps`. -/
structure ShuntState where
  output : List String
  stack : List String
  steps : List Step
  iter : Nat
  deriving DecidableEq, Repr

/-- One pass of the `for` body on token `tok`, with `rest` the tokens after it. -/
def shuntStep (s : ShuntState) (tok : String) (rest : List String) : ShuntState :=
  let iter := s.iter + 1
  let remaining := jsJoin " " rest
  if isOperand tok then
    let output := s.output ++ [tok]
    { output := output, stack := s.stack, iter := iter,
      steps := s.steps ++ [
        { iter := iter, input := remaining, stack := jsJoin "" s.stack.reverse,
          output := some (jsJoin " " output), action := "append operand " ++ tok }] }
  else if tok = "(" then
    let stack := tok :: s.stack
    { output := s.output, stack := stack, iter := iter,
      steps := s.steps ++ [
        { iter := iter, input := remaining, stack := jsJoin "" stack.reverse,
          output := some (jsJoin " " s.output), action := "push (" }] }
  else if tok = ")" then
    let p := popToParen s.stack s.output
    let stack := p.1.tail
    { output := p.2, stack := stack, iter := iter,
      steps := s.steps ++ [
        { iter := iter, input := remaining, stack := jsJoin "" stack.reverse,
          output := some (jsJoin " " p.2), action := "pop till ( and discard )" }] }
  else
    let p := popOperators tok s.stack s.output
    let stack := tok :: p.1
    { output := p.2, stack := stack, iter := iter,
      steps := s.steps ++ [
        { iter := iter, input := remaining, stack := jsJoin "" stack.reverse,
          output := some (jsJoin " " p.2), action := "push operator " ++ tok }] }

/-- The `for` loop over the tokens from the current index on. -/
def shuntLoop : List String → ShuntState → ShuntState
  | [], s => s
  | tok :: rest, s => shuntLoop rest (shuntStep s tok rest)

/-- The code after the loop: flush the stack, emit the trailing step. -/
def shuntFinish (s : ShuntState) : ConversionResult :=
  let output := s.output ++ s.stack
  let iter := match s.steps.getLast? with
    | some last => last.iter + 1
    | none => 1
  { result := some (jsJoin " " output),
    steps := s.steps ++ [
        { iter := iter, input := "", stack := "",
          output := some (jsJoin " " output), action := "pop remaining operators" }] }

/-- Function `infixToPostfixWithSteps(expr)`. -/
def infixToPostfixWithSteps (expr : String) : Except String ConversionResult :=
  match tokenize expr with
  | .error e => .error e
  | .ok tokens => .ok (shuntFinish (shuntLoop tokens { output := [], stack := [], steps := [], iter := 0 }))

/-! ## Postfix to infix (lines 69-92) and prefix to infix (lines 95-118) -/

/-- The JavaScript line terminators, which `.` in a regular expression does not match. -/
def isLineTerminator (c : Char) : Bool :=
  c.toNat = 0x0A || c.toNat = 0x0D || c.toNat = 0x2028 || c.toNat = 0x2029

/-- The call `s.replace(/^\((.*)\)$/, '$1')`: when `s` is `(`, a run of
characters none of which is a line terminator, `)`, the result is that run;
otherwise `s` unchanged. -/
def unwrapOuter (s : String) : String :=
  match s.data with
  | '(' :: rest =>
    if rest.getLast? = some ')' ∧ rest.dropLast.all (fun c => !isLineTerminator c) then
      String.mk rest.dropLast
    else s
  | _ => s

/-- The expression `stack.pop()?.replace(...) || ''` on the popped value. -/
def finalInfix (top : Option String) : String :=
  match top with
  | some s => unwrapOuter s
  | none => ""

/-- The mutable variables of the fragment-stack algorithms. -/
structure FragState where
  stack : List String
  steps : List Step
  iter : Nat
  deriving DecidableEq, Repr

/-- One pass of the `for` body of `postfixToInfixWithSteps`; `remaining` is
the rendered rest of the input. -/
def postfixToInfixStep (s : FragState) (tok : String) (remaining : String) : FragState :=
  let iter := s.iter + 1
  if isOperand tok then
    let stack := tok :: s.stack
    { stack := stack, iter := iter,
      steps := s.steps ++ [
        { iter := iter, input := remaining, stack := jsJoin " " stack.reverse,
          output := some "", action := "push " ++ tok }] }
  else if jsIncludes "+-*/^" tok then
    let right := s.stack.head?
    let left := s.stack.tail.head?
    let exprStr := "(" ++ jsShow left ++ " " ++ tok ++ " " ++ jsShow right ++ ")"
    let stack := exprStr :: s.stack.tail.tail
    { stack := stack, iter := iter,
      steps := s.steps ++ [
        { iter := iter, input := remaining, stack := jsJoin " " stack.reverse,
          output := some "",
          action := "combine " ++ jsShow left ++ " " ++ tok ++ " " ++ jsShow right }] }
  else { stack := s.stack, steps := s.steps, iter := iter }

/-- The `for` loop of `postfixToInfixWithSteps`, left to right. -/
def postfixToInfixLoop : List String → FragState → FragState
  | [], s => s
  | tok :: rest, s => postfixToInfixLoop rest (postfixToInfixStep s tok (jsJoin " " rest))

/-- The code after the loop of both infix producers: unwrap and finalize. -/
def finishInfix (s : FragState) : ConversionResult :=
  let result := finalInfix s.stack.head?
  { result := some result,
    steps := s.steps ++ [
        { iter := s.iter + 1, input := "", stack := "",
          output := some result, action := "finalize" }] }

/-- Function `postfixToInfixWithSteps(expr)`. -/
def postfixToInfixWithSteps (expr : String) : Except String ConversionResult :=
  match tokenize expr with
  | .error e => .error e
  | .ok tokens => .ok (finishInfix (postfixToInfixLoop tokens { stack := [], steps := [], iter := 0 }))

/-- One pass of the `for` body of `prefixToInfixWithSteps`: the first pop is
the left operand. -/
def prefixToInfixStep (s : FragState) (tok : String) (remaining : String) : FragState :=
  let iter := s.iter + 1
  if isOperand tok then
    let stack := tok :: s.stack
    { stack := stack, iter := iter,
      steps := s.steps ++ [
        { iter := iter, input := remaining, stack := jsJoin " " stack.reverse,
          output := some "", action := "push " ++ tok }] }
  else if jsIncludes "+-*/^" tok then
    let left := s.stack.head?
    let right := s.stack.tail.head?
    let exprStr := "(" ++ jsShow left ++ " " ++ tok ++ " " ++ jsShow right ++ ")"
    let stack := exprStr :: s.stack.tail.tail
    { stack := stack, iter := iter,
      steps := s.steps ++ [
        { iter := iter, input := remaining, stack := jsJoin " " stack.reverse,
          output := some "",
          action := "combine " ++ jsShow left ++ " " ++ tok ++ " " ++ jsShow right }] }
  else { stack := s.stack, steps := s.steps, iter := iter }

/-- The `for` loop of `prefixToInfixWithSteps`, right to left: the argument
is the reversed list of the tokens up to and including the current index. -/
def prefixToInfixLoop : List String → FragState → FragState
  | [], s => s
  | tok :: before, s => prefixToInfixLoop before (prefixToInfixStep s tok (jsJoin " " before.reverse))

/-- Function `prefixToInfixWithSteps(expr)`. -/
def prefixToInfixWithSteps (expr : String) : Except String ConversionResult :=
  match tokenize expr with
  | .error e => .error e
  | .ok tokens =>
    .ok (finishInfix (prefixToInfixLoop tokens.reverse { stack := [], steps := [], iter := 0 }))

/-! ## The dispatcher (lines 121-174) -/

/-- The `for` body of the infix to prefix branch (lines 133-139). -/
def infixPrefixStep (s : FragState) (tok : String) (remaining : String) : FragState :=
  let iter := s.iter + 1
  if isOperand tok then
    let stack := tok :: s.stack
    { stack := stack, iter := iter,
      steps := s.steps ++ [
        { iter := iter, input := remaining, stack := jsJoin " " stack.reverse,
          output := some "", action := "push " ++ tok }] }
  else
    let b := s.stack.head?
    let a := s.stack.tail.head?
    let formed := tok ++ " " ++ jsShow a ++ " " ++ jsShow b
    let stack := formed :: s.stack.tail.tail
    { stack := stack, iter := iter,
      steps := s.steps ++ [
        { iter := iter, input := remaining, stack := jsJoin " " stack.reverse,
          output := some "", action := "combine -> " ++ formed }] }

/-- The `for` loop of the infix to prefix branch. -/
def infixPrefixLoop : List String → FragState → FragState
  | [], s => s
  | tok :: rest, s => infixPrefixLoop rest (infixPrefixStep s tok (jsJoin " " rest))

/-- The `for` body of the postfix to prefix branch (lines 150-156). -/
def postfixPrefixStep (s : FragState) (tok : String) (remaining : String) : FragState :=
  let iter := s.iter + 1
  if isOperand tok then
    let stack := tok :: s.stack
    { stack := stack, iter := iter,
      steps := s.steps ++ [
        { iter := iter, input := remaining, stack := jsJoin " " stack.reverse,
          output := some "", action := "push " ++ tok }] }
  else
    let b := s.stack.head?
    let a := s.stack.tail.head?
    let formed := tok ++ " " ++ jsShow a ++ " " ++ jsShow b
    let stack := formed :: s.stack.tail.tail
    { stack := stack, iter := iter,
      steps := s.steps ++ [
        { iter := iter, input := remaining, stack := jsJoin " " stack.reverse,
          output := some "", action := "combine -> " ++ formed }] }

/-- The `for` loop of the postfix to prefix branch. -/
def postfixPrefixLoop : List String → FragState → FragState
  | [], s => s
  | tok :: rest, s => postfixPrefixLoop rest (postfixPrefixStep s tok (jsJoin " " rest))

/-- The `for` body of the prefix to postfix branch (lines 164-169). -/
def prefixPostfixStep (s : FragState) (tok : String) (remaining : String) : FragState :=
  let iter := s.iter + 1
  if isOperand tok then
    let stack := tok :: s.stack
    { stack := stack, iter := iter,
      steps := s.steps ++ [
        { iter := iter, input := remaining, stack := jsJoin " " stack.reverse,
          output := some "", action := "push " ++ tok }] }
  else
    let a := s.stack.head?
    let b := s.stack.tail.head?
    let formed := jsShow a ++ " " ++ jsShow b ++ " " ++ tok
    let stack := formed :: s.stack.tail.tail
    { stack := stack, iter := iter,
      steps := s.steps ++ [
        { iter := iter, input := remaining, stack := jsJoin " " stack.reverse,
          output := some "", action := "combine -> " ++ formed }] }

/-- The `for` loop of the prefix to postfix branch, right to left: the
argument is the reversed list of the tokens up to and including the current
index. -/
def prefixPostfixLoop : List String → FragState → FragState
  | [], s => s
  | tok :: before, s =>
    prefixPostfixLoop before (prefixPostfixStep s tok (jsJoin " " before.reverse))

/-- The code after the loop of the three direct branches: the popped
fragment, possibly `undefined`, is the result, verbatim. -/
def finishDirect (s : FragState) : ConversionResult :=
  let result := s.stack.head?
  { result := result,
    steps := s.steps ++ [
      { iter := s.iter + 1, input := "", stack := "", output := result, action := "finalize" }] }

/-- Function `convert(from, to, expr)`; the notations are the strings the
caller passes. -/
def convert (src dst : String) (expr : String) : Except String ConversionResult :=
  if src = dst then
    .ok { result := some expr,
          steps := [{ iter := 1, input := expr, stack := "", output := some expr,
                      action := "same notation" }] }
  else if src = "Infix" ∧ dst = "Postfix" then infixToPostfixWithSteps expr
  else if src = "Infix" ∧ dst = "Prefix" then
    match infixToPostfixWithSteps expr with
    | .error e => .error e
    | .ok r =>
      -- `post`: the result of the first stage, always a string
      match tokenize (jsShow r.result) with
      | .error e => .error e
      | .ok toks => .ok (finishDirect (infixPrefixLoop toks { stack := [], steps := [], iter := 0 }))
  else if src = "Postfix" ∧ dst = "Infix" then postfixToInfixWithSteps expr
  else if src = "Prefix" ∧ dst = "Infix" then prefixToInfixWithSteps expr
  else if src = "Postfix" ∧ dst = "Prefix" then
    match tokenize expr with
    | .error e => .error e
    | .ok toks => .ok (finishDirect (postfixPrefixLoop toks { stack := [], steps := [], iter := 0 }))
  else if src = "Prefix" ∧ dst = "Postfix" then
    match tokenize expr with
    | .error e => .error e
    | .ok toks =>
      .ok (finishDirect (prefixPostfixLoop toks.reverse { stack := [], steps := [], iter := 0 }))
  else .error "Unsupported conversion"

/-! ## Expression trees and their renderings

The vocabulary of the specification: binary expression trees, their
traversals and their infix renderings. -/

/-- The five binary operators. -/
inductive Op where
  | add | sub | mul | div | pow
  deriving DecidableEq, Repr

/-- The token of an operator. -/
def Op.sym : Op → String
  | .add => "+"
  | .sub => "-"
  | .mul => "*"
  | .div => "/"
  | .pow => "^"

/-- The precedence table of the specification: `^`=4, `*` `/`=3, `+` `-`=2. -/
def Op.prec : Op → Nat
  | .add => 2
  | .sub => 2
  | .mul => 3
  | .div => 3
  | .pow => 4

/-- Binary expression trees. -/
inductive Expr where
  | operand (name : String)
  | bin (op : Op) (l r : Expr)
  deriving DecidableEq, Repr

/-- An operand token: a single letter or a non-empty run of digits. -/
def isOperandToken (s : String) : Bool :=
  match s.data with
  | [] => false
  | [c] => isLetter c || isDigit c
  | cs => cs.all isDigit

/-- Every operand of the tree is an operand token. -/
def Expr.wellFormed : Expr → Bool
  | .operand a => isOperandToken a
  | .bin _ l r => l.wellFormed && r.wellFormed

/-- Post-order traversal: left, right, operator. -/
def Expr.postOrder : Expr → List String
  | .operand a => [a]
  | .bin op l r => l.postOrder ++ r.postOrder ++ [op.sym]

/-- Pre-order traversal: operator, left, right. -/
def Expr.preOrder : Expr → List String
  | .operand a => [a]
  | .bin op l r => op.sym :: (l.preOrder ++ r.preOrder)

/-- The fully parenthesised rendering `full`. -/
def Expr.full : Expr → String
  | .operand a => a
  | .bin op l r => "(" ++ l.full ++ " " ++ op.sym ++ " " ++ r.full ++ ")"

/-- The rendering `full` with the outermost pair of parentheses removed. -/
def Expr.fullUnwrapped : Expr → String
  | .operand a => a
  | .bin op l r => l.full ++ " " ++ op.sym ++ " " ++ r.full

/-- A left child is parenthesised exactly when its operator has lower
precedence than the parent, or equal precedence and the parent is `^`. -/
def parenLeft (op : Op) : Expr → Bool
  | .operand _ => false
  | .bin o _ _ => o.prec < op.prec || (o.prec = op.prec && op = Op.pow)

/-- A right child is parenthesised exactly when its operator has lower
precedence than the parent, or equal precedence and the parent is not `^`. -/
def parenRight (op : Op) : Expr → Bool
  | .operand _ => false
  | .bin o _ _ => o.prec < op.prec || (o.prec = op.prec && op ≠ Op.pow)

/-- The tokens of the minimally parenthesised infix rendering. -/
def Expr.minTokens : Expr → List String
  | .operand a => [a]
  | .bin op l r =>
    (if parenLeft op l then "(" :: l.minTokens ++ [")"] else l.minTokens) ++ [op.sym] ++
    (if parenRight op r then "(" :: r.minTokens ++ [")"] else r.minTokens)

/-- The minimally parenthesised rendering with every token separated by one space. -/
def Expr.minInfix (t : Expr) : String :=
  jsJoin " " t.minTokens

/-- The minimally parenthesised rendering with parentheses written next to
what they enclose, as in `(A + B) * C`. -/
def Expr.minInfixTight : Expr → String
  | .operand a => a
  | .bin op l r =>
    (if parenLeft op l then "(" ++ l.minInfixTight ++ ")" else l.minInfixTight) ++ " " ++ op.sym
      ++ " " ++ (if parenRight op r then "(" ++ r.minInfixTight ++ ")" else r.minInfixTight)

/-- The result field of a conversion that may have failed. -/
def resultOf (r : Except String ConversionResult) : Except String (Option String) :=
  r.map (fun c => c.result)

/-- A token the tokenizer can produce: an operand token, a parenthesis or an operator. -/
def isToken (s : String) : Bool :=
  isOperandToken s || decide (s ∈ ["(", ")", "+", "-", "*", "/", "^"])

/-- The next character, if any, is not a digit. -/
def noDigitAhead (rest : List Char) : Bool :=
  match rest with
  | [] => true
  | c :: _ => !isDigit c

/-! ## Auxiliary notions for the shunting-yard proofs -/

/-- The effect of one pass of the loop of `infixToPostfixWithSteps` on the
pair (stack, output), without the trace. -/
def shuntCore (p : List String × List String) (tok : String) : List String × List String :=
  if isOperand tok then (p.1, p.2 ++ [tok])
  else if tok = "(" then (tok :: p.1, p.2)
  else if tok = ")" then ((popToParen p.1 p.2).1.tail, (popToParen p.1 p.2).2)
  else (tok :: (popOperators tok p.1 p.2).1, (popOperators tok p.1 p.2).2)

/-- The precedence of the root of a tree; an operand binds tighter than any operator. -/
def Expr.rootPrec : Expr → Nat
  | .operand _ => 5
  | .bin op _ _ => op.prec

/-- The operators of a tree that are still on the stack when its minimal
rendering has been scanned: the right spine, as far as it is not parenthesised. -/
def Expr.pending : Expr → List String
  | .operand _ => []
  | .bin op _ r => (if parenRight op r then [] else r.pending) ++ [op.sym]

/-- The tokens of a tree that are already in the output at that point. -/
def Expr.emitted : Expr → List String
  | .operand a => [a]
  | .bin op l r => l.postOrder ++ (if parenRight op r then r.postOrder else r.emitted)

/-- No operator of precedence at least `k` pops anything from the stack `S`. -/
def Guarded (k : Nat) (S : List String) : Prop :=
  ∀ o : Op, k ≤ o.prec → ∀ O, popOperators o.sym S O = (S, O)

/-- The tokens of `a1 ^ a2 ^ ... ^ an` after the first operand. -/
def powChain : List String → List String
  | [] => []
  | a :: as => "^" :: a :: powChain as

/-- The characters `cs`, followed by anything that does not start with a
digit, are tokenized to `toks` followed by the tokens of what follows. -/
def TokenizesTo (cs : List Char) (toks : List String) : Prop :=
  ∀ rest, noDigitAhead rest = true →
    tokenizeAux (cs ++ rest) 0 = (tokenizeAux rest 0).map (toks ++ ·)

/-- The tokens of the fully parenthesised rendering. -/
def Expr.fullTokens : Expr → List String
  | .operand a => [a]
  | .bin op l r => "(" :: (l.fullTokens ++ [op.sym] ++ r.fullTokens) ++ [")"]

/-- The tokens of the fully parenthesised rendering without its outermost pair. -/
def Expr.fullUnwrappedTokens : Expr → List String
  | .operand a => [a]
  | .bin op l r => l.fullTokens ++ [op.sym] ++ r.fullTokens

/-- Derivations of the grammar `E ::= operand | E op E | ( E )`. -/
inductive InfixExpr where
  | operand (name : String)
  | bin (l : InfixExpr) (op : Op) (r : InfixExpr)
  | paren (e : InfixExpr)
  deriving DecidableEq, Repr

/-- The token sequence a derivation yields. -/
def InfixExpr.tokens : InfixExpr → List String
  | .operand a => [a]
  | .bin l op r => l.tokens ++ [op.sym] ++ r.tokens
  | .paren e => "(" :: e.tokens ++ [")"]

/-- Every operand of the derivation is an operand token. -/
def InfixExpr.wellFormed : InfixExpr → Bool
  | .operand a => isOperandToken a
  | .bin l _ r => l.wellFormed && r.wellFormed
  | .paren e => e.wellFormed

/-- The operators `P` on the stack (top first) and the output `Q` produced
since the last open parenthesis form complete postfix operands: `Q` is the
post-order of one tree more than there are operators in `P`. -/
inductive Complete : List String → List String → Prop where
  | single (t : Expr) : t.wellFormed = true → Complete [] t.postOrder
  | push (o : Op) (t : Expr) {P Q : List String} : t.wellFormed = true → Complete P Q →
      Complete (o.sym :: P) (Q ++ t.postOrder)

/-- The state in which the next token starts an operand: nothing scanned
yet, or an operator was just pushed on a complete state. -/
def Awaiting (P Q : List String) : Prop :=
  (P = [] ∧ Q = []) ∨ ∃ (o : Op) (P' : List String), P = o.sym :: P' ∧ Complete P' Q

/-- A stack from which no operator pops: empty, or an open parenthesis on top. -/
def Base (S : List String) : Prop :=
  S = [] ∨ ∃ S', S = "(" :: S'

/-! ## Auxiliary notions for the claims on the tokenizer and the traces -/

/-- One of the seven punctuation characters `( ) + - * / ^`. -/
def isSymbolChar (c : Char) : Bool :=
  jsIncludes "()+-*/^" (String.singleton c)

/-- A character the tokenizer does not reject: a space, a letter, a digit
or one of `( ) + - * / ^`. -/
def isAccepted (c : Char) : Bool :=
  decide (c = ' ') || isLetter c || isDigit c || isSymbolChar c

/-- The characters of the regular-expression class `\s`. -/
def isJsWhitespace (c : Char) : Bool :=
  c.toNat = 0x20 || (0x09 ≤ c.toNat && c.toNat ≤ 0x0D) || c.toNat = 0xA0 || c.toNat = 0x1680 ||
    (0x2000 ≤ c.toNat && c.toNat ≤ 0x200A) || c.toNat = 0x2028 || c.toNat = 0x2029 ||
    c.toNat = 0x202F || c.toNat = 0x205F || c.toNat = 0x3000 || c.toNat = 0xFEFF

/-- The last character, if any, is not a digit. -/
def noDigitBehind (pre : List Char) : Bool :=
  match pre.getLast? with
  | none => true
  | some c => !isDigit c

/-- The six ordered pairs of distinct notations. -/
def supportedPairs : List (String × String) :=
  [("Infix", "Postfix"), ("Infix", "Prefix"), ("Postfix", "Infix"), ("Prefix", "Infix"),
    ("Postfix", "Prefix"), ("Prefix", "Postfix")]

/-- Parenthesis matching by a depth counter, one token at a time: the pair
is (open parentheses not yet closed, pairs matched so far).  A `)` met at
depth zero matches nothing. -/
def parenStep (p : Nat × Nat) (tok : String) : Nat × Nat :=
  if tok = "(" then (p.1 + 1, p.2)
  else if tok = ")" then (if p.1 = 0 then (0, p.2) else (p.1 - 1, p.2 + 1))
  else p

/-- The number of matched pairs of parentheses in a token sequence. -/
def parenMatched (toks : List String) : Nat :=
  (toks.foldl parenStep (0, 0)).2

/-- The tokens `consumed` are accounted for by the stack `S`, the output
`O`, every `)` consumed and `m` discarded `(`. -/
def Accounted (consumed S O : List String) (m : Nat) : Prop :=
  List.Perm (S ++ O ++ List.replicate (consumed.count ")") ")" ++ List.replicate m "(") consumed

/-- The indices of the steps recorded so far increase strictly and do not exceed the counter. -/
def Ordered (steps : List Step) (iter : Nat) : Prop :=
  (steps.map Step.iter).Pairwise (· < ·) ∧ ∀ st ∈ steps, st.iter ≤ iter

/-- Nothing was recorded and the counter is zero, or the first step recorded has index 1. -/
def StartsAtOne (steps : List Step) (iter : Nat) : Prop :=
  (steps = [] ∧ iter = 0) ∨ ∃ st rest, steps = st :: rest ∧ st.iter = 1

/-- The object `convert('Postfix', 'Infix', "A B +")` returns. -/
def postfixSample : ConversionResult :=
  { result := some "A + B",
    steps := [
      { iter := 1, input := "B +", stack := "A", output := some "", action := "push A" },
      { iter := 2, input := "+", stack := "A B", output := some "", action := "push B" },
      { iter := 3, input := "", stack := "(A + B)", output := some "",
        action := "combine A + B" },
      { iter := 4, input := "", stack := "", output := some "A + B", action := "finalize" }] }

/-! ## The tokenizer over UTF-16 code units

A JavaScript string is a sequence of 16-bit code units; `expression[i]`
is the one-unit string at index `i`. -/

/-- The code units of one character: itself in the Basic Multilingual
Plane, a high and a low surrogate beyond. -/
def charUnits (c : Char) : List Nat :=
  if c.toNat < 0x10000 then [c.toNat]
  else [0xD800 + (c.toNat - 0x10000) / 0x400, 0xDC00 + (c.toNat - 0x10000) % 0x400]

/-- The code units of a list of characters. -/
def unitsOf : List Char → List Nat
  | [] => []
  | c :: cs => charUnits c ++ unitsOf cs

/-- The code units of a string. -/
def toUnits (s : String) : List Nat :=
  unitsOf s.data

/-- The class `[A-Za-z]` on a code unit. -/
def isLetterUnit (u : Nat) : Bool :=
  ('A'.toNat ≤ u && u ≤ 'Z'.toNat) || ('a'.toNat ≤ u && u ≤ 'z'.toNat)

/-- The class `[0-9]` on a code unit. -/
def isDigitUnit (u : Nat) : Bool :=
  '0'.toNat ≤ u && u ≤ '9'.toNat

/-- The test `'()+-*/^'.includes(ch)` for the one-unit string `ch`. -/
def isSymbolUnit (u : Nat) : Bool :=
  (toUnits "()+-*/^").tails.any (fun t => [u].isPrefixOf t)

/-- A code unit the tokenizer does not reject. -/
def isAcceptedUnit (u : Nat) : Bool :=
  decide (u = ' '.toNat) || isLetterUnit u || isDigitUnit u || isSymbolUnit u

/-- The text `Invalid character: ` of the error message. -/
def invalidCharacterText : List Nat :=
  toUnits "Invalid character: "

/-- The body of the `for` loop of `tokenize` over code units, with the same
reading of the second argument as in `tokenizeAux`. -/
def tokenizeUnitsAux : List Nat → Nat → Except (List Nat) (List (List Nat))
  | [], _ => .ok []
  | _ :: rest, skip + 1 => tokenizeUnitsAux rest skip
  | ch :: rest, 0 =>
    if ch = ' '.toNat then tokenizeUnitsAux rest 0
    else if isLetterUnit ch then (tokenizeUnitsAux rest 0).map ([ch] :: ·)
    else if isDigitUnit ch then
      let more := rest.takeWhile isDigitUnit
      (tokenizeUnitsAux rest more.length).map ((ch :: more) :: ·)
    else if isSymbolUnit ch then (tokenizeUnitsAux rest 0).map ([ch] :: ·)
    else .error (invalidCharacterText ++ [ch])

/-- Function `tokenize(expression)` on the code units of `expression`: the
tokens, or the message of the thrown error, as code units. -/
def tokenizeUnits (expression : List Nat) : Except (List Nat) (List (List Nat)) :=
  tokenizeUnitsAux expression 0

/-- The outcome of `tokenize` on characters, read in code units: the tokens
unit by unit, and of the message the text and the first unit after it. -/
def unitsOutcome : Except String (List String) → Except (List Nat) (List (List Nat))
  | .ok toks => .ok (toks.map toUnits)
  | .error m => .error ((toUnits m).take (invalidCharacterText.length + 1))

/-! ## Lemmas on the tokenizer -/

theorem isLetter_ne_space {c : Char} (h : isLetter c = true) : c ≠ ' ' := by
  rintro rfl; revert h; decide

theorem isDigit_ne_space {c : Char} (h : isDigit c = true) : c ≠ ' ' := by
  rintro rfl; revert h; decide

theorem isDigit_not_isLetter {c : Char} (h : isDigit c = true) : isLetter c = false := by
  have h0 : '0'.toNat = 48 := by decide
  have h9 : '9'.toNat = 57 := by decide
  have hA : 'A'.toNat = 65 := by decide
  have hZ : 'Z'.toNat = 90 := by decide
  have ha : 'a'.toNat = 97 := by decide
  have hz : 'z'.toNat = 122 := by decide
  simp only [isDigit, isLetter, h0, h9, hA, hZ, ha, hz, Bool.and_eq_true, Bool.or_eq_false_iff,
    Bool.and_eq_false_iff, decide_eq_true_eq, decide_eq_false_iff_not] at *
  omega

theorem tokenizeAux_skip (ds rest : List Char) :
    tokenizeAux (ds ++ rest) ds.length = tokenizeAux rest 0 := by
  induction ds with
  | nil => cases rest <;> simp [tokenizeAux]
  | cons d ds ih => simpa [tokenizeAux] using ih

theorem takeWhile_digits (ds rest : List Char) (hds : ∀ c ∈ ds, isDigit c = true)
    (hrest : noDigitAhead rest = true) : (ds ++ rest).takeWhile isDigit = ds := by
  induction ds with
  | nil =>
    cases rest with
    | nil => rfl
    | cons c cs =>
      have : isDigit c = false := by simpa [noDigitAhead] using hrest
      simp [List.takeWhile, this]
  | cons d ds ih =>
    have hd : isDigit d = true := hds d (List.mem_cons_self _ _)
    have := ih (fun c hc => hds c (List.mem_cons_of_mem _ hc))
    simp [List.takeWhile, hd, this]

theorem tokenizeAux_letter (c : Char) (rest : List Char) (h : isLetter c = true) :
    tokenizeAux (c :: rest) 0 = (tokenizeAux rest 0).map (String.singleton c :: ·) := by
  rw [tokenizeAux, if_neg (isLetter_ne_space h), if_pos h]

theorem tokenizeAux_digits (d : Char) (ds rest : List Char) (hd : isDigit d = true)
    (hds : ∀ c ∈ ds, isDigit c = true) (hrest : noDigitAhead rest = true) :
    tokenizeAux (d :: (ds ++ rest)) 0 = (tokenizeAux rest 0).map (String.mk (d :: ds) :: ·) := by
  rw [tokenizeAux, if_neg (isDigit_ne_space hd), if_neg (by simp [isDigit_not_isLetter hd]), if_pos hd]
  simp only [takeWhile_digits ds rest hds hrest, tokenizeAux_skip]

theorem tokenizeAux_symbol (c : Char) (rest : List Char)
    (h : c ∈ ['(', ')', '+', '-', '*', '/', '^']) :
    tokenizeAux (c :: rest) 0 = (tokenizeAux rest 0).map (String.singleton c :: ·) := by
  simp only [List.mem_cons, List.mem_singleton, List.not_mem_nil, or_false] at h
  rcases h with rfl | rfl | rfl | rfl | rfl | rfl | rfl <;>
    · rw [tokenizeAux, if_neg (by decide), if_neg (by decide), if_neg (by decide), if_pos (by decide)]

theorem tokenizeAux_operand (tok : String) (rest : List Char) (h : isOperandToken tok = true)
    (hrest : noDigitAhead rest = true) :
    tokenizeAux (tok.data ++ rest) 0 = (tokenizeAux rest 0).map (tok :: ·) := by
  obtain ⟨cs⟩ := tok
  match cs, h with
  | [c], h =>
    simp only [isOperandToken, Bool.or_eq_true] at h
    rcases h with h | h
    · exact tokenizeAux_letter c rest h
    · exact tokenizeAux_digits c [] rest h (by simp) hrest
  | c :: c2 :: cs, h =>
    simp only [isOperandToken, List.all_cons, Bool.and_eq_true, List.all_eq_true] at h
    have hds : ∀ x ∈ c2 :: cs, isDigit x = true := by
      intro x hx
      rcases List.mem_cons.1 hx with rfl | hx
      · exact h.2.1
      · exact h.2.2 x hx
    exact tokenizeAux_digits c (c2 :: cs) rest h.1 hds hrest

theorem tokenizeAux_token (tok : String) (rest : List Char) (h : isToken tok = true)
    (hrest : noDigitAhead rest = true) :
    tokenizeAux (tok.data ++ rest) 0 = (tokenizeAux rest 0).map (tok :: ·) := by
  simp only [isToken, Bool.or_eq_true, decide_eq_true_eq] at h
  rcases h with h | h
  · exact tokenizeAux_operand tok rest h hrest
  · simp only [List.mem_cons, List.mem_singleton, List.not_mem_nil, or_false] at h
    rcases h with rfl | rfl | rfl | rfl | rfl | rfl | rfl
    · exact tokenizeAux_symbol '(' rest (by decide)
    · exact tokenizeAux_symbol ')' rest (by decide)
    · exact tokenizeAux_symbol '+' rest (by decide)
    · exact tokenizeAux_symbol '-' rest (by decide)
    · exact tokenizeAux_symbol '*' rest (by decide)
    · exact tokenizeAux_symbol '/' rest (by decide)
    · exact tokenizeAux_symbol '^' rest (by decide)

theorem tokenizeAux_space (rest : List Char) :
    tokenizeAux (' ' :: rest) 0 = tokenizeAux rest 0 := by
  rw [tokenizeAux, if_pos rfl]

theorem jsJoin_cons_cons (sep a b : String) (rest : List String) :
    jsJoin sep (a :: b :: rest) = a ++ sep ++ jsJoin sep (b :: rest) := rfl

/-- Tokenizing the single-space join of a list of tokens gives the list back. -/
theorem tokenize_jsJoin (toks : List String) (h : ∀ t ∈ toks, isToken t = true) :
    tokenize (jsJoin " " toks) = .ok toks := by
  induction toks with
  | nil => rfl
  | cons a as ih =>
    have ha : isToken a = true := h a (List.mem_cons_self _ _)
    have has : ∀ t ∈ as, isToken t = true := fun t ht => h t (List.mem_cons_of_mem _ ht)
    cases as with
    | nil =>
      have := tokenizeAux_token a [] ha rfl
      simpa [tokenize, jsJoin, tokenizeAux, Except.map] using this
    | cons b bs =>
      have ih := ih has
      unfold tokenize at ih ⊢
      rw [jsJoin_cons_cons, String.data_append, String.data_append, List.append_assoc]
      rw [tokenizeAux_token a _ ha (by rfl)]
      have : (" " : String).data = [' '] := rfl
      rw [this, List.singleton_append, tokenizeAux_space, ih]
      rfl

/-! ## Lemmas on tokens of trees -/

theorem isToken_sym (o : Op) : isToken o.sym = true := by
  cases o <;> decide

theorem isOperand_sym (o : Op) : isOperand o.sym = false := by
  cases o <;> decide

theorem includes_sym (o : Op) : jsIncludes "+-*/^" o.sym = true := by
  cases o <;> decide

theorem isToken_of_isOperandToken {a : String} (h : isOperandToken a = true) :
    isToken a = true := by
  simp [isToken, h]

theorem isOperand_of_isOperandToken {a : String} (h : isOperandToken a = true) :
    isOperand a = true := by
  obtain ⟨cs⟩ := a
  match cs, h with
  | [c], h => simpa [isOperand, isOperandToken] using h
  | c :: c2 :: cs, h =>
    simp only [isOperandToken, List.all_cons, Bool.and_eq_true] at h
    simp [isOperand, h.1]

theorem postOrder_tokens (t : Expr) (h : t.wellFormed = true) :
    ∀ x ∈ t.postOrder, isToken x = true := by
  induction t with
  | operand a =>
    intro x hx
    simp only [Expr.postOrder, List.mem_singleton] at hx
    subst hx
    exact isToken_of_isOperandToken h
  | bin op l r ihl ihr =>
    simp only [Expr.wellFormed, Bool.and_eq_true] at h
    intro x hx
    simp only [Expr.postOrder, List.mem_append, List.mem_singleton] at hx
    rcases hx with (hx | hx) | rfl
    · exact ihl h.1 x hx
    · exact ihr h.2 x hx
    · exact isToken_sym op

theorem preOrder_tokens (t : Expr) (h : t.wellFormed = true) :
    ∀ x ∈ t.preOrder, isToken x = true := by
  induction t with
  | operand a =>
    intro x hx
    simp only [Expr.preOrder, List.mem_singleton] at hx
    subst hx
    exact isToken_of_isOperandToken h
  | bin op l r ihl ihr =>
    simp only [Expr.wellFormed, Bool.and_eq_true] at h
    intro x hx
    simp only [Expr.preOrder, List.mem_cons, List.mem_append] at hx
    rcases hx with rfl | hx | hx
    · exact isToken_sym op
    · exact ihl h.1 x hx
    · exact ihr h.2 x hx

/-! ## Lemmas on the unwrap of the final fragment -/

theorem isLetter_not_lineTerminator {c : Char} (h : isLetter c = true) :
    isLineTerminator c = false := by
  have hA : 'A'.toNat = 65 := by decide
  have hZ : 'Z'.toNat = 90 := by decide
  have ha : 'a'.toNat = 97 := by decide
  have hz : 'z'.toNat = 122 := by decide
  simp only [isLetter, isLineTerminator, hA, hZ, ha, hz, Bool.and_eq_true, Bool.or_eq_true,
    Bool.or_eq_false_iff, decide_eq_true_eq, decide_eq_false_iff_not] at *
  omega

theorem isDigit_not_lineTerminator {c : Char} (h : isDigit c = true) :
    isLineTerminator c = false := by
  have h0 : '0'.toNat = 48 := by decide
  have h9 : '9'.toNat = 57 := by decide
  simp only [isDigit, isLineTerminator, h0, h9, Bool.and_eq_true,
    Bool.or_eq_false_iff, decide_eq_true_eq, decide_eq_false_iff_not] at *
  omega

theorem operandToken_chars {a : String} (h : isOperandToken a = true) :
    ∀ c ∈ a.data, isLetter c = true ∨ isDigit c = true := by
  obtain ⟨cs⟩ := a
  match cs, h with
  | [c], h =>
    intro x hx
    simp only [List.mem_singleton] at hx
    subst hx
    simpa [isOperandToken] using h
  | c :: c2 :: cs, h =>
    simp only [isOperandToken, List.all_eq_true] at h
    intro x hx
    exact Or.inr (h x hx)

theorem noLT_append {a b : String} (ha : ∀ c ∈ a.data, isLineTerminator c = false)
    (hb : ∀ c ∈ b.data, isLineTerminator c = false) :
    ∀ c ∈ (a ++ b).data, isLineTerminator c = false := by
  intro c hc
  simp only [String.data_append, List.mem_append] at hc
  rcases hc with hc | hc
  · exact ha c hc
  · exact hb c hc

theorem noLT_sym (o : Op) : ∀ c ∈ o.sym.data, isLineTerminator c = false := by
  cases o <;> decide

theorem full_no_lineTerminator (t : Expr) (h : t.wellFormed = true) :
    ∀ c ∈ t.full.data, isLineTerminator c = false := by
  induction t with
  | operand a =>
    intro c hc
    rcases operandToken_chars h c hc with h1 | h1
    · exact isLetter_not_lineTerminator h1
    · exact isDigit_not_lineTerminator h1
  | bin op l r ihl ihr =>
    simp only [Expr.wellFormed, Bool.and_eq_true] at h
    exact noLT_append (noLT_append (noLT_append (noLT_append (noLT_append (noLT_append
      (by decide) (ihl h.1)) (by decide)) (noLT_sym op)) (by decide)) (ihr h.2)) (by decide)

theorem unwrapOuter_paren (mid : List Char) (h : ∀ c ∈ mid, isLineTerminator c = false) :
    unwrapOuter (String.mk ('(' :: (mid ++ [')']))) = String.mk mid := by
  have h1 : (mid ++ [')']).getLast? = some ')' := by simp
  have h2 : (mid ++ [')']).dropLast = mid := by simp
  simp only [unwrapOuter, h1, h2, true_and]
  rw [if_pos]
  simp only [List.all_eq_true, Bool.not_eq_true']
  exact h

theorem unwrapOuter_operand {a : String} (h : isOperandToken a = true) : unwrapOuter a = a := by
  obtain ⟨cs⟩ := a
  have hc := operandToken_chars h
  match cs, h, hc with
  | c :: cs, _, hc =>
    have h1 : c ≠ '(' := by
      rintro rfl
      have := hc '(' (List.mem_cons_self _ _)
      revert this; decide
    unfold unwrapOuter
    split
    · next rest heq =>
      simp only [List.cons.injEq] at heq
      exact absurd heq.1 h1
    · rfl

theorem finalInfix_full (t : Expr) (h : t.wellFormed = true) :
    finalInfix (some t.full) = t.fullUnwrapped := by
  cases t with
  | operand a => exact unwrapOuter_operand h
  | bin op l r =>
    simp only [Expr.wellFormed, Bool.and_eq_true] at h
    have hmid : ∀ c ∈ (l.full ++ " " ++ op.sym ++ " " ++ r.full).data,
        isLineTerminator c = false :=
      noLT_append (noLT_append (noLT_append (noLT_append
        (full_no_lineTerminator l h.1) (by decide)) (noLT_sym op)) (by decide))
        (full_no_lineTerminator r h.2)
    have e : ("(" ++ l.full ++ " " ++ op.sym ++ " " ++ r.full ++ ")") =
        String.mk ('(' :: ((l.full ++ " " ++ op.sym ++ " " ++ r.full).data ++ [')'])) := by
      apply String.ext
      simp [String.data_append]
    simp only [finalInfix, Expr.full, Expr.fullUnwrapped]
    rw [e, unwrapOuter_paren _ hmid]

/-! ## The fragment stacks on traversals of a tree -/

theorem postfixToInfixLoop_tree (t : Expr) (h : t.wellFormed = true) :
    ∀ (rest : List String) (s : FragState), ∃ s',
      postfixToInfixLoop (t.postOrder ++ rest) s = postfixToInfixLoop rest s' ∧
      s'.stack = t.full :: s.stack := by
  induction t with
  | operand a =>
    intro rest s
    refine ⟨postfixToInfixStep s a (jsJoin " " rest), rfl, ?_⟩
    have := isOperand_of_isOperandToken h
    simp [postfixToInfixStep, this, Expr.full]
  | bin op l r ihl ihr =>
    intro rest s
    simp only [Expr.wellFormed, Bool.and_eq_true] at h
    obtain ⟨s1, e1, k1⟩ := ihl h.1 (r.postOrder ++ (op.sym :: rest)) s
    obtain ⟨s2, e2, k2⟩ := ihr h.2 (op.sym :: rest) s1
    refine ⟨postfixToInfixStep s2 op.sym (jsJoin " " rest), ?_, ?_⟩
    · simp only [Expr.postOrder, List.append_assoc, List.singleton_append]
      rw [e1, e2]; rfl
    · simp [postfixToInfixStep, isOperand_sym, includes_sym, k2, k1, jsShow, Expr.full]

theorem prefixToInfixLoop_tree (t : Expr) (h : t.wellFormed = true) :
    ∀ (rest : List String) (s : FragState), ∃ s',
      prefixToInfixLoop (t.preOrder.reverse ++ rest) s = prefixToInfixLoop rest s' ∧
      s'.stack = t.full :: s.stack := by
  induction t with
  | operand a =>
    intro rest s
    refine ⟨prefixToInfixStep s a (jsJoin " " rest.reverse), rfl, ?_⟩
    have := isOperand_of_isOperandToken h
    simp [prefixToInfixStep, this, Expr.full]
  | bin op l r ihl ihr =>
    intro rest s
    simp only [Expr.wellFormed, Bool.and_eq_true] at h
    obtain ⟨s1, e1, k1⟩ := ihr h.2 (l.preOrder.reverse ++ (op.sym :: rest)) s
    obtain ⟨s2, e2, k2⟩ := ihl h.1 (op.sym :: rest) s1
    refine ⟨prefixToInfixStep s2 op.sym (jsJoin " " rest.reverse), ?_, ?_⟩
    · simp only [Expr.preOrder, List.reverse_cons, List.reverse_append, List.append_assoc,
        List.singleton_append]
      rw [e1, e2]; rfl
    · simp [prefixToInfixStep, isOperand_sym, includes_sym, k2, k1, jsShow, Expr.full]

theorem jsJoin_cons (sep a : String) (l : List String) (hl : l ≠ []) :
    jsJoin sep (a :: l) = a ++ sep ++ jsJoin sep l := by
  cases l with
  | nil => exact absurd rfl hl
  | cons b bs => rfl

theorem jsJoin_append (sep : String) (l r : List String) (hl : l ≠ []) (hr : r ≠ []) :
    jsJoin sep (l ++ r) = jsJoin sep l ++ sep ++ jsJoin sep r := by
  induction l with
  | nil => exact absurd rfl hl
  | cons a as ih =>
    cases as with
    | nil => exact jsJoin_cons sep a r hr
    | cons b bs =>
      have := ih (by simp)
      rw [List.cons_append, jsJoin_cons sep a _ (by simp), this, jsJoin_cons sep a _ (by simp)]
      simp only [String.append_assoc]

theorem postOrder_ne_nil (t : Expr) : t.postOrder ≠ [] := by
  cases t <;> simp [Expr.postOrder]

theorem preOrder_ne_nil (t : Expr) : t.preOrder ≠ [] := by
  cases t <;> simp [Expr.preOrder]

theorem jsJoin_preOrder_bin (op : Op) (l r : Expr) :
    jsJoin " " (Expr.bin op l r).preOrder =
      op.sym ++ " " ++ jsJoin " " l.preOrder ++ " " ++ jsJoin " " r.preOrder := by
  rw [Expr.preOrder, jsJoin_cons _ _ _ (by simp [preOrder_ne_nil]),
    jsJoin_append _ _ _ (preOrder_ne_nil l) (preOrder_ne_nil r)]
  simp only [String.append_assoc]

theorem jsJoin_postOrder_bin (op : Op) (l r : Expr) :
    jsJoin " " (Expr.bin op l r).postOrder =
      jsJoin " " l.postOrder ++ " " ++ jsJoin " " r.postOrder ++ " " ++ op.sym := by
  rw [Expr.postOrder, jsJoin_append _ _ _ (by simp [postOrder_ne_nil]) (by simp),
    jsJoin_append _ _ _ (postOrder_ne_nil l) (postOrder_ne_nil r)]
  rfl

theorem postfixPrefixLoop_tree (t : Expr) (h : t.wellFormed = true) :
    ∀ (rest : List String) (s : FragState), ∃ s',
      postfixPrefixLoop (t.postOrder ++ rest) s = postfixPrefixLoop rest s' ∧
      s'.stack = jsJoin " " t.preOrder :: s.stack := by
  induction t with
  | operand a =>
    intro rest s
    refine ⟨postfixPrefixStep s a (jsJoin " " rest), rfl, ?_⟩
    have := isOperand_of_isOperandToken h
    simp [postfixPrefixStep, this, Expr.preOrder, jsJoin]
  | bin op l r ihl ihr =>
    intro rest s
    simp only [Expr.wellFormed, Bool.and_eq_true] at h
    obtain ⟨s1, e1, k1⟩ := ihl h.1 (r.postOrder ++ (op.sym :: rest)) s
    obtain ⟨s2, e2, k2⟩ := ihr h.2 (op.sym :: rest) s1
    refine ⟨postfixPrefixStep s2 op.sym (jsJoin " " rest), ?_, ?_⟩
    · simp only [Expr.postOrder, List.append_assoc, List.singleton_append]
      rw [e1, e2]; rfl
    · simp [postfixPrefixStep, isOperand_sym, k2, k1, jsShow, jsJoin_preOrder_bin]

theorem prefixPostfixLoop_tree (t : Expr) (h : t.wellFormed = true) :
    ∀ (rest : List String) (s : FragState), ∃ s',
      prefixPostfixLoop (t.preOrder.reverse ++ rest) s = prefixPostfixLoop rest s' ∧
      s'.stack = jsJoin " " t.postOrder :: s.stack := by
  induction t with
  | operand a =>
    intro rest s
    refine ⟨prefixPostfixStep s a (jsJoin " " rest.reverse), rfl, ?_⟩
    have := isOperand_of_isOperandToken h
    simp [prefixPostfixStep, this, Expr.postOrder, jsJoin]
  | bin op l r ihl ihr =>
    intro rest s
    simp only [Expr.wellFormed, Bool.and_eq_true] at h
    obtain ⟨s1, e1, k1⟩ := ihr h.2 (l.preOrder.reverse ++ (op.sym :: rest)) s
    obtain ⟨s2, e2, k2⟩ := ihl h.1 (op.sym :: rest) s1
    refine ⟨prefixPostfixStep s2 op.sym (jsJoin " " rest.reverse), ?_, ?_⟩
    · simp only [Expr.preOrder, List.reverse_cons, List.reverse_append, List.append_assoc,
        List.singleton_append]
      rw [e1, e2]; rfl
    · simp [prefixPostfixStep, isOperand_sym, k2, k1, jsShow, jsJoin_postOrder_bin]

theorem postfixToPrefix_result (t : Expr) (h : t.wellFormed = true) :
    resultOf (convert "Postfix" "Prefix" (jsJoin " " t.postOrder)) =
      .ok (some (jsJoin " " t.preOrder)) := by
  obtain ⟨s', e, k⟩ := postfixPrefixLoop_tree t h [] { stack := [], steps := [], iter := 0 }
  rw [List.append_nil] at e
  have c : convert "Postfix" "Prefix" (jsJoin " " t.postOrder) =
      match tokenize (jsJoin " " t.postOrder) with
      | .error e => .error e
      | .ok toks =>
        .ok (finishDirect (postfixPrefixLoop toks { stack := [], steps := [], iter := 0 })) := by
    unfold convert
    rw [if_neg (by decide), if_neg (by decide), if_neg (by decide), if_neg (by decide),
      if_neg (by decide), if_pos (by decide)]
  rw [c]
  simp only [tokenize_jsJoin _ (postOrder_tokens t h), e, resultOf,
    Except.map, finishDirect, postfixPrefixLoop, k, List.head?_cons]

theorem prefixToPostfix_result (t : Expr) (h : t.wellFormed = true) :
    resultOf (convert "Prefix" "Postfix" (jsJoin " " t.preOrder)) =
      .ok (some (jsJoin " " t.postOrder)) := by
  obtain ⟨s', e, k⟩ := prefixPostfixLoop_tree t h [] { stack := [], steps := [], iter := 0 }
  rw [List.append_nil] at e
  have c : convert "Prefix" "Postfix" (jsJoin " " t.preOrder) =
      match tokenize (jsJoin " " t.preOrder) with
      | .error e => .error e
      | .ok toks =>
        .ok (finishDirect
          (prefixPostfixLoop toks.reverse { stack := [], steps := [], iter := 0 })) := by
    unfold convert
    rw [if_neg (by decide), if_neg (by decide), if_neg (by decide), if_neg (by decide),
      if_neg (by decide), if_neg (by decide), if_pos (by decide)]
  rw [c]
  simp only [tokenize_jsJoin _ (preOrder_tokens t h), e, resultOf,
    Except.map, finishDirect, prefixPostfixLoop, k, List.head?_cons]

theorem postfixToInfix_result (t : Expr) (h : t.wellFormed = true) :
    resultOf (postfixToInfixWithSteps (jsJoin " " t.postOrder)) = .ok (some t.fullUnwrapped) := by
  obtain ⟨s', e, k⟩ := postfixToInfixLoop_tree t h [] { stack := [], steps := [], iter := 0 }
  rw [List.append_nil] at e
  simp only [postfixToInfixWithSteps, tokenize_jsJoin _ (postOrder_tokens t h), e, resultOf,
    Except.map, finishInfix, postfixToInfixLoop, k, List.head?_cons, finalInfix_full t h]

theorem prefixToInfix_result (t : Expr) (h : t.wellFormed = true) :
    resultOf (prefixToInfixWithSteps (jsJoin " " t.preOrder)) = .ok (some t.fullUnwrapped) := by
  obtain ⟨s', e, k⟩ := prefixToInfixLoop_tree t h [] { stack := [], steps := [], iter := 0 }
  rw [List.append_nil] at e
  simp only [prefixToInfixWithSteps, tokenize_jsJoin _ (preOrder_tokens t h), e, resultOf,
    Except.map, finishInfix, prefixToInfixLoop, k, List.head?_cons, finalInfix_full t h]

theorem jsJoin_chars (sep : String) (l : List String) :
    ∀ c ∈ (jsJoin sep l).data, c ∈ sep.data ∨ ∃ x ∈ l, c ∈ x.data := by
  induction l with
  | nil => intro c hc; simp [jsJoin] at hc
  | cons a as ih =>
    cases as with
    | nil =>
      intro c hc
      exact Or.inr ⟨a, List.mem_cons_self _ _, hc⟩
    | cons b bs =>
      intro c hc
      rw [jsJoin_cons_cons] at hc
      simp only [String.data_append, List.mem_append] at hc
      rcases hc with (hc | hc) | hc
      · exact Or.inr ⟨a, List.mem_cons_self _ _, hc⟩
      · exact Or.inl hc
      · rcases ih c hc with h1 | ⟨x, hx, hcx⟩
        · exact Or.inl h1
        · exact Or.inr ⟨x, List.mem_cons_of_mem _ hx, hcx⟩

theorem preOrder_no_paren (t : Expr) (h : t.wellFormed = true) :
    ∀ x ∈ t.preOrder, ∀ c ∈ x.data, c ≠ '(' ∧ c ≠ ')' := by
  induction t with
  | operand a =>
    intro x hx c hc
    simp only [Expr.preOrder, List.mem_singleton] at hx
    subst hx
    rcases operandToken_chars h c hc with h1 | h1
    · constructor <;> (rintro rfl; revert h1; decide)
    · constructor <;> (rintro rfl; revert h1; decide)
  | bin op l r ihl ihr =>
    simp only [Expr.wellFormed, Bool.and_eq_true] at h
    intro x hx
    simp only [Expr.preOrder, List.mem_cons, List.mem_append] at hx
    rcases hx with rfl | hx | hx
    · cases op <;> decide
    · exact ihl h.1 x hx
    · exact ihr h.2 x hx

theorem infixPrefixLoop_eq (toks : List String) :
    ∀ s, infixPrefixLoop toks s = postfixPrefixLoop toks s := by
  induction toks with
  | nil => intro s; rfl
  | cons tok rest ih =>
    intro s
    show infixPrefixLoop rest (infixPrefixStep s tok (jsJoin " " rest)) =
      postfixPrefixLoop rest (postfixPrefixStep s tok (jsJoin " " rest))
    rw [ih]
    rfl

/-! ## The shunting-yard loop without its trace -/

theorem shuntStep_core (s : ShuntState) (tok : String) (rest : List String) :
    ((shuntStep s tok rest).stack, (shuntStep s tok rest).output) =
      shuntCore (s.stack, s.output) tok := by
  unfold shuntStep shuntCore
  by_cases h1 : isOperand tok = true
  · rw [if_pos h1, if_pos h1]
  · rw [if_neg h1, if_neg h1]
    by_cases h2 : tok = "("
    · rw [if_pos h2, if_pos h2]
    · rw [if_neg h2, if_neg h2]
      by_cases h3 : tok = ")"
      · rw [if_pos h3, if_pos h3]
      · rw [if_neg h3, if_neg h3]

theorem shuntLoop_core (toks : List String) :
    ∀ s : ShuntState, ((shuntLoop toks s).stack, (shuntLoop toks s).output) =
      toks.foldl shuntCore (s.stack, s.output) := by
  induction toks with
  | nil => intro s; rfl
  | cons tok rest ih =>
    intro s
    rw [shuntLoop, ih, shuntStep_core, List.foldl_cons]

theorem infixToPostfix_result (e : String) (toks S O : List String)
    (ht : tokenize e = .ok toks) (hr : toks.foldl shuntCore ([], []) = (S, O)) :
    resultOf (infixToPostfixWithSteps e) = .ok (some (jsJoin " " (O ++ S))) := by
  have h := shuntLoop_core toks { output := [], stack := [], steps := [], iter := 0 }
  rw [hr] at h
  simp only [Prod.mk.injEq] at h
  simp only [infixToPostfixWithSteps, ht, resultOf, Except.map, shuntFinish, h.1, h.2]

theorem shuntCore_operand (S O : List String) {a : String} (h : isOperandToken a = true) :
    shuntCore (S, O) a = (S, O ++ [a]) := by
  simp [shuntCore, isOperand_of_isOperandToken h]

theorem shuntCore_open (S O : List String) : shuntCore (S, O) "(" = ("(" :: S, O) := by
  rw [shuntCore, if_neg (by decide), if_pos rfl]

theorem shuntCore_close (S O : List String) :
    shuntCore (S, O) ")" = ((popToParen S O).1.tail, (popToParen S O).2) := by
  rw [shuntCore, if_neg (by decide), if_neg (by decide), if_pos rfl]

theorem sym_ne_open (o : Op) : o.sym ≠ "(" := by cases o <;> decide

theorem sym_ne_close (o : Op) : o.sym ≠ ")" := by cases o <;> decide

theorem shuntCore_sym (S O : List String) (o : Op) :
    shuntCore (S, O) o.sym = (o.sym :: (popOperators o.sym S O).1, (popOperators o.sym S O).2) := by
  rw [shuntCore, if_neg (by simp [isOperand_sym]), if_neg (sym_ne_open o), if_neg (sym_ne_close o)]

theorem precedence_sym (o : Op) : precedence o.sym = o.prec := by cases o <;> decide

theorem isRightAssoc_sym (o : Op) : isRightAssoc o.sym = decide (o = Op.pow) := by
  cases o <;> decide

/-- Popping down to an opening parenthesis moves a run of operators to the output. -/
theorem popToParen_ops (P S O : List String) (hP : ∀ x ∈ P, ∃ o : Op, x = o.sym) :
    popToParen (P ++ "(" :: S) O = ("(" :: S, O ++ P) := by
  induction P generalizing O with
  | nil => simp [popToParen]
  | cons x P ih =>
    obtain ⟨o, rfl⟩ := hP x (List.mem_cons_self _ _)
    rw [List.cons_append, popToParen, if_pos (sym_ne_open o),
      ih _ (fun y hy => hP y (List.mem_cons_of_mem _ hy))]
    simp

/-- An operator pops every operator above the guard that binds at least as tightly. -/
theorem popOperators_pending (op : Op) (P S O : List String)
    (hP : ∀ x ∈ P, ∃ o : Op, x = o.sym ∧
      (o.prec > op.prec ∨ (o.prec = op.prec ∧ op ≠ Op.pow)))
    (hS : Guarded op.prec S) :
    popOperators op.sym (P ++ S) O = (S, O ++ P) := by
  induction P generalizing O with
  | nil => simpa using hS op (le_refl _) O
  | cons x P ih =>
    obtain ⟨o, rfl, ho⟩ := hP x (List.mem_cons_self _ _)
    rw [List.cons_append, popOperators, if_pos (includes_sym o), if_pos,
      ih _ (fun y hy => hP y (List.mem_cons_of_mem _ hy))]
    · simp
    · simpa [precedence_sym, isRightAssoc_sym] using ho

theorem guarded_nil (k : Nat) : Guarded k [] := by
  intro o _ O
  rfl

theorem guarded_open (k : Nat) (S : List String) : Guarded k ("(" :: S) := by
  intro o _ O
  rw [popOperators, if_neg (by decide)]

theorem guarded_mono {k k' : Nat} {S : List String} (h : k ≤ k') (hS : Guarded k S) :
    Guarded k' S :=
  fun o ho O => hS o (le_trans h ho) O

theorem guarded_sym (k : Nat) (op : Op) (S : List String)
    (h : ∀ o : Op, k ≤ o.prec → ¬ (op.prec > o.prec ∨ (op.prec = o.prec ∧ o ≠ Op.pow))) :
    Guarded k (op.sym :: S) := by
  intro o ho O
  rw [popOperators, if_pos (includes_sym op), if_neg]
  simpa [precedence_sym, isRightAssoc_sym] using h o ho

/-! ## Shunting-yard on the minimally parenthesised rendering -/

theorem op_prec_le_four (o : Op) : o.prec ≤ 4 := by cases o <;> decide

theorem rootPrec_of_not_parenRight {op : Op} {r : Expr} (h : parenRight op r = false) :
    op.prec ≤ r.rootPrec := by
  cases r with
  | operand a => exact le_trans (op_prec_le_four op) (by simp [Expr.rootPrec])
  | bin o l r =>
    simp only [parenRight, Bool.or_eq_false_iff, decide_eq_false_iff_not, not_lt] at h
    exact h.1

theorem rootPrec_of_not_parenLeft {op : Op} {l : Expr} (h : parenLeft op l = false) :
    op.prec ≤ l.rootPrec := by
  cases l with
  | operand a => exact le_trans (op_prec_le_four op) (by simp [Expr.rootPrec])
  | bin o l r =>
    simp only [parenLeft, Bool.or_eq_false_iff, decide_eq_false_iff_not, not_lt] at h
    exact h.1

theorem pending_mem (t : Expr) :
    ∀ x ∈ t.pending, ∃ o : Op, x = o.sym ∧ t.rootPrec ≤ o.prec := by
  induction t with
  | operand a => intro x hx; simp [Expr.pending] at hx
  | bin op l r _ ihr =>
    intro x hx
    simp only [Expr.pending, List.mem_append, List.mem_singleton] at hx
    rcases hx with hx | rfl
    · by_cases hp : parenRight op r = true
      · simp [hp] at hx
      · have hp' : parenRight op r = false := by simpa using hp
        simp only [hp', Bool.false_eq_true, if_false] at hx
        obtain ⟨o, ho, hle⟩ := ihr x hx
        exact ⟨o, ho, le_trans (rootPrec_of_not_parenRight hp') hle⟩
    · exact ⟨op, rfl, le_refl _⟩

theorem pending_ops (t : Expr) : ∀ x ∈ t.pending, ∃ o : Op, x = o.sym :=
  fun x hx => let ⟨o, ho, _⟩ := pending_mem t x hx; ⟨o, ho⟩

theorem emitted_pending (t : Expr) : t.emitted ++ t.pending = t.postOrder := by
  induction t with
  | operand a => rfl
  | bin op l r _ ihr =>
    by_cases hp : parenRight op r = true
    · simp [Expr.emitted, Expr.pending, Expr.postOrder, hp]
    · have hp' : parenRight op r = false := by simpa using hp
      simp only [Expr.emitted, Expr.pending, Expr.postOrder, hp', Bool.false_eq_true, if_false]
      rw [← ihr]
      simp

/-- A parenthesised subtree leaves the stack as it was and adds its post-order to the output. -/
theorem shunt_paren (t : Expr)
    (ih : ∀ S O, Guarded t.rootPrec S →
      t.minTokens.foldl shuntCore (S, O) = (t.pending ++ S, O ++ t.emitted)) (S O : List String) :
    ("(" :: t.minTokens ++ [")"]).foldl shuntCore (S, O) = (S, O ++ t.postOrder) := by
  rw [List.cons_append, List.foldl_cons, List.foldl_append, shuntCore_open,
    ih _ _ (guarded_open _ _), List.foldl_cons, List.foldl_nil, shuntCore_close,
    popToParen_ops _ _ _ (pending_ops t), List.append_assoc, emitted_pending]
  rfl

/-- A bare left subtree is flushed entirely by the operator of its parent. -/
theorem shunt_left_flush (op : Op) (l : Expr) (hp : parenLeft op l = false)
    (S O : List String) (hS : Guarded op.prec S) :
    popOperators op.sym (l.pending ++ S) O = (S, O ++ l.pending) := by
  apply popOperators_pending op _ _ _ _ hS
  intro x hx
  obtain ⟨o, ho, hle⟩ := pending_mem l x hx
  refine ⟨o, ho, ?_⟩
  cases l with
  | operand a => simp [Expr.pending] at hx
  | bin o' l' r' =>
    simp only [parenLeft, Bool.or_eq_false_iff, decide_eq_false_iff_not, not_lt,
      Bool.and_eq_false_iff] at hp
    simp only [Expr.rootPrec] at hle
    rcases hp with ⟨h1, h2 | h2⟩
    · left; omega
    · by_cases h3 : o.prec = op.prec
      · right; exact ⟨h3, h2⟩
      · left; omega

theorem guarded_right (op : Op) (r : Expr) (hp : parenRight op r = false) (S : List String) :
    Guarded r.rootPrec (op.sym :: S) := by
  apply guarded_sym
  intro o ho
  cases r with
  | operand a =>
    simp only [Expr.rootPrec] at ho
    have := op_prec_le_four o
    omega
  | bin o' l' r' =>
    simp only [Expr.rootPrec] at ho
    simp only [parenRight, Bool.or_eq_false_iff, decide_eq_false_iff_not, not_lt,
      Bool.and_eq_false_iff] at hp
    revert ho hp
    cases op <;> cases o' <;> cases o <;> decide

theorem shunt_minTokens (t : Expr) (h : t.wellFormed = true) :
    ∀ S O, Guarded t.rootPrec S →
      t.minTokens.foldl shuntCore (S, O) = (t.pending ++ S, O ++ t.emitted) := by
  induction t with
  | operand a =>
    intro S O _
    simp only [Expr.minTokens, List.foldl_cons, List.foldl_nil, shuntCore_operand S O h]
    rfl
  | bin op l r ihl ihr =>
    simp only [Expr.wellFormed, Bool.and_eq_true] at h
    intro S O hS
    simp only [Expr.rootPrec] at hS
    have hleft : ((if parenLeft op l = true then "(" :: l.minTokens ++ [")"] else l.minTokens)
        ++ [op.sym]).foldl shuntCore (S, O) = (op.sym :: S, O ++ l.postOrder) := by
      by_cases hp : parenLeft op l = true
      · rw [if_pos hp, List.foldl_append, shunt_paren l (ihl h.1), List.foldl_cons,
          List.foldl_nil, shuntCore_sym, hS op (le_refl _)]
      · have hp' : parenLeft op l = false := by simpa using hp
        rw [if_neg hp, List.foldl_append,
          ihl h.1 _ _ (guarded_mono (rootPrec_of_not_parenLeft hp') hS), List.foldl_cons,
          List.foldl_nil, shuntCore_sym, shunt_left_flush op l hp' _ _ hS, List.append_assoc,
          emitted_pending]
    rw [Expr.minTokens, List.foldl_append, hleft]
    by_cases hp : parenRight op r = true
    · rw [if_pos hp, shunt_paren r (ihr h.2)]
      simp [Expr.pending, Expr.emitted, hp]
    · have hp' : parenRight op r = false := by simpa using hp
      rw [if_neg hp, ihr h.2 _ _ (guarded_right op r hp' S)]
      simp [Expr.pending, Expr.emitted, hp']

/-! ## Tokenizing the renderings of a tree -/

theorem tokenizesTo_operand {a : String} (h : isOperandToken a = true) :
    TokenizesTo a.data [a] := by
  intro rest hrest
  rw [tokenizeAux_operand a rest h hrest]
  rfl

theorem tokenizesTo_paren {cs : List Char} {toks : List String} (h : TokenizesTo cs toks) :
    TokenizesTo ('(' :: cs ++ [')']) ("(" :: toks ++ [")"]) := by
  intro rest _
  have e : ('(' :: cs ++ [')']) ++ rest = '(' :: (cs ++ ')' :: rest) := by simp
  rw [e, tokenizeAux_symbol '(' _ (by decide), h _ (by rfl),
    tokenizeAux_symbol ')' _ (by decide)]
  have e1 : String.singleton '(' = "(" := rfl
  have e2 : String.singleton ')' = ")" := rfl
  rw [e1, e2]
  cases tokenizeAux rest 0 <;> simp [Except.map]

theorem tokenizeAux_sym (o : Op) (rest : List Char) :
    tokenizeAux (o.sym.data ++ rest) 0 = (tokenizeAux rest 0).map (o.sym :: ·) := by
  cases o
  · exact tokenizeAux_symbol '+' rest (by decide)
  · exact tokenizeAux_symbol '-' rest (by decide)
  · exact tokenizeAux_symbol '*' rest (by decide)
  · exact tokenizeAux_symbol '/' rest (by decide)
  · exact tokenizeAux_symbol '^' rest (by decide)

theorem tokenizesTo_bin {a b : List Char} {x y : List String} (o : Op)
    (ha : TokenizesTo a x) (hb : TokenizesTo b y) :
    TokenizesTo (a ++ ' ' :: (o.sym.data ++ ' ' :: b)) (x ++ [o.sym] ++ y) := by
  intro rest hrest
  have e : (a ++ ' ' :: (o.sym.data ++ ' ' :: b)) ++ rest =
      a ++ ' ' :: (o.sym.data ++ ' ' :: (b ++ rest)) := by simp
  rw [e, ha _ (by rfl), tokenizeAux_space, tokenizeAux_sym, tokenizeAux_space, hb _ hrest]
  cases tokenizeAux rest 0 <;> simp [Except.map]

theorem tokenize_of_tokenizesTo {s : String} {toks : List String}
    (h : TokenizesTo s.data toks) : tokenize s = .ok toks := by
  have := h [] rfl
  simpa [tokenize, tokenizeAux, Except.map] using this

theorem data_paren (s : String) : ("(" ++ s ++ ")").data = '(' :: s.data ++ [')'] := by
  simp [String.data_append]

theorem data_bin (a b : String) (o : Op) :
    (a ++ " " ++ o.sym ++ " " ++ b).data = a.data ++ ' ' :: (o.sym.data ++ ' ' :: b.data) := by
  simp [String.data_append]

theorem tokenizesTo_minInfixTight (t : Expr) (h : t.wellFormed = true) :
    TokenizesTo t.minInfixTight.data t.minTokens := by
  induction t with
  | operand a => exact tokenizesTo_operand h
  | bin op l r ihl ihr =>
    simp only [Expr.wellFormed, Bool.and_eq_true] at h
    rw [Expr.minInfixTight, Expr.minTokens, data_bin]
    apply tokenizesTo_bin
    · by_cases hp : parenLeft op l = true
      · rw [if_pos hp, if_pos hp, data_paren]
        exact tokenizesTo_paren (ihl h.1)
      · rw [if_neg hp, if_neg hp]
        exact ihl h.1
    · by_cases hp : parenRight op r = true
      · rw [if_pos hp, if_pos hp, data_paren]
        exact tokenizesTo_paren (ihr h.2)
      · rw [if_neg hp, if_neg hp]
        exact ihr h.2

theorem tokenizesTo_full (t : Expr) (h : t.wellFormed = true) :
    TokenizesTo t.full.data t.fullTokens := by
  induction t with
  | operand a => exact tokenizesTo_operand h
  | bin op l r ihl ihr =>
    simp only [Expr.wellFormed, Bool.and_eq_true] at h
    have e : (Expr.bin op l r).full = "(" ++ (l.full ++ " " ++ op.sym ++ " " ++ r.full) ++ ")" := by
      simp only [Expr.full, String.append_assoc]
    rw [e, data_paren, data_bin, Expr.fullTokens]
    exact tokenizesTo_paren (tokenizesTo_bin op (ihl h.1) (ihr h.2))

theorem tokenize_fullUnwrapped (t : Expr) (h : t.wellFormed = true) :
    tokenize t.fullUnwrapped = .ok t.fullUnwrappedTokens := by
  apply tokenize_of_tokenizesTo
  cases t with
  | operand a => exact tokenizesTo_operand h
  | bin op l r =>
    simp only [Expr.wellFormed, Bool.and_eq_true] at h
    rw [Expr.fullUnwrapped, data_bin, Expr.fullUnwrappedTokens]
    exact tokenizesTo_bin op (tokenizesTo_full l h.1) (tokenizesTo_full r h.2)

theorem minTokens_tokens (t : Expr) (h : t.wellFormed = true) :
    ∀ x ∈ t.minTokens, isToken x = true := by
  induction t with
  | operand a =>
    intro x hx
    simp only [Expr.minTokens, List.mem_singleton] at hx
    subst hx
    exact isToken_of_isOperandToken h
  | bin op l r ihl ihr =>
    simp only [Expr.wellFormed, Bool.and_eq_true] at h
    have hwrap : ∀ (b : Bool) (t : Expr), (∀ x ∈ t.minTokens, isToken x = true) →
        ∀ x ∈ (if b = true then "(" :: t.minTokens ++ [")"] else t.minTokens),
          isToken x = true := by
      intro b t ht x hx
      cases b
      · exact ht x (by simpa using hx)
      · simp only [if_true, List.cons_append, List.mem_cons, List.mem_append,
          List.mem_singleton, List.not_mem_nil, or_false] at hx
        rcases hx with rfl | hx | rfl
        · decide
        · exact ht x hx
        · decide
    intro x hx
    simp only [Expr.minTokens, List.mem_append, List.mem_singleton] at hx
    rcases hx with (hx | rfl) | hx
    · exact hwrap _ l (ihl h.1) x hx
    · exact isToken_sym op
    · exact hwrap _ r (ihr h.2) x hx

theorem shunt_minTokens_result (t : Expr) (h : t.wellFormed = true) (e : String)
    (he : tokenize e = .ok t.minTokens) :
    resultOf (infixToPostfixWithSteps e) = .ok (some (jsJoin " " t.postOrder)) := by
  have hr := shunt_minTokens t h [] [] (guarded_nil _)
  rw [List.append_nil, List.nil_append] at hr
  rw [infixToPostfix_result e _ _ _ he hr, emitted_pending]

/-! ## Shunting-yard on a chain of exponentiations -/

theorem popOperators_pow_replicate (k : Nat) (O : List String) :
    popOperators "^" (List.replicate k "^") O = (List.replicate k "^", O) := by
  cases k with
  | zero => rfl
  | succ k => rw [List.replicate_succ, popOperators, if_pos (by decide), if_neg (by decide)]

theorem shunt_powChain (as : List String) (h : ∀ x ∈ as, isOperandToken x = true) :
    ∀ (k : Nat) (O : List String),
      (powChain as).foldl shuntCore (List.replicate k "^", O) =
        (List.replicate (k + as.length) "^", O ++ as) := by
  induction as with
  | nil => intro k O; simp [powChain]
  | cons a as ih =>
    intro k O
    have ha := h a (List.mem_cons_self _ _)
    have e : shuntCore (List.replicate k "^", O) "^" = (List.replicate (k + 1) "^", O) := by
      have := shuntCore_sym (List.replicate k "^") O Op.pow
      simp only [Op.sym, popOperators_pow_replicate] at this
      rw [this, List.replicate_succ]
    rw [powChain, List.foldl_cons, List.foldl_cons, e, shuntCore_operand _ _ ha,
      ih (fun x hx => h x (List.mem_cons_of_mem _ hx))]
    simp only [List.length_cons, List.append_assoc, List.singleton_append]
    congr 2
    omega

theorem powChain_tokens (as : List String) (h : ∀ x ∈ as, isOperandToken x = true) :
    ∀ x ∈ powChain as, isToken x = true := by
  induction as with
  | nil => intro x hx; simp [powChain] at hx
  | cons a as ih =>
    intro x hx
    simp only [powChain, List.mem_cons] at hx
    rcases hx with rfl | rfl | hx
    · decide
    · exact isToken_of_isOperandToken (h x (List.mem_cons_self _ _))
    · exact ih (fun y hy => h y (List.mem_cons_of_mem _ hy)) x hx

/-! ## Shunting-yard on an arbitrary valid infix expression -/

theorem await_fill {P Q : List String} (h : Awaiting P Q) (t : Expr)
    (ht : t.wellFormed = true) : Complete P (Q ++ t.postOrder) := by
  rcases h with ⟨rfl, rfl⟩ | ⟨o, P', rfl, hc⟩
  · exact Complete.single t ht
  · exact Complete.push o t ht hc

theorem complete_pop {x : String} {P Q : List String} (h : Complete (x :: P) Q) :
    ∃ o : Op, x = o.sym ∧ Complete P (Q ++ [x]) := by
  cases h with
  | push o t ht hc =>
    refine ⟨o, rfl, ?_⟩
    cases hc with
    | single t' ht' =>
      exact Complete.single (Expr.bin o t' t) (by simp [Expr.wellFormed, ht, ht'])
    | push o' t' ht' hc' =>
      have := Complete.push o' (Expr.bin o t' t) (by simp [Expr.wellFormed, ht, ht']) hc'
      simpa [Expr.postOrder, List.append_assoc] using this

theorem complete_ops {P Q : List String} (h : Complete P Q) :
    ∀ x ∈ P, ∃ o : Op, x = o.sym := by
  induction h with
  | single t ht => intro x hx; simp at hx
  | push o t ht hc ih =>
    intro x hx
    rcases List.mem_cons.1 hx with rfl | hx
    · exact ⟨o, rfl⟩
    · exact ih x hx

theorem complete_flush (P : List String) :
    ∀ Q, Complete P Q → ∃ t : Expr, t.wellFormed = true ∧ Q ++ P = t.postOrder := by
  induction P with
  | nil =>
    intro Q h
    cases h with
    | single t ht => exact ⟨t, ht, by simp⟩
  | cons x P ih =>
    intro Q h
    obtain ⟨o, _, hc⟩ := complete_pop h
    obtain ⟨t, ht, e⟩ := ih _ hc
    exact ⟨t, ht, by simpa using e⟩

theorem base_guarded {S : List String} (h : Base S) (k : Nat) : Guarded k S := by
  rcases h with rfl | ⟨S', rfl⟩
  · exact guarded_nil k
  · exact guarded_open k S'

theorem popOperators_complete (o : Op) (S O : List String) (hS : Base S) (P : List String) :
    ∀ Q, Complete P Q → ∃ P' Q',
      popOperators o.sym (P ++ S) (O ++ Q) = (P' ++ S, O ++ Q') ∧ Complete P' Q' := by
  induction P with
  | nil =>
    intro Q h
    exact ⟨[], Q, by simpa using base_guarded hS o.prec o (le_refl _) (O ++ Q), h⟩
  | cons x P ih =>
    intro Q h
    obtain ⟨o1, rfl, hc⟩ := complete_pop h
    rw [List.cons_append, popOperators, if_pos (includes_sym o1)]
    by_cases hcond : precedence o1.sym > precedence o.sym ∨
        (precedence o1.sym = precedence o.sym ∧ isRightAssoc o.sym = false)
    · rw [if_pos hcond]
      obtain ⟨P', Q', e, hc'⟩ := ih _ hc
      exact ⟨P', Q', by simpa [List.append_assoc] using e, hc'⟩
    · rw [if_neg hcond]
      exact ⟨o1.sym :: P, Q, rfl, h⟩

theorem shunt_infix (x : InfixExpr) (h : x.wellFormed = true) :
    ∀ P Q S O, Awaiting P Q → Base S → ∃ P' Q',
      x.tokens.foldl shuntCore (P ++ S, O ++ Q) = (P' ++ S, O ++ Q') ∧ Complete P' Q' := by
  induction x with
  | operand a =>
    intro P Q S O hA _
    refine ⟨P, Q ++ [a], ?_, await_fill hA (Expr.operand a) h⟩
    simp only [InfixExpr.tokens, List.foldl_cons, List.foldl_nil, shuntCore_operand _ _ h,
      List.append_assoc]
  | bin l o r ihl ihr =>
    intro P Q S O hA hS
    simp only [InfixExpr.wellFormed, Bool.and_eq_true] at h
    obtain ⟨P1, Q1, e1, c1⟩ := ihl h.1 P Q S O hA hS
    obtain ⟨P2, Q2, e2, c2⟩ := popOperators_complete o S O hS P1 Q1 c1
    obtain ⟨P3, Q3, e3, c3⟩ := ihr h.2 (o.sym :: P2) Q2 S O (Or.inr ⟨o, P2, rfl, c2⟩) hS
    refine ⟨P3, Q3, ?_, c3⟩
    rw [InfixExpr.tokens, List.foldl_append, List.foldl_append, e1, List.foldl_cons,
      List.foldl_nil, shuntCore_sym, e2]
    exact e3
  | paren e ih =>
    intro P Q S O hA _
    simp only [InfixExpr.wellFormed] at h
    obtain ⟨P3, Q3, e3, c3⟩ := ih h [] [] ("(" :: (P ++ S)) (O ++ Q) (Or.inl ⟨rfl, rfl⟩)
      (Or.inr ⟨_, rfl⟩)
    obtain ⟨t, ht, et⟩ := complete_flush P3 Q3 c3
    refine ⟨P, Q ++ t.postOrder, ?_, await_fill hA t ht⟩
    rw [List.nil_append, List.append_nil] at e3
    rw [InfixExpr.tokens, List.cons_append, List.foldl_cons, List.foldl_append, shuntCore_open,
      e3, List.foldl_cons, List.foldl_nil, shuntCore_close,
      popToParen_ops _ _ _ (complete_ops c3), ← et]
    simp [List.append_assoc]

theorem infixToPostfix_tree (x : InfixExpr) (hx : x.wellFormed = true) (e : String)
    (he : tokenize e = .ok x.tokens) :
    ∃ t : Expr, t.wellFormed = true ∧
      resultOf (infixToPostfixWithSteps e) = .ok (some (jsJoin " " t.postOrder)) := by
  obtain ⟨P, Q, e1, c⟩ := shunt_infix x hx [] [] [] [] (Or.inl ⟨rfl, rfl⟩) (Or.inl rfl)
  obtain ⟨t, ht, et⟩ := complete_flush P Q c
  refine ⟨t, ht, ?_⟩
  rw [List.append_nil, List.nil_append, List.append_nil] at e1
  rw [infixToPostfix_result e _ _ _ he e1, et]

theorem shunt_fullTokens (t : Expr) (h : t.wellFormed = true) :
    ∀ S O, t.fullTokens.foldl shuntCore (S, O) = (S, O ++ t.postOrder) := by
  induction t with
  | operand a =>
    intro S O
    simp only [Expr.fullTokens, List.foldl_cons, List.foldl_nil, shuntCore_operand S O h]
    rfl
  | bin op l r ihl ihr =>
    intro S O
    simp only [Expr.wellFormed, Bool.and_eq_true] at h
    have hpop : popToParen (op.sym :: "(" :: S) (O ++ l.postOrder ++ r.postOrder) =
        ("(" :: S, O ++ l.postOrder ++ r.postOrder ++ [op.sym]) :=
      popToParen_ops [op.sym] S _ (by simp)
    simp only [Expr.fullTokens, List.cons_append, List.foldl_cons, List.foldl_append,
      List.foldl_nil]
    rw [shuntCore_open, ihl h.1, shuntCore_sym, guarded_open op.prec S op (le_refl _), ihr h.2,
      shuntCore_close, hpop]
    simp [Expr.postOrder, List.append_assoc]

theorem infixToPostfix_fullUnwrapped (t : Expr) (h : t.wellFormed = true) :
    resultOf (infixToPostfixWithSteps t.fullUnwrapped) =
      .ok (some (jsJoin " " t.postOrder)) := by
  cases t with
  | operand a =>
    have hr : (Expr.operand a).fullUnwrappedTokens.foldl shuntCore ([], []) = ([], [a]) := by
      simp only [Expr.fullUnwrappedTokens, List.foldl_cons, List.foldl_nil,
        shuntCore_operand [] [] h]
      rfl
    rw [infixToPostfix_result _ _ _ _ (tokenize_fullUnwrapped _ h) hr]
    rfl
  | bin op l r =>
    have h' := h
    simp only [Expr.wellFormed, Bool.and_eq_true] at h'
    have hr : (Expr.bin op l r).fullUnwrappedTokens.foldl shuntCore ([], []) =
        ([op.sym], l.postOrder ++ r.postOrder) := by
      rw [Expr.fullUnwrappedTokens, List.foldl_append, List.foldl_append,
        shunt_fullTokens l h'.1, List.foldl_cons, List.foldl_nil, shuntCore_sym,
        guarded_nil op.prec op (le_refl _), shunt_fullTokens r h'.2]
      simp
    rw [infixToPostfix_result _ _ _ _ (tokenize_fullUnwrapped _ h) hr]
    rfl

/-! ## The claims on the conversions -/

/-- Claim C1: shunting-yard respects precedence and associativity.  For a
well-formed tree, `infixToPostfixWithSteps` applied to its minimally
parenthesised infix rendering, written with every token separated by a
space or with the parentheses next to what they enclose, returns the
space-joined post-order traversal of the tree. -/
theorem shuntingYard_correct (t : Expr) (h : t.wellFormed = true) :
    resultOf (infixToPostfixWithSteps t.minInfix) = .ok (some (jsJoin " " t.postOrder)) ∧
      resultOf (infixToPostfixWithSteps t.minInfixTight) =
        .ok (some (jsJoin " " t.postOrder)) :=
  ⟨shunt_minTokens_result t h _ (tokenize_jsJoin _ (minTokens_tokens t h)),
    shunt_minTokens_result t h _ (tokenize_of_tokenizesTo (tokenizesTo_minInfixTight t h))⟩

/-- Claim C1 at the trees of `(A + B) * C` and `A + B * C - D / E`. -/
theorem shuntingYard_correct_witness :
    (resultOf (infixToPostfixWithSteps "( A + B ) * C") = .ok (some "A B + C *") ∧
      resultOf (infixToPostfixWithSteps "(A + B) * C") = .ok (some "A B + C *")) ∧
    (resultOf (infixToPostfixWithSteps "A + B * C - D / E") = .ok (some "A B C * + D E / -") ∧
      resultOf (infixToPostfixWithSteps "A + B * C - D / E") =
        .ok (some "A B C * + D E / -")) :=
  ⟨shuntingYard_correct
      (.bin .mul (.bin .add (.operand "A") (.operand "B")) (.operand "C")) (by decide),
    shuntingYard_correct
      (.bin .sub (.bin .add (.operand "A") (.bin .mul (.operand "B") (.operand "C")))
        (.bin .div (.operand "D") (.operand "E"))) (by decide)⟩

/-- Claim C2: the round trip through postfix is stable.  For every
expression `e` whose tokens are derived by the grammar
`E ::= operand | E op E | ( E )`, the postfix `p` of `e` is converted to an
infix `i` whose postfix is `p` again. -/
theorem roundTrip_stable (x : InfixExpr) (hx : x.wellFormed = true) (e : String)
    (he : tokenize e = .ok x.tokens) :
    ∃ p i, resultOf (infixToPostfixWithSteps e) = .ok (some p) ∧
      resultOf (postfixToInfixWithSteps p) = .ok (some i) ∧
      resultOf (infixToPostfixWithSteps i) = .ok (some p) := by
  obtain ⟨t, ht, e1⟩ := infixToPostfix_tree x hx e he
  exact ⟨jsJoin " " t.postOrder, t.fullUnwrapped, e1, postfixToInfix_result t ht,
    infixToPostfix_fullUnwrapped t ht⟩

/-- Claim C2 at the expression `(A + B * 2) ^ C ^ D - E`. -/
theorem roundTrip_stable_witness :
    ∃ p i, resultOf (infixToPostfixWithSteps "(A + B * 2) ^ C ^ D - E") = .ok (some p) ∧
      resultOf (postfixToInfixWithSteps p) = .ok (some i) ∧
      resultOf (infixToPostfixWithSteps i) = .ok (some p) :=
  roundTrip_stable
    (.bin (.bin (.paren (.bin (.operand "A") .add (.bin (.operand "B") .mul (.operand "2")))) .pow
      (.bin (.operand "C") .pow (.operand "D"))) .sub (.operand "E"))
    (by decide) "(A + B * 2) ^ C ^ D - E" (by decide)

/-- Claim C3: on the space-joined post-order traversal of a well-formed tree,
`postfixToInfixWithSteps` returns the fully parenthesised rendering with
exactly its outermost pair of parentheses removed (the bare operand for a
single operand). -/
theorem postfixToInfix_correct (t : Expr) (h : t.wellFormed = true) :
    resultOf (postfixToInfixWithSteps (jsJoin " " t.postOrder)) = .ok (some t.fullUnwrapped) :=
  postfixToInfix_result t h

/-- Claim C3 at the tree of `A B C * + D E / -`. -/
theorem postfixToInfix_correct_witness :
    resultOf (postfixToInfixWithSteps "A B C * + D E / -") =
      .ok (some "(A + (B * C)) - (D / E)") :=
  postfixToInfix_correct
    (.bin .sub (.bin .add (.operand "A") (.bin .mul (.operand "B") (.operand "C")))
      (.bin .div (.operand "D") (.operand "E"))) (by decide)

/-- Claim C4: on the space-joined pre-order traversal of a well-formed tree,
`prefixToInfixWithSteps` returns the same result as `postfixToInfixWithSteps`
on the post-order traversal, namely the fully parenthesised rendering with
its outermost pair of parentheses removed. -/
theorem prefixToInfix_correct (t : Expr) (h : t.wellFormed = true) :
    resultOf (prefixToInfixWithSteps (jsJoin " " t.preOrder)) =
        resultOf (postfixToInfixWithSteps (jsJoin " " t.postOrder)) ∧
      resultOf (prefixToInfixWithSteps (jsJoin " " t.preOrder)) = .ok (some t.fullUnwrapped) :=
  ⟨(prefixToInfix_result t h).trans (postfixToInfix_result t h).symm, prefixToInfix_result t h⟩

/-- Claim C4 at the tree of `^ A - 12 B`. -/
theorem prefixToInfix_correct_witness :
    resultOf (prefixToInfixWithSteps "^ A - 12 B") =
        resultOf (postfixToInfixWithSteps "A 12 B - ^") ∧
      resultOf (prefixToInfixWithSteps "^ A - 12 B") = .ok (some "A ^ (12 - B)") :=
  prefixToInfix_correct
    (.bin .pow (.operand "A") (.bin .sub (.operand "12") (.operand "B"))) (by decide)

/-- Claim C5: on the space-joined post-order traversal of a well-formed tree,
`convert('Postfix', 'Prefix', _)` returns the space-joined pre-order
traversal, which contains no parenthesis. -/
theorem postfixToPrefix_correct (t : Expr) (h : t.wellFormed = true) :
    resultOf (convert "Postfix" "Prefix" (jsJoin " " t.postOrder)) =
        .ok (some (jsJoin " " t.preOrder)) ∧
      ∀ c ∈ (jsJoin " " t.preOrder).data, c ≠ '(' ∧ c ≠ ')' := by
  refine ⟨postfixToPrefix_result t h, ?_⟩
  intro c hc
  rcases jsJoin_chars _ _ c hc with h1 | ⟨x, hx, hcx⟩
  · have hsp : ∀ d ∈ (" " : String).data, d ≠ '(' ∧ d ≠ ')' := by decide
    exact hsp c h1
  · exact preOrder_no_paren t h x hx c hcx

/-- Claim C5 at the tree of `A B C * + D E / -`. -/
theorem postfixToPrefix_correct_witness :
    resultOf (convert "Postfix" "Prefix" "A B C * + D E / -") =
        .ok (some "- + A * B C / D E") ∧
      ∀ c ∈ "- + A * B C / D E".data, c ≠ '(' ∧ c ≠ ')' :=
  postfixToPrefix_correct
    (.bin .sub (.bin .add (.operand "A") (.bin .mul (.operand "B") (.operand "C")))
      (.bin .div (.operand "D") (.operand "E"))) (by decide)

/-- Claim C6: on the space-joined pre-order traversal of a well-formed tree,
`convert('Prefix', 'Postfix', _)` returns the space-joined post-order
traversal; hence converting a well-formed postfix expression to prefix and
back gives the expression again. -/
theorem prefixToPostfix_inverts (t : Expr) (h : t.wellFormed = true) :
    resultOf (convert "Prefix" "Postfix" (jsJoin " " t.preOrder)) =
        .ok (some (jsJoin " " t.postOrder)) ∧
      ∃ q, resultOf (convert "Postfix" "Prefix" (jsJoin " " t.postOrder)) = .ok (some q) ∧
        resultOf (convert "Prefix" "Postfix" q) = .ok (some (jsJoin " " t.postOrder)) :=
  ⟨prefixToPostfix_result t h, jsJoin " " t.preOrder, postfixToPrefix_result t h,
    prefixToPostfix_result t h⟩

/-- Claim C6 at the tree of `* + 1 2 ^ x 34`. -/
theorem prefixToPostfix_inverts_witness :
    resultOf (convert "Prefix" "Postfix" "* + 1 2 ^ x 34") = .ok (some "1 2 + x 34 ^ *") ∧
      ∃ q, resultOf (convert "Postfix" "Prefix" "1 2 + x 34 ^ *") = .ok (some q) ∧
        resultOf (convert "Prefix" "Postfix" q) = .ok (some "1 2 + x 34 ^ *") :=
  prefixToPostfix_inverts
    (.bin .mul (.bin .add (.operand "1") (.operand "2")) (.bin .pow (.operand "x") (.operand "34")))
    (by decide)

/-- Claim C7: `convert('Infix', 'Prefix', e)` is `convert('Postfix', 'Prefix', _)`
applied to the result of `infixToPostfixWithSteps(e)`: the same result and
the same steps, and the same error when either stage throws. -/
theorem infixToPrefix_composition (e : String) :
    convert "Infix" "Prefix" e =
      match infixToPostfixWithSteps e with
      | .error m => .error m
      | .ok r => convert "Postfix" "Prefix" (jsShow r.result) := by
  have c1 : convert "Infix" "Prefix" e =
      match infixToPostfixWithSteps e with
      | .error e => .error e
      | .ok r =>
        match tokenize (jsShow r.result) with
        | .error e => .error e
        | .ok toks =>
          .ok (finishDirect (infixPrefixLoop toks { stack := [], steps := [], iter := 0 })) := by
    unfold convert
    rw [if_neg (by decide), if_neg (by decide), if_pos (by decide)]
  have c2 : ∀ x, convert "Postfix" "Prefix" x =
      match tokenize x with
      | .error e => .error e
      | .ok toks =>
        .ok (finishDirect (postfixPrefixLoop toks { stack := [], steps := [], iter := 0 })) := by
    intro x
    unfold convert
    rw [if_neg (by decide), if_neg (by decide), if_neg (by decide), if_neg (by decide),
      if_neg (by decide), if_pos (by decide)]
  rw [c1]
  cases infixToPostfixWithSteps e with
  | error m => rfl
  | ok r =>
    simp only [c2]
    cases tokenize (jsShow r.result) with
    | error m => rfl
    | ok toks => simp only [infixPrefixLoop_eq]

/-- Claim C8: exponentiation is right-associative.  For operands `a1..an`
(`n >= 1`), `infixToPostfixWithSteps("a1 ^ a2 ^ ... ^ an")` returns the
operands in order followed by `n-1` tokens `^`, all joined by single spaces. -/
theorem pow_rightAssociative (a : String) (as : List String)
    (h : ∀ x ∈ a :: as, isOperandToken x = true) :
    resultOf (infixToPostfixWithSteps (jsJoin " " (a :: powChain as))) =
      .ok (some (jsJoin " " (a :: as ++ List.replicate as.length "^"))) := by
  have ha := h a (List.mem_cons_self _ _)
  have has : ∀ x ∈ as, isOperandToken x = true := fun x hx => h x (List.mem_cons_of_mem _ hx)
  have ht : tokenize (jsJoin " " (a :: powChain as)) = .ok (a :: powChain as) := by
    apply tokenize_jsJoin
    intro x hx
    rcases List.mem_cons.1 hx with rfl | hx
    · exact isToken_of_isOperandToken ha
    · exact powChain_tokens as has x hx
  have hr : (a :: powChain as).foldl shuntCore ([], []) =
      (List.replicate as.length "^", a :: as) := by
    rw [List.foldl_cons, shuntCore_operand [] [] ha]
    have := shunt_powChain as has 0 ([] ++ [a])
    simpa using this
  rw [infixToPostfix_result _ _ _ _ ht hr]

/-- Claim C8 at `A ^ B ^ C`. -/
theorem pow_rightAssociative_witness :
    resultOf (infixToPostfixWithSteps "A ^ B ^ C") = .ok (some "A B C ^ ^") :=
  pow_rightAssociative "A" ["B", "C"] (by decide)

/-! ## The two worked examples of the infix producers -/

/-- Claim C9, as stated, fails: on `A B C * + D E / -` the result of
`postfixToInfixWithSteps` is not the flat string `A + B * C - D / E`. -/
theorem postfixToInfix_example_not_flat :
    resultOf (postfixToInfixWithSteps "A B C * + D E / -") ≠ .ok (some "A + B * C - D / E") := by
  decide

/-- Claim C9, amended: on `A B C * + D E / -`, `postfixToInfixWithSteps`
returns `(A + (B * C)) - (D / E)`, the fully parenthesised rendering without
its outermost pair of parentheses. -/
theorem postfixToInfix_example :
    resultOf (postfixToInfixWithSteps "A B C * + D E / -") =
      .ok (some "(A + (B * C)) - (D / E)") := by
  decide

/-- Claim C10, as stated, fails: on `- + A * B C / D E` the result of
`prefixToInfixWithSteps` is not the flat string `A + B * C - D / E`. -/
theorem prefixToInfix_example_not_flat :
    resultOf (prefixToInfixWithSteps "- + A * B C / D E") ≠ .ok (some "A + B * C - D / E") := by
  decide

/-- Claim C10, amended: on `- + A * B C / D E`, `prefixToInfixWithSteps`
returns `(A + (B * C)) - (D / E)`, the fully parenthesised rendering without
its outermost pair of parentheses. -/
theorem prefixToInfix_example :
    resultOf (prefixToInfixWithSteps "- + A * B C / D E") =
      .ok (some "(A + (B * C)) - (D / E)") := by
  decide

/-! ## General lemmas on the tokenizer -/

theorem tokenizeAux_succ (c : Char) (rest : List Char) (k : Nat) :
    tokenizeAux (c :: rest) (k + 1) = tokenizeAux rest k := by
  rw [tokenizeAux]

/-- The four ways one pass of the loop of `tokenize` can go. -/
theorem tokenizeAux_cases (c : Char) (rest : List Char) :
    (c = ' ' ∧ tokenizeAux (c :: rest) 0 = tokenizeAux rest 0) ∨
    (c ≠ ' ' ∧ isDigit c = false ∧ (isLetter c = true ∨ isSymbolChar c = true) ∧
      tokenizeAux (c :: rest) 0 = (tokenizeAux rest 0).map (String.singleton c :: ·)) ∨
    (isDigit c = true ∧
      tokenizeAux (c :: rest) 0 =
        (tokenizeAux rest (rest.takeWhile isDigit).length).map
          (String.mk (c :: rest.takeWhile isDigit) :: ·)) ∨
    (isAccepted c = false ∧
      tokenizeAux (c :: rest) 0 = .error ("Invalid character: " ++ String.singleton c)) := by
  by_cases h1 : c = ' '
  · exact Or.inl ⟨h1, by rw [h1, tokenizeAux_space]⟩
  · by_cases h2 : isLetter c = true
    · refine Or.inr (Or.inl ⟨h1, ?_, Or.inl h2, tokenizeAux_letter c rest h2⟩)
      cases h3 : isDigit c with
      | false => rfl
      | true => rw [isDigit_not_isLetter h3] at h2; exact absurd h2 (by decide)
    · by_cases h3 : isDigit c = true
      · refine Or.inr (Or.inr (Or.inl ⟨h3, ?_⟩))
        rw [tokenizeAux, if_neg h1, if_neg h2, if_pos h3]
      · by_cases h4 : isSymbolChar c = true
        · refine Or.inr (Or.inl ⟨h1, by simpa using h3, Or.inr h4, ?_⟩)
          rw [tokenizeAux, if_neg h1, if_neg h2, if_neg h3]
          exact if_pos h4
        · refine Or.inr (Or.inr (Or.inr ⟨?_, ?_⟩))
          · simp [isAccepted, h1, h2, h3, h4]
          · rw [tokenizeAux, if_neg h1, if_neg h2, if_neg h3]
            exact if_neg h4

theorem isAccepted_space : isAccepted ' ' = true := by decide

theorem isAccepted_of_isDigit {c : Char} (h : isDigit c = true) : isAccepted c = true := by
  simp [isAccepted, h]

theorem isAccepted_of_single {c : Char} (h : isLetter c = true ∨ isSymbolChar c = true) :
    isAccepted c = true := by
  rcases h with h | h <;> simp [isAccepted, h]

theorem map_ok_iff {α β : Type} (f : α → β) (x : Except String α) :
    (∃ b, x.map f = .ok b) ↔ ∃ a, x = .ok a := by
  cases x with
  | error e => simp [Except.map]
  | ok a => simp [Except.map]

theorem takeWhile_all {α : Type} (p : α → Bool) (l : List α) :
    ∀ x ∈ l.takeWhile p, p x = true := by
  induction l with
  | nil => intro x hx; simp at hx
  | cons a l ih =>
    intro x hx
    by_cases ha : p a = true
    · simp only [List.takeWhile_cons, ha, if_true, List.mem_cons] at hx
      rcases hx with rfl | hx
      · exact ha
      · exact ih x hx
    · simp [List.takeWhile_cons, ha] at hx

theorem takeWhile_append_drop {α : Type} (p : α → Bool) (l : List α) :
    l.takeWhile p ++ l.drop (l.takeWhile p).length = l := by
  induction l with
  | nil => rfl
  | cons a l ih =>
    by_cases ha : p a = true
    · simp [List.takeWhile_cons, ha, ih]
    · simp [List.takeWhile_cons, ha]

/-- The tokenizer succeeds exactly on the accepted characters (from the
current index on, past the digits already merged). -/
theorem tokenizeAux_ok_iff (cs : List Char) :
    ∀ k, (∃ toks, tokenizeAux cs k = .ok toks) ↔ ∀ c ∈ cs.drop k, isAccepted c = true := by
  induction cs with
  | nil => intro k; simp [tokenizeAux]
  | cons c rest ih =>
    intro k
    cases k with
    | succ k => rw [tokenizeAux_succ, List.drop_succ_cons]; exact ih k
    | zero =>
      rw [List.drop_zero]
      rcases tokenizeAux_cases c rest with ⟨h, e⟩ | ⟨_, _, h, e⟩ | ⟨h, e⟩ | ⟨h, e⟩
      · rw [e, ih 0, List.drop_zero, h]
        simp [isAccepted_space]
      · rw [e, map_ok_iff, ih 0, List.drop_zero]
        simp [isAccepted_of_single h]
      · rw [e, map_ok_iff, ih]
        have hsplit := takeWhile_append_drop isDigit rest
        constructor
        · intro hd x hx
          rcases List.mem_cons.1 hx with rfl | hx
          · exact isAccepted_of_isDigit h
          · rw [← hsplit] at hx
            rcases List.mem_append.1 hx with hx | hx
            · exact isAccepted_of_isDigit (takeWhile_all isDigit rest x hx)
            · exact hd x hx
        · intro hall x hx
          exact hall x (List.mem_cons_of_mem _ (List.mem_of_mem_drop hx))
      · rw [e]
        constructor
        · rintro ⟨toks, ht⟩; cases ht
        · intro hall
          have := hall c (List.mem_cons_self _ _)
          rw [h] at this
          exact absurd this (by decide)

theorem take_takeWhile_length {α : Type} (p : α → Bool) (l : List α) :
    l.take (l.takeWhile p).length = l.takeWhile p := by
  induction l with
  | nil => rfl
  | cons a l ih =>
    by_cases ha : p a = true
    · simp [List.takeWhile_cons, ha, ih]
    · simp [List.takeWhile_cons, ha]

/-- The tokenizer stops at the leftmost character it does not accept. -/
theorem tokenizeAux_reject (pre : List Char) (c : Char) (post : List Char)
    (hpre : ∀ x ∈ pre, isAccepted x = true) (hc : isAccepted c = false) :
    ∀ k, (∀ x ∈ (pre ++ c :: post).take k, isDigit x = true) →
      tokenizeAux (pre ++ c :: post) k =
        .error ("Invalid character: " ++ String.singleton c) := by
  induction pre with
  | nil =>
    intro k hk
    cases k with
    | succ k =>
      have := isAccepted_of_isDigit (hk c (by simp))
      rw [hc] at this
      exact absurd this (by decide)
    | zero =>
      rw [List.nil_append]
      rcases tokenizeAux_cases c post with ⟨h, _⟩ | ⟨_, _, h, _⟩ | ⟨h, _⟩ | ⟨_, e⟩
      · rw [h] at hc; exact absurd hc (by decide)
      · rw [isAccepted_of_single h] at hc; exact absurd hc (by decide)
      · rw [isAccepted_of_isDigit h] at hc; exact absurd hc (by decide)
      · exact e
  | cons p pre ih =>
    have ih := ih (fun x hx => hpre x (List.mem_cons_of_mem _ hx))
    intro k hk
    rw [List.cons_append]
    cases k with
    | succ k =>
      rw [tokenizeAux_succ]
      apply ih
      intro x hx
      exact hk x (by rw [List.cons_append, List.take_succ_cons]; exact List.mem_cons_of_mem _ hx)
    | zero =>
      rcases tokenizeAux_cases p (pre ++ c :: post) with ⟨_, e⟩ | ⟨_, _, _, e⟩ | ⟨_, e⟩ | ⟨h, _⟩
      · rw [e, ih 0 (by simp)]
      · rw [e, ih 0 (by simp)]; rfl
      · rw [e, ih _ (by rw [take_takeWhile_length]; exact takeWhile_all _ _)]; rfl
      · rw [hpre p (List.mem_cons_self _ _)] at h; exact absurd h (by decide)

theorem singleton_symbol_mem {c : Char} (h : isSymbolChar c = true) :
    String.singleton c ∈ ["(", ")", "+", "-", "*", "/", "^"] := by
  have hc : c ∈ ['(', ')', '+', '-', '*', '/', '^'] := by
    simpa [isSymbolChar, jsIncludes, List.tails, List.isPrefixOf, String.singleton,
      String.push] using h
  simp only [List.mem_cons, List.mem_singleton, List.not_mem_nil, or_false] at hc
  rcases hc with rfl | rfl | rfl | rfl | rfl | rfl | rfl <;> decide

theorem isToken_single {c : Char} (h : isLetter c = true ∨ isSymbolChar c = true) :
    isToken (String.singleton c) = true := by
  rcases h with h | h
  · have : isOperandToken (String.singleton c) = true := by
      simp [isOperandToken, String.singleton, String.push, h]
    simp [isToken, this]
  · simp [isToken, singleton_symbol_mem h]

theorem isToken_digits {c : Char} {ds : List Char} (hc : isDigit c = true)
    (hds : ∀ x ∈ ds, isDigit x = true) : isToken (String.mk (c :: ds)) = true := by
  have : isOperandToken (String.mk (c :: ds)) = true := by
    cases ds with
    | nil => simp [isOperandToken, hc]
    | cons d ds =>
      simp only [isOperandToken, List.all_eq_true]
      intro x hx
      rcases List.mem_cons.1 hx with rfl | hx
      · exact hc
      · exact hds x hx
  simp [isToken, this]

theorem jsJoin_empty_cons (a : String) (l : List String) :
    (jsJoin "" (a :: l)).data = a.data ++ (jsJoin "" l).data := by
  cases l with
  | nil => simp [jsJoin]
  | cons b bs => simp [jsJoin, String.data_append]

/-- What the tokenizer returns: tokens of the three shapes whose
concatenation is the input without its spaces. -/
theorem tokenizeAux_tokens (cs : List Char) :
    ∀ k toks, tokenizeAux cs k = .ok toks →
      (jsJoin "" toks).data = (cs.drop k).filter (fun c => c != ' ') ∧
        ∀ t ∈ toks, isToken t = true := by
  induction cs with
  | nil =>
    intro k toks h
    simp only [tokenizeAux, Except.ok.injEq] at h
    subst h
    simp [jsJoin]
  | cons c rest ih =>
    intro k toks h
    cases k with
    | succ k => rw [tokenizeAux_succ] at h; rw [List.drop_succ_cons]; exact ih k toks h
    | zero =>
      rw [List.drop_zero]
      rcases tokenizeAux_cases c rest with ⟨hc, e⟩ | ⟨hc, _, hs, e⟩ | ⟨hd, e⟩ | ⟨_, e⟩
      · rw [e] at h
        have := ih 0 toks h
        rw [List.drop_zero] at this
        refine ⟨?_, this.2⟩
        rw [this.1, hc]
        rfl
      · rw [e] at h
        cases hr : tokenizeAux rest 0 with
        | error m => rw [hr] at h; cases h
        | ok toks' =>
          rw [hr] at h
          simp only [Except.map, Except.ok.injEq] at h
          subst h
          have := ih 0 toks' hr
          rw [List.drop_zero] at this
          refine ⟨?_, ?_⟩
          · rw [jsJoin_empty_cons, this.1]
            simp [String.singleton, String.push, List.filter_cons, hc]
          · intro t ht
            rcases List.mem_cons.1 ht with rfl | ht
            · exact isToken_single hs
            · exact this.2 t ht
      · rw [e] at h
        cases hr : tokenizeAux rest (rest.takeWhile isDigit).length with
        | error m => rw [hr] at h; cases h
        | ok toks' =>
          rw [hr] at h
          simp only [Except.map, Except.ok.injEq] at h
          subst h
          have := ih _ toks' hr
          have hne : ∀ x, isDigit x = true → (x != ' ') = true := by
            intro x hx
            simpa using isDigit_ne_space hx
          have hf : (List.takeWhile isDigit rest).filter (fun c => c != ' ') =
              List.takeWhile isDigit rest :=
            List.filter_eq_self.2 (fun x hx => hne x (takeWhile_all _ _ x hx))
          refine ⟨?_, ?_⟩
          · rw [jsJoin_empty_cons, this.1]
            conv_rhs => rw [← takeWhile_append_drop isDigit rest]
            rw [List.filter_cons, if_pos (hne c hd), List.filter_append, hf]
            rfl
          · intro t ht
            rcases List.mem_cons.1 ht with rfl | ht
            · exact isToken_digits hd (takeWhile_all _ _)
            · exact this.2 t ht
      · rw [e] at h; cases h

theorem tokenizeAux_cases_single (c : Char) (rest : List Char) (h1 : c ≠ ' ')
    (h2 : isDigit c = false) (h3 : isLetter c = true ∨ isSymbolChar c = true) :
    tokenizeAux (c :: rest) 0 = (tokenizeAux rest 0).map (String.singleton c :: ·) := by
  rcases tokenizeAux_cases c rest with ⟨h, _⟩ | ⟨_, _, _, e⟩ | ⟨h, _⟩ | ⟨h, _⟩
  · exact absurd h h1
  · exact e
  · rw [h2] at h; exact absurd h (by decide)
  · rw [isAccepted_of_single h3] at h; exact absurd h (by decide)

theorem isToken_no_space {t : String} (h : isToken t = true) : ∀ c ∈ t.data, c ≠ ' ' := by
  simp only [isToken, Bool.or_eq_true, decide_eq_true_eq] at h
  rcases h with h | h
  · intro c hc
    rcases operandToken_chars h c hc with h1 | h1
    · exact isLetter_ne_space h1
    · exact isDigit_ne_space h1
  · simp only [List.mem_cons, List.mem_singleton, List.not_mem_nil, or_false] at h
    rcases h with rfl | rfl | rfl | rfl | rfl | rfl | rfl <;> decide

theorem tokenizeAux_spaces (n : Nat) : tokenizeAux (List.replicate n ' ') 0 = .ok [] := by
  induction n with
  | zero => rfl
  | succ n ih => rw [List.replicate_succ, tokenizeAux_space, ih]

theorem takeWhile_length_le {α : Type} (p : α → Bool) (l : List α) :
    (l.takeWhile p).length ≤ l.length := by
  induction l with
  | nil => simp
  | cons a l ih =>
    by_cases ha : p a = true
    · simpa [List.takeWhile_cons, ha] using ih
    · simp [List.takeWhile_cons, ha]

theorem takeWhile_append_clean (c : Char) (l r : List Char) (hc : isDigit c = true)
    (h : noDigitBehind (c :: l) = true ∨ noDigitAhead r = true) :
    (l ++ r).takeWhile isDigit = l.takeWhile isDigit := by
  induction l generalizing c with
  | nil =>
    have hr : noDigitAhead r = true := by
      rcases h with h | h
      · simp [noDigitBehind, hc] at h
      · exact h
    cases r with
    | nil => rfl
    | cons d r =>
      have : isDigit d = false := by simpa [noDigitAhead] using hr
      simp [List.takeWhile_cons, this]
  | cons d l ih =>
    by_cases hd : isDigit d = true
    · have h' : noDigitBehind (d :: l) = true ∨ noDigitAhead r = true := by
        rcases h with h | h
        · left
          simpa [noDigitBehind, List.getLast?_cons_cons] using h
        · exact Or.inr h
      simp [List.takeWhile_cons, hd, ih d hd h']
    · simp [List.takeWhile_cons, hd]

theorem noDigitBehind_tail {c : Char} {l : List Char} (h : noDigitBehind (c :: l) = true) :
    noDigitBehind l = true := by
  cases l with
  | nil => rfl
  | cons d l => simpa [noDigitBehind, List.getLast?_cons_cons] using h

/-- Tokenizing splits at any position that does not cut a run of digits. -/
theorem tokenizeAux_append (cs : List Char) :
    ∀ (k : Nat) (toks : List String) (rest : List Char), k ≤ cs.length →
      tokenizeAux cs k = .ok toks →
      (noDigitBehind cs = true ∨ noDigitAhead rest = true) →
      tokenizeAux (cs ++ rest) k = (tokenizeAux rest 0).map (toks ++ ·) := by
  induction cs with
  | nil =>
    intro k toks rest hk h _
    have hk0 : k = 0 := by simpa using hk
    subst hk0
    simp only [tokenizeAux, Except.ok.injEq] at h
    subst h
    rw [List.nil_append]
    cases tokenizeAux rest 0 <;> simp [Except.map]
  | cons c cs ih =>
    intro k toks rest hk h hcut
    have hcut' : noDigitBehind cs = true ∨ noDigitAhead rest = true := by
      rcases hcut with h1 | h1
      · exact Or.inl (noDigitBehind_tail h1)
      · exact Or.inr h1
    rw [List.cons_append]
    cases k with
    | succ k =>
      rw [tokenizeAux_succ] at h ⊢
      exact ih k toks rest (by simpa using hk) h hcut'
    | zero =>
      rcases tokenizeAux_cases c cs with ⟨hc, _⟩ | ⟨h1, h2, h3, e⟩ | ⟨hd, e⟩ | ⟨_, e⟩
      · subst hc
        rw [tokenizeAux_space] at h ⊢
        exact ih 0 toks rest (Nat.zero_le _) h hcut'
      · rw [e] at h
        rw [tokenizeAux_cases_single c (cs ++ rest) h1 h2 h3]
        cases hr : tokenizeAux cs 0 with
        | error m => rw [hr] at h; cases h
        | ok toks' =>
          rw [hr] at h
          simp only [Except.map, Except.ok.injEq] at h
          subst h
          rw [ih 0 toks' rest (Nat.zero_le _) hr hcut']
          cases tokenizeAux rest 0 <;> simp [Except.map]
      · rw [e] at h
        have e' : tokenizeAux (c :: (cs ++ rest)) 0 =
            (tokenizeAux (cs ++ rest) ((cs ++ rest).takeWhile isDigit).length).map
              (String.mk (c :: (cs ++ rest).takeWhile isDigit) :: ·) := by
          rw [tokenizeAux, if_neg (isDigit_ne_space hd),
            if_neg (by simp [isDigit_not_isLetter hd]), if_pos hd]
        rw [e', takeWhile_append_clean c cs rest hd hcut]
        cases hr : tokenizeAux cs (cs.takeWhile isDigit).length with
        | error m => rw [hr] at h; cases h
        | ok toks' =>
          rw [hr] at h
          simp only [Except.map, Except.ok.injEq] at h
          subst h
          rw [ih _ toks' rest (takeWhile_length_le _ _) hr hcut']
          cases tokenizeAux rest 0 <;> simp [Except.map]
      · rw [e] at h; cases h

/-! ## The claims on the tokenizer -/

/-- Claim C11, as stated, fails: every character of `A<tab>B` is a letter
or a whitespace character, yet `tokenize` does not succeed on it. -/
theorem tokenize_rejects_tab :
    ¬ ((∃ toks, tokenize "A\tB" = .ok toks) ↔
      ∀ c ∈ "A\tB".data,
        isLetter c = true ∨ isDigit c = true ∨ isSymbolChar c = true ∨
          isJsWhitespace c = true) := by
  intro h
  obtain ⟨toks, ht⟩ := h.2 (by decide)
  have e : tokenize "A\tB" = .error "Invalid character: \t" := by decide
  rw [e] at ht
  cases ht

/-- A space yields no token: the tokens of a string that tokenizes are those
of what precedes the space followed by those of what follows it. -/
theorem tokenize_space_split (pre post : List Char) (toks : List String)
    (h : tokenize (String.mk (pre ++ ' ' :: post)) = .ok toks) :
    ∃ a b, tokenize (String.mk pre) = .ok a ∧ tokenize (String.mk post) = .ok b ∧
      toks = a ++ b := by
  have hall : ∀ c ∈ pre ++ ' ' :: post, isAccepted c = true := by
    have := (tokenizeAux_ok_iff (pre ++ ' ' :: post) 0).1 ⟨toks, h⟩
    rwa [List.drop_zero] at this
  obtain ⟨a, ha⟩ := (tokenizeAux_ok_iff pre 0).2 (by
    rw [List.drop_zero]
    intro c hc
    exact hall c (by simp [hc]))
  obtain ⟨b, hb⟩ := (tokenizeAux_ok_iff post 0).2 (by
    rw [List.drop_zero]
    intro c hc
    exact hall c (by simp [hc]))
  refine ⟨a, b, ha, hb, ?_⟩
  have hahead : noDigitAhead (' ' :: post) = true := by
    show (!isDigit ' ') = true
    decide
  have hsplit := tokenizeAux_append pre 0 a (' ' :: post) (Nat.zero_le _) ha (Or.inr hahead)
  rw [tokenizeAux_space, hb] at hsplit
  have h' : tokenizeAux (pre ++ ' ' :: post) 0 = .ok toks := h
  rw [hsplit] at h'
  simp only [Except.map, Except.ok.injEq] at h'
  exact h'.symm

theorem isToken_ne_empty {t : String} (h : isToken t = true) : t.data ≠ [] := by
  simp only [isToken, Bool.or_eq_true, decide_eq_true_eq] at h
  rcases h with h | h
  · intro he
    simp [isOperandToken, he] at h
  · simp only [List.mem_cons, List.mem_singleton, List.not_mem_nil, or_false] at h
    rcases h with rfl | rfl | rfl | rfl | rfl | rfl | rfl <;> decide

/-- Claim C11, amended: `tokenize(s)` succeeds if and only if every
character of `s` is a letter, a digit, one of `( ) + - * / ^` or the space
character; spaces are skipped without producing a token: every token is
non-empty and free of spaces, and around any space of `s` the tokens are
exactly those of what precedes it followed by those of what follows it. -/
theorem tokenize_alphabet (s : String) :
    ((∃ toks, tokenize s = .ok toks) ↔ ∀ c ∈ s.data, isAccepted c = true) ∧
      (∀ toks, tokenize s = .ok toks → ∀ t ∈ toks, t.data ≠ [] ∧ ∀ c ∈ t.data, c ≠ ' ') ∧
      ∀ pre post toks, s.data = pre ++ ' ' :: post → tokenize s = .ok toks →
        ∃ a b, tokenize (String.mk pre) = .ok a ∧ tokenize (String.mk post) = .ok b ∧
          toks = a ++ b := by
  refine ⟨?_, ?_, ?_⟩
  · have := tokenizeAux_ok_iff s.data 0
    rwa [List.drop_zero] at this
  · intro toks h t ht
    have htok := (tokenizeAux_tokens s.data 0 toks h).2 t ht
    exact ⟨isToken_ne_empty htok, isToken_no_space htok⟩
  · intro pre post toks hs h
    apply tokenize_space_split pre post toks
    have : tokenizeAux s.data 0 = .ok toks := h
    rw [hs] at this
    exact this

/-- Claim C13: in a string that tokenizes, a maximal run of digits becomes
one token equal to the run, and a letter becomes a one-character token
whatever stands next to it: the tokens are those of what precedes, that
token, and those of what follows. -/
theorem tokenize_runs (pre mid post : List Char) (toks : List String)
    (h : tokenize (String.mk (pre ++ mid ++ post)) = .ok toks)
    (hmid : (mid ≠ [] ∧ (∀ c ∈ mid, isDigit c = true) ∧ noDigitBehind pre = true ∧
        noDigitAhead post = true) ∨ ∃ c, mid = [c] ∧ isLetter c = true) :
    ∃ a b, tokenize (String.mk pre) = .ok a ∧ tokenize (String.mk post) = .ok b ∧
      toks = a ++ [String.mk mid] ++ b := by
  have hall : ∀ c ∈ pre ++ mid ++ post, isAccepted c = true := by
    have := (tokenizeAux_ok_iff (pre ++ mid ++ post) 0).1 ⟨toks, h⟩
    rwa [List.drop_zero] at this
  obtain ⟨a, ha⟩ := (tokenizeAux_ok_iff pre 0).2 (by
    rw [List.drop_zero]
    intro c hc
    exact hall c (by simp [hc]))
  obtain ⟨b, hb⟩ := (tokenizeAux_ok_iff post 0).2 (by
    rw [List.drop_zero]
    intro c hc
    exact hall c (by simp [hc]))
  refine ⟨a, b, ha, hb, ?_⟩
  have hmidpost : tokenizeAux (mid ++ post) 0 = .ok (String.mk mid :: b) ∧
      (noDigitBehind pre = true ∨ noDigitAhead (mid ++ post) = true) := by
    rcases hmid with ⟨hne, hd, hbehind, hahead⟩ | ⟨c, rfl, hc⟩
    · cases mid with
      | nil => exact absurd rfl hne
      | cons d ds =>
        refine ⟨?_, Or.inl hbehind⟩
        rw [List.cons_append, tokenizeAux_digits d ds post (hd d (List.mem_cons_self _ _))
          (fun x hx => hd x (List.mem_cons_of_mem _ hx)) hahead, hb]
        rfl
    · refine ⟨?_, Or.inr ?_⟩
      · rw [List.singleton_append, tokenizeAux_letter c post hc, hb]
        rfl
      · cases hd : isDigit c with
        | false => simp [noDigitAhead, hd]
        | true => rw [isDigit_not_isLetter hd] at hc; exact absurd hc (by decide)
  have hsplit := tokenizeAux_append pre 0 a (mid ++ post) (Nat.zero_le _) ha hmidpost.2
  rw [hmidpost.1] at hsplit
  have h' : tokenizeAux (pre ++ (mid ++ post)) 0 = .ok toks := by
    rw [← List.append_assoc]
    exact h
  rw [hsplit] at h'
  simp only [Except.map, Except.ok.injEq] at h'
  rw [← h']
  simp

/-- Claim C13 at `12 + 3` (the run `12`) and at `AB` (the letter `B` after `A`). -/
theorem tokenize_runs_witness :
    (∃ a b, tokenize "" = .ok a ∧ tokenize " + 3" = .ok b ∧
      ["12", "+", "3"] = a ++ ["12"] ++ b) ∧
    (∃ a b, tokenize "A" = .ok a ∧ tokenize "" = .ok b ∧ ["A", "B"] = a ++ ["B"] ++ b) :=
  ⟨tokenize_runs [] ['1', '2'] [' ', '+', ' ', '3'] ["12", "+", "3"] (by decide)
      (Or.inl (by decide)),
    tokenize_runs ['A'] ['B'] [] ["A", "B"] (by decide) (Or.inr ⟨'B', rfl, by decide⟩)⟩

/-- Claim C20: when `tokenize(s)` succeeds, the concatenation of the tokens
is `s` without its spaces, every token is a single letter, a non-empty run of
digits or one of `( ) + - * / ^`, and a string of spaces only (the empty
string included) gives no token. -/
theorem tokenize_lossless (s : String) (toks : List String) (h : tokenize s = .ok toks) :
    (jsJoin "" toks).data = s.data.filter (fun c => c != ' ') ∧
      (∀ t ∈ toks, isToken t = true) ∧
      ∀ n, tokenize (String.mk (List.replicate n ' ')) = .ok [] := by
  have := tokenizeAux_tokens s.data 0 toks h
  rw [List.drop_zero] at this
  exact ⟨this.1, this.2, tokenizeAux_spaces⟩

/-- Claim C20 at `12 + (A*b)`. -/
theorem tokenize_lossless_witness :
    (jsJoin "" ["12", "+", "(", "A", "*", "b", ")"]).data =
        "12 + (A*b)".data.filter (fun c => c != ' ') ∧
      (∀ t ∈ ["12", "+", "(", "A", "*", "b", ")"], isToken t = true) ∧
      ∀ n, tokenize (String.mk (List.replicate n ' ')) = .ok [] :=
  tokenize_lossless "12 + (A*b)" ["12", "+", "(", "A", "*", "b", ")"] (by decide)

/-! ## The dispatcher -/

theorem convert_infix_postfix_eq (e : String) :
    convert "Infix" "Postfix" e = infixToPostfixWithSteps e := by
  unfold convert
  rw [if_neg (by decide), if_pos (by decide)]

theorem convert_infix_prefix_eq (e : String) :
    convert "Infix" "Prefix" e =
      match infixToPostfixWithSteps e with
      | .error e => .error e
      | .ok r =>
        match tokenize (jsShow r.result) with
        | .error e => .error e
        | .ok toks =>
          .ok (finishDirect (infixPrefixLoop toks { stack := [], steps := [], iter := 0 })) := by
  unfold convert
  rw [if_neg (by decide), if_neg (by decide), if_pos (by decide)]

theorem convert_postfix_infix_eq (e : String) :
    convert "Postfix" "Infix" e = postfixToInfixWithSteps e := by
  unfold convert
  rw [if_neg (by decide), if_neg (by decide), if_neg (by decide), if_pos (by decide)]

theorem convert_prefix_infix_eq (e : String) :
    convert "Prefix" "Infix" e = prefixToInfixWithSteps e := by
  unfold convert
  rw [if_neg (by decide), if_neg (by decide), if_neg (by decide), if_neg (by decide),
    if_pos (by decide)]

theorem convert_postfix_prefix_eq (e : String) :
    convert "Postfix" "Prefix" e =
      match tokenize e with
      | .error e => .error e
      | .ok toks =>
        .ok (finishDirect (postfixPrefixLoop toks { stack := [], steps := [], iter := 0 })) := by
  unfold convert
  rw [if_neg (by decide), if_neg (by decide), if_neg (by decide), if_neg (by decide),
    if_neg (by decide), if_pos (by decide)]

theorem convert_prefix_postfix_eq (e : String) :
    convert "Prefix" "Postfix" e =
      match tokenize e with
      | .error e => .error e
      | .ok toks =>
        .ok (finishDirect
          (prefixPostfixLoop toks.reverse { stack := [], steps := [], iter := 0 })) := by
  unfold convert
  rw [if_neg (by decide), if_neg (by decide), if_neg (by decide), if_neg (by decide),
    if_neg (by decide), if_neg (by decide), if_pos (by decide)]

theorem supportedPairs_cases {src dst : String} (h : (src, dst) ∈ supportedPairs) :
    (src = "Infix" ∧ dst = "Postfix") ∨ (src = "Infix" ∧ dst = "Prefix") ∨
    (src = "Postfix" ∧ dst = "Infix") ∨ (src = "Prefix" ∧ dst = "Infix") ∨
    (src = "Postfix" ∧ dst = "Prefix") ∨ (src = "Prefix" ∧ dst = "Postfix") := by
  simpa [supportedPairs] using h

/-! ## What the shunting-yard loop keeps on its stack and output -/

theorem popToParen_mem (S : List String) :
    ∀ O x, x ∈ (popToParen S O).1 ∨ x ∈ (popToParen S O).2 → x ∈ S ∨ x ∈ O := by
  induction S with
  | nil => intro O x h; simpa [popToParen] using h
  | cons top S ih =>
    intro O x h
    rw [popToParen] at h
    by_cases ht : top ≠ "("
    · rw [if_pos ht] at h
      rcases ih _ x h with h1 | h1
      · exact Or.inl (List.mem_cons_of_mem _ h1)
      · rcases List.mem_append.1 h1 with h2 | h2
        · exact Or.inr h2
        · rw [List.mem_singleton.1 h2]; exact Or.inl (List.mem_cons_self _ _)
    · rw [if_neg ht] at h
      exact h

theorem popOperators_mem (tok : String) (S : List String) :
    ∀ O x, x ∈ (popOperators tok S O).1 ∨ x ∈ (popOperators tok S O).2 → x ∈ S ∨ x ∈ O := by
  induction S with
  | nil => intro O x h; simpa [popOperators] using h
  | cons top S ih =>
    intro O x h
    rw [popOperators] at h
    split_ifs at h
    · rcases ih _ x h with h1 | h1
      · exact Or.inl (List.mem_cons_of_mem _ h1)
      · rcases List.mem_append.1 h1 with h2 | h2
        · exact Or.inr h2
        · rw [List.mem_singleton.1 h2]; exact Or.inl (List.mem_cons_self _ _)
    · exact h
    · exact h

theorem shuntCore_mem (S O : List String) (tok x : String)
    (h : x ∈ (shuntCore (S, O) tok).1 ∨ x ∈ (shuntCore (S, O) tok).2) :
    x = tok ∨ x ∈ S ∨ x ∈ O := by
  unfold shuntCore at h
  split_ifs at h
  · rcases h with h | h
    · exact Or.inr (Or.inl h)
    · rcases List.mem_append.1 h with h | h
      · exact Or.inr (Or.inr h)
      · exact Or.inl (List.mem_singleton.1 h)
  · rcases h with h | h
    · rcases List.mem_cons.1 h with h | h
      · exact Or.inl h
      · exact Or.inr (Or.inl h)
    · exact Or.inr (Or.inr h)
  · rcases h with h | h
    · exact Or.inr (popToParen_mem S O x (Or.inl (List.mem_of_mem_tail h)))
    · exact Or.inr (popToParen_mem S O x (Or.inr h))
  · rcases h with h | h
    · rcases List.mem_cons.1 h with h | h
      · exact Or.inl h
      · exact Or.inr (popOperators_mem tok S O x (Or.inl h))
    · exact Or.inr (popOperators_mem tok S O x (Or.inr h))

theorem shuntFold_mem (toks : List String) :
    ∀ S O x, x ∈ (toks.foldl shuntCore (S, O)).1 ∨ x ∈ (toks.foldl shuntCore (S, O)).2 →
      x ∈ toks ∨ x ∈ S ∨ x ∈ O := by
  induction toks with
  | nil => intro S O x h; exact Or.inr h
  | cons tok rest ih =>
    intro S O x h
    rw [List.foldl_cons] at h
    rcases ih _ _ x h with h1 | h1
    · exact Or.inl (List.mem_cons_of_mem _ h1)
    · rcases shuntCore_mem S O tok x h1 with h2 | h2
      · exact Or.inl (h2 ▸ List.mem_cons_self _ _)
      · exact Or.inr h2

theorem isToken_accepted {t : String} (h : isToken t = true) :
    ∀ c ∈ t.data, isAccepted c = true := by
  simp only [isToken, Bool.or_eq_true, decide_eq_true_eq] at h
  rcases h with h | h
  · intro c hc
    rcases operandToken_chars h c hc with h1 | h1
    · simp [isAccepted, h1]
    · simp [isAccepted, h1]
  · simp only [List.mem_cons, List.mem_singleton, List.not_mem_nil, or_false] at h
    rcases h with rfl | rfl | rfl | rfl | rfl | rfl | rfl <;> decide

/-- The postfix string produced by the first stage always tokenizes. -/
theorem tokenize_postfix_ok (e : String) (r : ConversionResult)
    (h : infixToPostfixWithSteps e = .ok r) : ∃ toks, tokenize (jsShow r.result) = .ok toks := by
  unfold infixToPostfixWithSteps at h
  cases ht : tokenize e with
  | error m => rw [ht] at h; cases h
  | ok toks =>
    rw [ht] at h
    simp only [Except.ok.injEq] at h
    subst h
    have hcore := shuntLoop_core toks { output := [], stack := [], steps := [], iter := 0 }
    simp only [Prod.ext_iff] at hcore
    have htok := (tokenizeAux_tokens e.data 0 toks ht).2
    have hall : ∀ x ∈ (shuntLoop toks { output := [], stack := [], steps := [], iter := 0 }).output
        ++ (shuntLoop toks { output := [], stack := [], steps := [], iter := 0 }).stack,
        isToken x = true := by
      intro x hx
      rw [hcore.1, hcore.2] at hx
      rcases shuntFold_mem toks [] [] x (Or.symm (List.mem_append.1 hx)) with h1 | h1 | h1
      · exact htok x h1
      · simp at h1
      · simp at h1
    have := (tokenizeAux_ok_iff (jsJoin " " ((shuntLoop toks
      { output := [], stack := [], steps := [], iter := 0 }).output ++ (shuntLoop toks
      { output := [], stack := [], steps := [], iter := 0 }).stack)).data 0).2 (by
        rw [List.drop_zero]
        intro c hc
        rcases jsJoin_chars _ _ c hc with h1 | ⟨x, hx, hcx⟩
        · have hsp : ∀ d ∈ (" " : String).data, isAccepted d = true := by decide
          exact hsp c h1
        · exact isToken_accepted (hall x hx) c hcx)
    exact this

theorem match_tokenize_error {α : Type} (x : Except String (List String))
    (g : List String → α) (m : String) :
    (match x with
      | .error e => (.error e : Except String α)
      | .ok toks => .ok (g toks)) = .error m ↔ x = .error m := by
  cases x <;> simp

theorem infixToPostfix_error_iff (e m : String) :
    infixToPostfixWithSteps e = .error m ↔ tokenize e = .error m := by
  unfold infixToPostfixWithSteps
  exact match_tokenize_error _ _ m

/-- On a supported pair, `convert` throws exactly the error of `tokenize`. -/
theorem convert_error_iff_tokenize (src dst e : String) (hp : (src, dst) ∈ supportedPairs)
    (m : String) : convert src dst e = .error m ↔ tokenize e = .error m := by
  rcases supportedPairs_cases hp with ⟨rfl, rfl⟩ | ⟨rfl, rfl⟩ | ⟨rfl, rfl⟩ | ⟨rfl, rfl⟩ |
    ⟨rfl, rfl⟩ | ⟨rfl, rfl⟩
  · rw [convert_infix_postfix_eq]
    exact infixToPostfix_error_iff e m
  · rw [convert_infix_prefix_eq, ← infixToPostfix_error_iff]
    cases hi : infixToPostfixWithSteps e with
    | error m' => simp
    | ok r =>
      obtain ⟨toks, ht⟩ := tokenize_postfix_ok e r hi
      simp [ht]
  · rw [convert_postfix_infix_eq]
    unfold postfixToInfixWithSteps
    exact match_tokenize_error _ _ m
  · rw [convert_prefix_infix_eq]
    unfold prefixToInfixWithSteps
    exact match_tokenize_error _ _ m
  · rw [convert_postfix_prefix_eq]
    exact match_tokenize_error _ _ m
  · rw [convert_prefix_postfix_eq]
    exact match_tokenize_error _ _ m

theorem tokenizeAux_error_form (cs : List Char) :
    ∀ k m, tokenizeAux cs k = .error m →
      ∃ c, m = "Invalid character: " ++ String.singleton c := by
  induction cs with
  | nil => intro k m h; simp [tokenizeAux] at h
  | cons c rest ih =>
    intro k m h
    cases k with
    | succ k => rw [tokenizeAux_succ] at h; exact ih k m h
    | zero =>
      rcases tokenizeAux_cases c rest with ⟨_, e⟩ | ⟨_, _, _, e⟩ | ⟨_, e⟩ | ⟨_, e⟩
      · rw [e] at h; exact ih 0 m h
      · rw [e] at h
        cases hr : tokenizeAux rest 0 with
        | error m' =>
          rw [hr] at h
          simp only [Except.map, Except.error.injEq] at h
          exact ih 0 m (h ▸ hr)
        | ok toks => rw [hr] at h; cases h
      · rw [e] at h
        cases hr : tokenizeAux rest (rest.takeWhile isDigit).length with
        | error m' =>
          rw [hr] at h
          simp only [Except.map, Except.error.injEq] at h
          exact ih _ m (h ▸ hr)
        | ok toks => rw [hr] at h; cases h
      · rw [e] at h
        simp only [Except.error.injEq] at h
        exact ⟨c, h.symm⟩

theorem invalid_ne_unsupported (c : Char) :
    "Invalid character: " ++ String.singleton c ≠ "Unsupported conversion" := by
  intro h
  have h1 := congrArg (fun s => s.data.head?) h
  have e1 : ("Invalid character: " ++ String.singleton c).data.head? = some 'I' := by
    rw [String.data_append]
    rfl
  have e2 : ("Unsupported conversion" : String).data.head? = some 'U' := rfl
  simp only [e1, e2] at h1
  exact absurd h1 (by decide)

/-! ## The claims on the dispatcher -/

/-- Claim C14: on each of the six supported pairs, `convert` throws if and
only if `tokenize` throws, with the same message; whenever the expression
tokenizes, whatever its structure, a result object is returned. -/
theorem convert_never_raises_on_structure (src dst e : String)
    (hp : (src, dst) ∈ supportedPairs) :
    (∀ m, convert src dst e = .error m ↔ tokenize e = .error m) ∧
      ∀ toks, tokenize e = .ok toks → ∃ r, convert src dst e = .ok r := by
  refine ⟨convert_error_iff_tokenize src dst e hp, ?_⟩
  intro toks ht
  cases hc : convert src dst e with
  | ok r => exact ⟨r, rfl⟩
  | error m =>
    have := (convert_error_iff_tokenize src dst e hp m).1 hc
    rw [ht] at this
    cases this

/-- Claim C14 at a mismatched parenthesis, a missing operand and the empty expression. -/
theorem convert_never_raises_on_structure_witness :
    (∃ r, convert "Infix" "Prefix" ")(" = .ok r) ∧
      (∃ r, convert "Postfix" "Infix" "+" = .ok r) ∧
      (∃ r, convert "Prefix" "Postfix" "" = .ok r) :=
  ⟨(convert_never_raises_on_structure "Infix" "Prefix" ")(" (by decide)).2 [")", "("]
      (by decide),
    (convert_never_raises_on_structure "Postfix" "Infix" "+" (by decide)).2 ["+"] (by decide),
    (convert_never_raises_on_structure "Prefix" "Postfix" "" (by decide)).2 [] (by decide)⟩

theorem convert_same (n e : String) :
    convert n n e =
      .ok { result := some e,
            steps := [{ iter := 1, input := e, stack := "", output := some e,
                        action := "same notation" }] } := by
  unfold convert
  rw [if_pos rfl]

/-- Claim C15: `convert(n, n, e)` succeeds for every `n` and `e`, returns `e`
unchanged, and its trace is one step with index 1 and action `same notation`. -/
theorem convert_identity (n e : String) :
    convert n n e =
      .ok { result := some e,
            steps := [{ iter := 1, input := e, stack := "", output := some e,
                        action := "same notation" }] } :=
  convert_same n e

/-- Claim C16: a pair of different values that is not one of the six
supported pairs fails with `Unsupported conversion`, and on a supported pair
that error is never raised. -/
theorem convert_unsupported (src dst e : String) :
    (src ≠ dst → (src, dst) ∉ supportedPairs →
        convert src dst e = .error "Unsupported conversion") ∧
      ((src, dst) ∈ supportedPairs → convert src dst e ≠ .error "Unsupported conversion") := by
  refine ⟨?_, ?_⟩
  · intro hne hp
    simp only [supportedPairs, List.mem_cons, Prod.mk.injEq, List.mem_singleton,
      List.not_mem_nil, or_false, not_or] at hp
    obtain ⟨h1, h2, h3, h4, h5, h6⟩ := hp
    unfold convert
    rw [if_neg hne, if_neg h1, if_neg h2, if_neg h3, if_neg h4, if_neg h5, if_neg h6]
  · intro hp hc
    have ht := (convert_error_iff_tokenize src dst e hp _).1 hc
    obtain ⟨c, hm⟩ := tokenizeAux_error_form e.data 0 _ ht
    exact invalid_ne_unsupported c hm.symm

/-- Claim C16 at the pair (`Infix`, `Roman`) and at the supported pair (`Infix`, `Postfix`). -/
theorem convert_unsupported_witness :
    convert "Infix" "Roman" "A + B" = .error "Unsupported conversion" ∧
      convert "Infix" "Postfix" "A # B" ≠ .error "Unsupported conversion" :=
  ⟨(convert_unsupported "Infix" "Roman" "A + B").1 (by decide) (by decide),
    (convert_unsupported "Infix" "Postfix" "A # B").2 (by decide)⟩

/-! ## The trace of the shunting-yard loop -/

theorem shuntStep_steps (s : ShuntState) (tok : String) (rest : List String) :
    ∃ st, (shuntStep s tok rest).steps = s.steps ++ [st] ∧ st.iter = s.iter + 1 ∧
      st.input = jsJoin " " rest ∧
      st.stack = jsJoin "" (shuntStep s tok rest).stack.reverse ∧
      st.output = some (jsJoin " " (shuntStep s tok rest).output) ∧
      (shuntStep s tok rest).iter = s.iter + 1 := by
  unfold shuntStep
  by_cases h1 : isOperand tok = true
  · rw [if_pos h1]
    exact ⟨_, rfl, rfl, rfl, rfl, rfl, rfl⟩
  · rw [if_neg h1]
    by_cases h2 : tok = "("
    · rw [if_pos h2]
      exact ⟨_, rfl, rfl, rfl, rfl, rfl, rfl⟩
    · rw [if_neg h2]
      by_cases h3 : tok = ")"
      · rw [if_pos h3]
        exact ⟨_, rfl, rfl, rfl, rfl, rfl, rfl⟩
      · rw [if_neg h3]
        exact ⟨_, rfl, rfl, rfl, rfl, rfl, rfl⟩

/-- The steps the loop appends: one per token, the `k`-th recording the
tokens after it and the stack and output reached after it. -/
theorem shuntLoop_trace (toks : List String) :
    ∀ s : ShuntState, ∃ extra : List Step,
      (shuntLoop toks s).steps = s.steps ++ extra ∧ extra.length = toks.length ∧
      (shuntLoop toks s).iter = s.iter + toks.length ∧
      ∀ k, k < toks.length → ∃ st, extra[k]? = some st ∧ st.iter = s.iter + k + 1 ∧
        st.input = jsJoin " " (toks.drop (k + 1)) ∧
        st.stack =
          jsJoin "" ((toks.take (k + 1)).foldl shuntCore (s.stack, s.output)).1.reverse ∧
        st.output =
          some (jsJoin " " ((toks.take (k + 1)).foldl shuntCore (s.stack, s.output)).2) := by
  induction toks with
  | nil =>
    intro s
    exact ⟨[], by simp [shuntLoop], rfl, rfl, fun k hk => absurd hk (Nat.not_lt_zero _)⟩
  | cons tok rest ih =>
    intro s
    obtain ⟨st0, e0, i0, n0, k0, o0, it0⟩ := shuntStep_steps s tok rest
    obtain ⟨extra, e1, l1, it1, hk1⟩ := ih (shuntStep s tok rest)
    have hcore := shuntStep_core s tok rest
    refine ⟨st0 :: extra, ?_, by simp [l1], ?_, ?_⟩
    · rw [shuntLoop, e1, e0]
      simp
    · rw [shuntLoop, it1, it0, List.length_cons]
      omega
    · intro k hk
      cases k with
      | zero =>
        refine ⟨st0, by simp, by omega, n0, ?_, ?_⟩
        · rw [k0]
          simp only [List.take_succ_cons, List.take_zero, List.foldl_cons, List.foldl_nil,
            ← hcore]
        · rw [o0]
          simp only [List.take_succ_cons, List.take_zero, List.foldl_cons, List.foldl_nil,
            ← hcore]
      | succ k =>
        obtain ⟨st, g1, g2, g3, g4, g5⟩ := hk1 k (by simpa using hk)
        refine ⟨st, by simpa using g1, by rw [g2, it0]; omega, by simpa using g3, ?_, ?_⟩
        · rw [g4, List.take_succ_cons, List.foldl_cons, ← hcore]
        · rw [g5, List.take_succ_cons, List.foldl_cons, ← hcore]

/-- The whole trace of `infixToPostfixWithSteps` on an expression that tokenizes. -/
theorem infixToPostfix_trace (e : String) (toks : List String) (h : tokenize e = .ok toks) :
    ∃ r, infixToPostfixWithSteps e = .ok r ∧ r.steps.length = toks.length + 1 ∧
      (∀ k, k < toks.length → ∃ st, r.steps[k]? = some st ∧ st.iter = k + 1 ∧
        st.input = jsJoin " " (toks.drop (k + 1)) ∧
        st.stack = jsJoin "" ((toks.take (k + 1)).foldl shuntCore ([], [])).1.reverse ∧
        st.output = some (jsJoin " " ((toks.take (k + 1)).foldl shuntCore ([], [])).2)) ∧
      r.steps[toks.length]? = some
        { iter := toks.length + 1, input := "", stack := "", output := r.result,
          action := "pop remaining operators" } := by
  obtain ⟨extra, e1, l1, it1, hk1⟩ :=
    shuntLoop_trace toks { output := [], stack := [], steps := [], iter := 0 }
  simp only [List.nil_append, Nat.zero_add] at e1 it1 hk1
  have hlast : (match extra.getLast? with
      | some last => last.iter + 1
      | none => 1) = toks.length + 1 := by
    cases htoks : toks.length with
    | zero =>
      rw [htoks] at l1
      rw [List.length_eq_zero.1 l1]
      rfl
    | succ n =>
      obtain ⟨st, g1, g2, _⟩ := hk1 n (by omega)
      rw [List.getLast?_eq_getElem?, l1, htoks, Nat.add_sub_cancel, g1]
      simp only [g2]
  refine ⟨_, by rw [infixToPostfixWithSteps, h], ?_, ?_, ?_⟩
  · simp [shuntFinish, e1, l1]
  · intro k hk
    obtain ⟨st, g1, g2, g3, g4, g5⟩ := hk1 k hk
    refine ⟨st, ?_, g2, g3, g4, g5⟩
    simp only [shuntFinish, e1]
    rw [List.getElem?_append_left (by omega)]
    exact g1
  · simp only [shuntFinish, e1, hlast]
    rw [List.getElem?_append_right (by omega), l1]
    simp

/-! ## The claims on the trace of infix to postfix -/

/-- Claim C19: on an expression of `n` tokens, `infixToPostfixWithSteps`
returns `n + 1` steps; the `k`-th has index `k` and shows the tokens after
the `k`-th joined by spaces; the last has index `n + 1`, the action
`pop remaining operators`, empty input and stack, and the result as output. -/
theorem infixToPostfix_trace_shape (e : String) (toks : List String)
    (h : tokenize e = .ok toks) :
    ∃ r, infixToPostfixWithSteps e = .ok r ∧ r.steps.length = toks.length + 1 ∧
      (∀ k, k < toks.length → ∃ st, r.steps[k]? = some st ∧ st.iter = k + 1 ∧
        st.input = jsJoin " " (toks.drop (k + 1))) ∧
      r.steps[toks.length]? = some
        { iter := toks.length + 1, input := "", stack := "", output := r.result,
          action := "pop remaining operators" } := by
  obtain ⟨r, h1, h2, h3, h4⟩ := infixToPostfix_trace e toks h
  refine ⟨r, h1, h2, ?_, h4⟩
  intro k hk
  obtain ⟨st, g1, g2, g3, _⟩ := h3 k hk
  exact ⟨st, g1, g2, g3⟩

/-- Claim C19 at `A + B` (three tokens) . -/
theorem infixToPostfix_trace_shape_witness :
    ∃ r, infixToPostfixWithSteps "A + B" = .ok r ∧ r.steps.length = 3 + 1 ∧
      (∀ k, k < 3 → ∃ st, r.steps[k]? = some st ∧ st.iter = k + 1 ∧
        st.input = jsJoin " " (["A", "+", "B"].drop (k + 1))) ∧
      r.steps[3]? = some
        { iter := 3 + 1, input := "", stack := "", output := r.result,
          action := "pop remaining operators" } :=
  infixToPostfix_trace_shape "A + B" ["A", "+", "B"] (by decide)

/-! ## Token accounting in the shunting-yard loop -/

theorem popToParen_split (S : List String) :
    ∀ O, ∃ P, S = P ++ (popToParen S O).1 ∧ (popToParen S O).2 = O ++ P ∧ P.count "(" = 0 ∧
      ((popToParen S O).1 = [] ∨ ∃ S', (popToParen S O).1 = "(" :: S') := by
  induction S with
  | nil => intro O; exact ⟨[], by simp [popToParen]⟩
  | cons top S ih =>
    intro O
    rw [popToParen]
    by_cases ht : top ≠ "("
    · rw [if_pos ht]
      obtain ⟨P, h1, h2, h3, h4⟩ := ih (O ++ [top])
      refine ⟨top :: P, by rw [List.cons_append, ← h1], by rw [h2]; simp, ?_, h4⟩
      rw [List.count_cons_of_ne (Ne.symm ht), h3]
    · rw [if_neg ht]
      have ht' : top = "(" := by simpa using ht
      exact ⟨[], by simp, by simp, by simp, Or.inr ⟨S, by rw [ht']⟩⟩

theorem popOperators_split (tok : String) (S : List String) :
    ∀ O, ∃ P, S = P ++ (popOperators tok S O).1 ∧ (popOperators tok S O).2 = O ++ P ∧
      P.count "(" = 0 := by
  induction S with
  | nil => intro O; exact ⟨[], by simp [popOperators]⟩
  | cons top S ih =>
    intro O
    rw [popOperators]
    by_cases h1 : jsIncludes "+-*/^" top = true
    · rw [if_pos h1]
      by_cases h2 : precedence top > precedence tok ∨
          (precedence top = precedence tok ∧ isRightAssoc tok = false)
      · rw [if_pos h2]
        obtain ⟨P, g1, g2, g3⟩ := ih (O ++ [top])
        have hne : top ≠ "(" := by
          rintro rfl
          exact absurd h1 (by decide)
        refine ⟨top :: P, by rw [List.cons_append, ← g1], by rw [g2]; simp, ?_⟩
        rw [List.count_cons_of_ne (Ne.symm hne), g3]
      · rw [if_neg h2]
        exact ⟨[], by simp⟩
    · rw [if_neg h1]
      exact ⟨[], by simp⟩

theorem count_cons_singleton (a b : String) (l : List String) :
    List.count a (b :: l) = List.count a [b] + List.count a l := by
  rw [← List.singleton_append, List.count_append]

theorem count_replicate_succ (a b : String) (n : Nat) :
    List.count a (List.replicate (n + 1) b) = List.count a [b] + List.count a (List.replicate n b) := by
  rw [List.replicate_succ, count_cons_singleton]

theorem isOperand_not_paren {tok : String} (h : isOperand tok = true) :
    tok ≠ "(" ∧ tok ≠ ")" := by
  constructor <;> (rintro rfl; exact absurd h (by decide))

/-- One pass of the loop keeps the account of the consumed tokens and the
count of open parentheses on the stack. -/
theorem account_step (c S O : List String) (d m : Nat) (tok : String)
    (h : Accounted c S O m) (hd : S.count "(" = d) :
    Accounted (c ++ [tok]) (shuntCore (S, O) tok).1 (shuntCore (S, O) tok).2
        (parenStep (d, m) tok).2 ∧
      (shuntCore (S, O) tok).1.count "(" = (parenStep (d, m) tok).1 := by
  unfold Accounted at h ⊢
  have key := fun a => (List.perm_iff_count.1 h) a
  simp only [List.count_append] at key
  unfold shuntCore parenStep
  dsimp only
  by_cases h1 : isOperand tok = true
  · obtain ⟨n1, n2⟩ := isOperand_not_paren h1
    rw [if_pos h1, if_neg n1, if_neg n2]
    refine ⟨?_, hd⟩
    rw [List.perm_iff_count]
    intro a
    have hc : List.count ")" (c ++ [tok]) = List.count ")" c := by
      rw [List.count_append, List.count_singleton]
      simp [n2]
    simp only [hc, List.count_append]
    have := key a
    omega
  · rw [if_neg h1]
    by_cases h2 : tok = "("
    · subst h2
      rw [if_pos rfl, if_pos rfl]
      refine ⟨?_, ?_⟩
      · rw [List.perm_iff_count]
        intro a
        have hc : List.count ")" (c ++ ["("]) = List.count ")" c := by
          rw [List.count_append]
          simp
        simp only [hc, List.count_append, count_cons_singleton a "(" S]
        have := key a
        omega
      · simp [hd]
    · rw [if_neg h2, if_neg h2]
      by_cases h3 : tok = ")"
      · subst h3
        rw [if_pos rfl, if_pos rfl]
        obtain ⟨P, g1, g2, g3, g4⟩ := popToParen_split S O
        have hc : List.count ")" (c ++ [")"]) = List.count ")" c + 1 := by
          rw [List.count_append]
          simp
        have hdS : List.count "(" (popToParen S O).1 = d := by
          rw [← hd]
          conv_rhs => rw [g1]
          rw [List.count_append, g3, Nat.zero_add]
        have keyP : ∀ a, List.count a S = List.count a P + List.count a (popToParen S O).1 := by
          intro a
          conv_lhs => rw [g1]
          rw [List.count_append]
        rcases g4 with g4 | ⟨S', g4⟩
        · have hd0 : d = 0 := by rw [← hdS, g4]; rfl
          subst hd0
          rw [if_pos rfl]
          refine ⟨?_, by rw [g4]; rfl⟩
          rw [List.perm_iff_count]
          intro a
          simp only [hc, g2, g4, List.tail_nil, List.count_append, count_replicate_succ,
            List.count_nil]
          have := key a
          have := keyP a
          rw [g4] at this
          simp only [List.count_nil] at this
          omega
        · have hd1 : d = List.count "(" S' + 1 := by
            rw [← hdS, g4]
            simp
          have hne : d ≠ 0 := by omega
          rw [if_neg hne]
          refine ⟨?_, by rw [g4, List.tail_cons]; simp only []; omega⟩
          rw [List.perm_iff_count]
          intro a
          simp only [hc, g2, g4, List.tail_cons, List.count_append, count_replicate_succ]
          have := key a
          have := keyP a
          rw [g4, count_cons_singleton a "(" S'] at this
          omega
      · rw [if_neg h3, if_neg h3]
        obtain ⟨P, g1, g2, g3⟩ := popOperators_split tok S O
        have hc : List.count ")" (c ++ [tok]) = List.count ")" c := by
          rw [List.count_append, List.count_singleton]
          simp [h3]
        have keyP : ∀ a, List.count a S =
            List.count a P + List.count a (popOperators tok S O).1 := by
          intro a
          conv_lhs => rw [g1]
          rw [List.count_append]
        refine ⟨?_, ?_⟩
        · rw [List.perm_iff_count]
          intro a
          simp only [hc, g2, List.count_append,
            count_cons_singleton a tok (popOperators tok S O).1]
          have := key a
          have := keyP a
          omega
        · rw [List.count_cons_of_ne (Ne.symm h2), ← hd]
          have := keyP "("
          omega

theorem account_fold (w : List String) :
    ∀ (c S O : List String) (d m : Nat), Accounted c S O m → S.count "(" = d →
      Accounted (c ++ w) (w.foldl shuntCore (S, O)).1 (w.foldl shuntCore (S, O)).2
          (w.foldl parenStep (d, m)).2 ∧
        (w.foldl shuntCore (S, O)).1.count "(" = (w.foldl parenStep (d, m)).1 := by
  induction w with
  | nil => intro c S O d m h hd; simpa using ⟨h, hd⟩
  | cons tok rest ih =>
    intro c S O d m h hd
    obtain ⟨h1, h2⟩ := account_step c S O d m tok h hd
    have := ih (c ++ [tok]) _ _ _ _ h1 h2
    simpa [List.foldl_cons, List.append_assoc] using this

theorem jsJoin_mem_data (sep : String) (l : List String) :
    ∀ x ∈ l, ∀ c ∈ x.data, c ∈ (jsJoin sep l).data := by
  induction l with
  | nil => intro x hx; simp at hx
  | cons a as ih =>
    cases as with
    | nil =>
      intro x hx c hc
      rw [List.mem_singleton.1 hx] at hc
      exact hc
    | cons b bs =>
      intro x hx c hc
      rw [jsJoin_cons_cons]
      simp only [String.data_append, List.mem_append]
      rcases List.mem_cons.1 hx with rfl | hx
      · exact Or.inl (Or.inl hc)
      · exact Or.inr (ih x hx c hc)

/-- Claim C18, as stated, fails: on `A )` the second step, taken after the
unmatched `)` was consumed, shows an empty stack and the output `A`; no
pair of parentheses was matched, yet no stack and output with these
snapshots hold the two consumed tokens. -/
theorem unmatched_close_dropped :
    infixToPostfixWithSteps "A )" = .ok
        { result := some "A",
          steps := [
            { iter := 1, input := ")", stack := "", output := some "A",
              action := "append operand A" },
            { iter := 2, input := "", stack := "", output := some "A",
              action := "pop till ( and discard )" },
            { iter := 3, input := "", stack := "", output := some "A",
              action := "pop remaining operators" }] } ∧
      tokenize "A )" = .ok ["A", ")"] ∧ parenMatched ["A", ")"] = 0 ∧
      ¬ ∃ S O : List String, "" = jsJoin "" S.reverse ∧ some "A" = some (jsJoin " " O) ∧
        List.Perm (S ++ O ++ List.replicate (parenMatched ["A", ")"]) "(" ++
          List.replicate (parenMatched ["A", ")"]) ")") ["A", ")"] := by
  refine ⟨by decide, by decide, by decide, ?_⟩
  rintro ⟨S, O, h1, h2, hp⟩
  have hm : parenMatched ["A", ")"] = 0 := by decide
  rw [hm] at hp
  simp only [List.replicate_zero, List.append_nil] at hp
  have hmem : ")" ∈ S ++ O := hp.mem_iff.2 (by simp)
  rcases List.mem_append.1 hmem with hS | hO
  · have := jsJoin_mem_data "" S.reverse ")" (List.mem_reverse.2 hS) ')' (by decide)
    rw [← h1] at this
    exact absurd this (by decide)
  · have := jsJoin_mem_data " " O ")" hO ')' (by decide)
    simp only [Option.some.injEq] at h2
    rw [← h2] at this
    exact absurd this (by decide)

/-- Claim C18, amended: at every step of `infixToPostfixWithSteps` before
the trailing one, the stack snapshot and the output so far render a stack
and an output that hold, as a multiset, the tokens consumed so far except
every `)` and except one `(` for each matched pair. -/
theorem shunt_token_accounting (e : String) (toks : List String) (h : tokenize e = .ok toks)
    (k : Nat) (hk : k < toks.length) :
    ∃ r st S O, infixToPostfixWithSteps e = .ok r ∧ r.steps[k]? = some st ∧
      st.stack = jsJoin "" S.reverse ∧ st.output = some (jsJoin " " O) ∧
      List.Perm
        (S ++ O ++ List.replicate ((toks.take (k + 1)).count ")") ")" ++
          List.replicate (parenMatched (toks.take (k + 1))) "(")
        (toks.take (k + 1)) := by
  obtain ⟨r, h1, _, h3, _⟩ := infixToPostfix_trace e toks h
  obtain ⟨st, g1, _, _, g4, g5⟩ := h3 k hk
  refine ⟨r, st, _, _, h1, g1, g4, g5, ?_⟩
  have := (account_fold (toks.take (k + 1)) [] [] [] 0 0 (by simp [Accounted]) rfl).1
  simpa [Accounted, parenMatched] using this

/-- Claim C18 at the third step of `( A )`: the stack and the output hold
`A` alone, the matched pair being discarded. -/
theorem shunt_token_accounting_witness :
    ∃ r st S O, infixToPostfixWithSteps "( A )" = .ok r ∧ r.steps[2]? = some st ∧
      st.stack = jsJoin "" S.reverse ∧ st.output = some (jsJoin " " O) ∧
      List.Perm
        (S ++ O ++ List.replicate ((["(", "A", ")"].take (2 + 1)).count ")") ")" ++
          List.replicate (parenMatched (["(", "A", ")"].take (2 + 1))) "(")
        (["(", "A", ")"].take (2 + 1)) :=
  shunt_token_accounting "( A )" ["(", "A", ")"] (by decide) 2 (by decide)

/-! ## Ordering of the trace -/

theorem ordered_push {steps : List Step} {iter : Nat} {st : Step} (h : Ordered steps iter)
    (hst : st.iter = iter + 1) : Ordered (steps ++ [st]) (iter + 1) := by
  refine ⟨?_, ?_⟩
  · rw [List.map_append, List.pairwise_append]
    refine ⟨h.1, by simp, ?_⟩
    intro a ha b hb
    obtain ⟨x, hx, rfl⟩ := List.mem_map.1 ha
    simp only [List.map_cons, List.map_nil, List.mem_singleton] at hb
    have := h.2 x hx
    omega
  · intro x hx
    rcases List.mem_append.1 hx with hx | hx
    · have := h.2 x hx
      omega
    · rw [List.mem_singleton.1 hx]
      omega

theorem ordered_skip {steps : List Step} {iter : Nat} (h : Ordered steps iter) :
    Ordered steps (iter + 1) :=
  ⟨h.1, fun x hx => Nat.le_succ_of_le (h.2 x hx)⟩

theorem startsAtOne_push {steps : List Step} {iter : Nat} {st : Step}
    (h : StartsAtOne steps iter) (hst : st.iter = iter + 1) :
    StartsAtOne (steps ++ [st]) (iter + 1) := by
  rcases h with ⟨rfl, rfl⟩ | ⟨x, rest, rfl, hx⟩
  · exact Or.inr ⟨st, [], rfl, hst⟩
  · exact Or.inr ⟨x, rest ++ [st], rfl, hx⟩

/-- A loop whose body increments the counter and records at most one step,
with the new counter as index, keeps the trace ordered. -/
theorem loop_ordered {σ : Type} (stepsOf : σ → List Step) (iterOf : σ → Nat)
    (step : σ → String → List String → σ) (loop : List String → σ → σ)
    (hnil : ∀ s, loop [] s = s)
    (hcons : ∀ tok rest s, loop (tok :: rest) s = loop rest (step s tok rest))
    (hstep : ∀ s tok rest, iterOf (step s tok rest) = iterOf s + 1 ∧
      (stepsOf (step s tok rest) = stepsOf s ∨
        ∃ st, stepsOf (step s tok rest) = stepsOf s ++ [st] ∧ st.iter = iterOf s + 1)) :
    ∀ toks s, Ordered (stepsOf s) (iterOf s) →
      Ordered (stepsOf (loop toks s)) (iterOf (loop toks s)) := by
  intro toks
  induction toks with
  | nil => intro s h; rw [hnil]; exact h
  | cons tok rest ih =>
    intro s h
    rw [hcons]
    apply ih
    obtain ⟨h1, h2 | ⟨st, h2, h3⟩⟩ := hstep s tok rest
    · rw [h1, h2]; exact ordered_skip h
    · rw [h1, h2]; exact ordered_push h h3

/-- When the body records a step for every token of the input, the first index is 1. -/
theorem loop_startsAtOne {σ : Type} (stepsOf : σ → List Step) (iterOf : σ → Nat)
    (step : σ → String → List String → σ) (loop : List String → σ → σ)
    (hnil : ∀ s, loop [] s = s)
    (hcons : ∀ tok rest s, loop (tok :: rest) s = loop rest (step s tok rest)) :
    ∀ toks, (∀ tok ∈ toks, ∀ s rest, iterOf (step s tok rest) = iterOf s + 1 ∧
        ∃ st, stepsOf (step s tok rest) = stepsOf s ++ [st] ∧ st.iter = iterOf s + 1) →
      ∀ s, StartsAtOne (stepsOf s) (iterOf s) →
        StartsAtOne (stepsOf (loop toks s)) (iterOf (loop toks s)) := by
  intro toks
  induction toks with
  | nil => intro _ s h; rw [hnil]; exact h
  | cons tok rest ih =>
    intro hpush s h
    rw [hcons]
    apply ih (fun t ht => hpush t (List.mem_cons_of_mem _ ht))
    obtain ⟨h1, st, h2, h3⟩ := hpush tok (List.mem_cons_self _ _) s rest
    rw [h1, h2]
    exact startsAtOne_push h h3

theorem ordered_finish {steps : List Step} {iter : Nat} {fin : Step} (h : Ordered steps iter)
    (hfin : fin.iter = iter + 1) : ((steps ++ [fin]).map Step.iter).Pairwise (· < ·) :=
  (ordered_push h hfin).1

theorem startsAtOne_finish {steps : List Step} {iter : Nat} {fin : Step}
    (h : StartsAtOne steps iter) (hfin : fin.iter = iter + 1) :
    (steps ++ [fin]).head?.map Step.iter = some 1 := by
  rcases h with ⟨rfl, rfl⟩ | ⟨x, rest, rfl, hx⟩
  · simp [hfin]
  · simp [hx]

theorem postfixToInfixStep_spec (s : FragState) (tok rem : String) :
    (postfixToInfixStep s tok rem).iter = s.iter + 1 ∧
      ((postfixToInfixStep s tok rem).steps = s.steps ∨
        ∃ st, (postfixToInfixStep s tok rem).steps = s.steps ++ [st] ∧
          st.iter = s.iter + 1) := by
  unfold postfixToInfixStep
  by_cases h1 : isOperand tok = true
  · rw [if_pos h1]; exact ⟨rfl, Or.inr ⟨_, rfl, rfl⟩⟩
  · rw [if_neg h1]
    by_cases h2 : jsIncludes "+-*/^" tok = true
    · rw [if_pos h2]; exact ⟨rfl, Or.inr ⟨_, rfl, rfl⟩⟩
    · rw [if_neg h2]; exact ⟨rfl, Or.inl rfl⟩

theorem postfixToInfixStep_push (s : FragState) (tok rem : String)
    (h : isOperand tok = true ∨ jsIncludes "+-*/^" tok = true) :
    (postfixToInfixStep s tok rem).iter = s.iter + 1 ∧
      ∃ st, (postfixToInfixStep s tok rem).steps = s.steps ++ [st] ∧ st.iter = s.iter + 1 := by
  unfold postfixToInfixStep
  by_cases h1 : isOperand tok = true
  · rw [if_pos h1]; exact ⟨rfl, _, rfl, rfl⟩
  · rw [if_neg h1]
    have h2 : jsIncludes "+-*/^" tok = true := h.resolve_left h1
    rw [if_pos h2]; exact ⟨rfl, _, rfl, rfl⟩

theorem prefixToInfixStep_spec (s : FragState) (tok rem : String) :
    (prefixToInfixStep s tok rem).iter = s.iter + 1 ∧
      ((prefixToInfixStep s tok rem).steps = s.steps ∨
        ∃ st, (prefixToInfixStep s tok rem).steps = s.steps ++ [st] ∧
          st.iter = s.iter + 1) := by
  unfold prefixToInfixStep
  by_cases h1 : isOperand tok = true
  · rw [if_pos h1]; exact ⟨rfl, Or.inr ⟨_, rfl, rfl⟩⟩
  · rw [if_neg h1]
    by_cases h2 : jsIncludes "+-*/^" tok = true
    · rw [if_pos h2]; exact ⟨rfl, Or.inr ⟨_, rfl, rfl⟩⟩
    · rw [if_neg h2]; exact ⟨rfl, Or.inl rfl⟩

theorem prefixToInfixStep_push (s : FragState) (tok rem : String)
    (h : isOperand tok = true ∨ jsIncludes "+-*/^" tok = true) :
    (prefixToInfixStep s tok rem).iter = s.iter + 1 ∧
      ∃ st, (prefixToInfixStep s tok rem).steps = s.steps ++ [st] ∧ st.iter = s.iter + 1 := by
  unfold prefixToInfixStep
  by_cases h1 : isOperand tok = true
  · rw [if_pos h1]; exact ⟨rfl, _, rfl, rfl⟩
  · rw [if_neg h1]
    have h2 : jsIncludes "+-*/^" tok = true := h.resolve_left h1
    rw [if_pos h2]; exact ⟨rfl, _, rfl, rfl⟩

theorem infixPrefixStep_push (s : FragState) (tok rem : String) :
    (infixPrefixStep s tok rem).iter = s.iter + 1 ∧
      ∃ st, (infixPrefixStep s tok rem).steps = s.steps ++ [st] ∧ st.iter = s.iter + 1 := by
  unfold infixPrefixStep
  by_cases h1 : isOperand tok = true
  · rw [if_pos h1]; exact ⟨rfl, _, rfl, rfl⟩
  · rw [if_neg h1]; exact ⟨rfl, _, rfl, rfl⟩

theorem postfixPrefixStep_push (s : FragState) (tok rem : String) :
    (postfixPrefixStep s tok rem).iter = s.iter + 1 ∧
      ∃ st, (postfixPrefixStep s tok rem).steps = s.steps ++ [st] ∧ st.iter = s.iter + 1 := by
  unfold postfixPrefixStep
  by_cases h1 : isOperand tok = true
  · rw [if_pos h1]; exact ⟨rfl, _, rfl, rfl⟩
  · rw [if_neg h1]; exact ⟨rfl, _, rfl, rfl⟩

theorem prefixPostfixStep_push (s : FragState) (tok rem : String) :
    (prefixPostfixStep s tok rem).iter = s.iter + 1 ∧
      ∃ st, (prefixPostfixStep s tok rem).steps = s.steps ++ [st] ∧ st.iter = s.iter + 1 := by
  unfold prefixPostfixStep
  by_cases h1 : isOperand tok = true
  · rw [if_pos h1]; exact ⟨rfl, _, rfl, rfl⟩
  · rw [if_neg h1]; exact ⟨rfl, _, rfl, rfl⟩

theorem shuntStep_push (s : ShuntState) (tok : String) (rest : List String) :
    (shuntStep s tok rest).iter = s.iter + 1 ∧
      ∃ st, (shuntStep s tok rest).steps = s.steps ++ [st] ∧ st.iter = s.iter + 1 := by
  obtain ⟨st, h1, h2, _, _, _, h3⟩ := shuntStep_steps s tok rest
  exact ⟨h3, st, h1, h2⟩

theorem push_spec {σ : Type} {stepsOf : σ → List Step} {iterOf : σ → Nat} {s s' : σ}
    (h : iterOf s' = iterOf s + 1 ∧
      ∃ st, stepsOf s' = stepsOf s ++ [st] ∧ st.iter = iterOf s + 1) :
    iterOf s' = iterOf s + 1 ∧
      (stepsOf s' = stepsOf s ∨ ∃ st, stepsOf s' = stepsOf s ++ [st] ∧ st.iter = iterOf s + 1) :=
  ⟨h.1, Or.inr h.2⟩

theorem isToken_pushes {t : String} (h : isToken t = true) (h1 : t ≠ "(") (h2 : t ≠ ")") :
    isOperand t = true ∨ jsIncludes "+-*/^" t = true := by
  simp only [isToken, Bool.or_eq_true, decide_eq_true_eq] at h
  rcases h with h | h
  · exact Or.inl (isOperand_of_isOperandToken h)
  · simp only [List.mem_cons, List.mem_singleton, List.not_mem_nil, or_false] at h
    rcases h with rfl | rfl | rfl | rfl | rfl | rfl | rfl
    · exact absurd rfl h1
    · exact absurd rfl h2
    all_goals exact Or.inr (by decide)

theorem ordered_init : Ordered [] 0 := ⟨by simp, by simp⟩

theorem startsAtOne_init : StartsAtOne [] 0 := Or.inl ⟨rfl, rfl⟩

theorem shuntLoop_last_iter (toks : List String) :
    (match (shuntLoop toks { output := [], stack := [], steps := [], iter := 0 }).steps.getLast?
        with
      | some last => last.iter + 1
      | none => 1) =
      (shuntLoop toks { output := [], stack := [], steps := [], iter := 0 }).iter + 1 := by
  obtain ⟨extra, e1, l1, it1, hk1⟩ :=
    shuntLoop_trace toks { output := [], stack := [], steps := [], iter := 0 }
  simp only [List.nil_append, Nat.zero_add] at e1 it1 hk1
  rw [e1, it1]
  cases htoks : toks.length with
  | zero =>
    rw [htoks] at l1
    rw [List.length_eq_zero.1 l1]
    rfl
  | succ n =>
    obtain ⟨st, g1, g2, _⟩ := hk1 n (by omega)
    rw [List.getLast?_eq_getElem?, l1, htoks, Nat.add_sub_cancel, g1]
    simp only [g2]

theorem infixToPostfix_ordering (e : String) (r : ConversionResult)
    (h : infixToPostfixWithSteps e = .ok r) :
    (r.steps.map Step.iter).Pairwise (· < ·) ∧
      (∃ last, r.steps.getLast? = some last ∧ last.action = "pop remaining operators") ∧
      r.steps.head?.map Step.iter = some 1 := by
  unfold infixToPostfixWithSteps at h
  cases ht : tokenize e with
  | error m => rw [ht] at h; cases h
  | ok toks =>
    rw [ht] at h
    simp only [Except.ok.injEq] at h
    subst h
    have ho := loop_ordered ShuntState.steps ShuntState.iter shuntStep shuntLoop
      (fun _ => rfl) (fun _ _ _ => rfl) (fun s tok rest => push_spec (shuntStep_push s tok rest))
      toks { output := [], stack := [], steps := [], iter := 0 } ordered_init
    have hs := loop_startsAtOne ShuntState.steps ShuntState.iter shuntStep shuntLoop
      (fun _ => rfl) (fun _ _ _ => rfl) toks (fun tok _ s rest => shuntStep_push s tok rest)
      { output := [], stack := [], steps := [], iter := 0 } startsAtOne_init
    have hl := shuntLoop_last_iter toks
    refine ⟨ordered_finish ho hl, ⟨_, List.getLast?_concat _, rfl⟩, startsAtOne_finish hs hl⟩

theorem tokens_push (e : String) (toks : List String) (ht : tokenize e = .ok toks)
    (hnp : "(" ∉ toks ∧ ")" ∉ toks) :
    ∀ tok ∈ toks, isOperand tok = true ∨ jsIncludes "+-*/^" tok = true := by
  intro tok htok
  apply isToken_pushes ((tokenizeAux_tokens e.data 0 toks ht).2 tok htok)
  · rintro rfl; exact hnp.1 htok
  · rintro rfl; exact hnp.2 htok

theorem postfixToInfix_ordering (e : String) (r : ConversionResult)
    (h : postfixToInfixWithSteps e = .ok r) :
    (r.steps.map Step.iter).Pairwise (· < ·) ∧
      (∃ last, r.steps.getLast? = some last ∧ last.action = "finalize") ∧
      ((∀ toks, tokenize e = .ok toks → "(" ∉ toks ∧ ")" ∉ toks) →
        r.steps.head?.map Step.iter = some 1) := by
  unfold postfixToInfixWithSteps at h
  cases ht : tokenize e with
  | error m => rw [ht] at h; cases h
  | ok toks =>
    rw [ht] at h
    simp only [Except.ok.injEq] at h
    subst h
    have ho := loop_ordered FragState.steps FragState.iter
      (fun s tok rest => postfixToInfixStep s tok (jsJoin " " rest)) postfixToInfixLoop
      (fun _ => rfl) (fun _ _ _ => rfl) (fun s tok rest => postfixToInfixStep_spec s tok _)
      toks { stack := [], steps := [], iter := 0 } ordered_init
    refine ⟨ordered_finish ho rfl, ⟨_, List.getLast?_concat _, rfl⟩, ?_⟩
    intro hnp
    have hp := tokens_push e toks ht (hnp toks rfl)
    have hs := loop_startsAtOne FragState.steps FragState.iter
      (fun s tok rest => postfixToInfixStep s tok (jsJoin " " rest)) postfixToInfixLoop
      (fun _ => rfl) (fun _ _ _ => rfl) toks
      (fun tok htok s rest => postfixToInfixStep_push s tok _ (hp tok htok))
      { stack := [], steps := [], iter := 0 } startsAtOne_init
    exact startsAtOne_finish hs rfl

theorem prefixToInfix_ordering (e : String) (r : ConversionResult)
    (h : prefixToInfixWithSteps e = .ok r) :
    (r.steps.map Step.iter).Pairwise (· < ·) ∧
      (∃ last, r.steps.getLast? = some last ∧ last.action = "finalize") ∧
      ((∀ toks, tokenize e = .ok toks → "(" ∉ toks ∧ ")" ∉ toks) →
        r.steps.head?.map Step.iter = some 1) := by
  unfold prefixToInfixWithSteps at h
  cases ht : tokenize e with
  | error m => rw [ht] at h; cases h
  | ok toks =>
    rw [ht] at h
    simp only [Except.ok.injEq] at h
    subst h
    have ho := loop_ordered FragState.steps FragState.iter
      (fun s tok rest => prefixToInfixStep s tok (jsJoin " " rest.reverse)) prefixToInfixLoop
      (fun _ => rfl) (fun _ _ _ => rfl) (fun s tok rest => prefixToInfixStep_spec s tok _)
      toks.reverse { stack := [], steps := [], iter := 0 } ordered_init
    refine ⟨ordered_finish ho rfl, ⟨_, List.getLast?_concat _, rfl⟩, ?_⟩
    intro hnp
    have hp := tokens_push e toks ht (hnp toks rfl)
    have hs := loop_startsAtOne FragState.steps FragState.iter
      (fun s tok rest => prefixToInfixStep s tok (jsJoin " " rest.reverse)) prefixToInfixLoop
      (fun _ => rfl) (fun _ _ _ => rfl) toks.reverse
      (fun tok htok s rest =>
        prefixToInfixStep_push s tok _ (hp tok (List.mem_reverse.1 htok)))
      { stack := [], steps := [], iter := 0 } startsAtOne_init
    exact startsAtOne_finish hs rfl

/-- The trace of a direct branch: a loop that records every token, then `finalize`. -/
theorem direct_ordering (step : FragState → String → List String → FragState)
    (loop : List String → FragState → FragState) (hnil : ∀ s, loop [] s = s)
    (hcons : ∀ tok rest s, loop (tok :: rest) s = loop rest (step s tok rest))
    (hpush : ∀ s tok rest, (step s tok rest).iter = s.iter + 1 ∧
      ∃ st, (step s tok rest).steps = s.steps ++ [st] ∧ st.iter = s.iter + 1)
    (toks : List String) :
    (((finishDirect (loop toks { stack := [], steps := [], iter := 0 })).steps.map
        Step.iter).Pairwise (· < ·)) ∧
      (∃ last, (finishDirect (loop toks { stack := [], steps := [], iter := 0 })).steps.getLast?
        = some last ∧ last.action = "finalize") ∧
      (finishDirect (loop toks { stack := [], steps := [], iter := 0 })).steps.head?.map
        Step.iter = some 1 := by
  have ho := loop_ordered FragState.steps FragState.iter step loop hnil hcons
    (fun s tok rest => push_spec (hpush s tok rest))
    toks { stack := [], steps := [], iter := 0 } ordered_init
  have hs := loop_startsAtOne FragState.steps FragState.iter step loop hnil hcons toks
    (fun tok _ s rest => hpush s tok rest) { stack := [], steps := [], iter := 0 }
    startsAtOne_init
  exact ⟨ordered_finish ho rfl, ⟨_, List.getLast?_concat _, rfl⟩, startsAtOne_finish hs rfl⟩

theorem convert_ok_cases {src dst e : String} {r : ConversionResult}
    (h : convert src dst e = .ok r) : src = dst ∨ (src, dst) ∈ supportedPairs := by
  by_cases h1 : src = dst
  · exact Or.inl h1
  · by_cases h2 : (src, dst) ∈ supportedPairs
    · exact Or.inr h2
    · exfalso
      simp only [supportedPairs, List.mem_cons, Prod.mk.injEq, List.mem_singleton,
        List.not_mem_nil, or_false, not_or] at h2
      obtain ⟨g1, g2, g3, g4, g5, g6⟩ := h2
      unfold convert at h
      rw [if_neg h1, if_neg g1, if_neg g2, if_neg g3, if_neg g4, if_neg g5, if_neg g6] at h
      cases h

/-! ## The claim on the ordering of the trace -/

/-- Claim C17, as stated, fails twice: the identity conversion ends with the
action `same notation`, and `convert('Postfix', 'Infix', "( A")` records no
step for the parenthesis, so that its first step has index 2. -/
theorem trace_ordering_fails :
    (∃ r, convert "Infix" "Infix" "A" = .ok r ∧
        ∀ last, r.steps.getLast? = some last →
          last.action ≠ "finalize" ∧ last.action ≠ "pop remaining operators") ∧
      convert "Postfix" "Infix" "( A" = .ok
        { result := some "A",
          steps := [
            { iter := 2, input := "", stack := "A", output := some "", action := "push A" },
            { iter := 3, input := "", stack := "", output := some "A",
              action := "finalize" }] } := by
  refine ⟨⟨_, convert_same "Infix" "A", ?_⟩, by decide⟩
  intro last hl
  simp only [List.getLast?_singleton, Option.some.injEq] at hl
  subst hl
  decide

/-- Claim C17, amended: whenever `convert` succeeds, the indices of the
steps increase strictly; between different notations the last action is
`finalize` or `pop remaining operators`, and between equal notations it is
`same notation`; the first index is 1 when the notations are equal, when
the target is not `Infix`, and when the expression has no parenthesis token. -/
theorem trace_ordering (src dst e : String) (r : ConversionResult)
    (h : convert src dst e = .ok r) :
    (r.steps.map Step.iter).Pairwise (· < ·) ∧
      (∃ last, r.steps.getLast? = some last ∧
        ((src ≠ dst ∧
            (last.action = "finalize" ∨ last.action = "pop remaining operators")) ∨
          (src = dst ∧ last.action = "same notation"))) ∧
      ((src = dst ∨ dst ≠ "Infix" ∨
          ∀ toks, tokenize e = .ok toks → "(" ∉ toks ∧ ")" ∉ toks) →
        r.steps.head?.map Step.iter = some 1) := by
  rcases convert_ok_cases h with heq | hp
  · subst heq
    rw [convert_same] at h
    simp only [Except.ok.injEq] at h
    subst h
    exact ⟨by simp, ⟨_, rfl, Or.inr ⟨rfl, rfl⟩⟩, fun _ => rfl⟩
  · rcases supportedPairs_cases hp with ⟨rfl, rfl⟩ | ⟨rfl, rfl⟩ | ⟨rfl, rfl⟩ | ⟨rfl, rfl⟩ |
      ⟨rfl, rfl⟩ | ⟨rfl, rfl⟩
    · rw [convert_infix_postfix_eq] at h
      obtain ⟨h1, ⟨last, h2, h3⟩, h4⟩ := infixToPostfix_ordering e r h
      exact ⟨h1, ⟨last, h2, Or.inl ⟨by decide, Or.inr h3⟩⟩, fun _ => h4⟩
    · rw [convert_infix_prefix_eq] at h
      cases hi : infixToPostfixWithSteps e with
      | error m => rw [hi] at h; cases h
      | ok r1 =>
        rw [hi] at h
        dsimp only at h
        cases ht : tokenize (jsShow r1.result) with
        | error m => rw [ht] at h; cases h
        | ok toks =>
          rw [ht] at h
          simp only [Except.ok.injEq] at h
          subst h
          obtain ⟨h1, ⟨last, h2, h3⟩, h4⟩ := direct_ordering
            (fun s tok rest => infixPrefixStep s tok (jsJoin " " rest)) infixPrefixLoop
            (fun _ => rfl) (fun _ _ _ => rfl) (fun s tok _ => infixPrefixStep_push s tok _) toks
          exact ⟨h1, ⟨last, h2, Or.inl ⟨by decide, Or.inl h3⟩⟩, fun _ => h4⟩
    · rw [convert_postfix_infix_eq] at h
      obtain ⟨h1, ⟨last, h2, h3⟩, h4⟩ := postfixToInfix_ordering e r h
      refine ⟨h1, ⟨last, h2, Or.inl ⟨by decide, Or.inl h3⟩⟩, ?_⟩
      rintro (hc | hc | hc)
      · exact absurd hc (by decide)
      · exact absurd rfl hc
      · exact h4 hc
    · rw [convert_prefix_infix_eq] at h
      obtain ⟨h1, ⟨last, h2, h3⟩, h4⟩ := prefixToInfix_ordering e r h
      refine ⟨h1, ⟨last, h2, Or.inl ⟨by decide, Or.inl h3⟩⟩, ?_⟩
      rintro (hc | hc | hc)
      · exact absurd hc (by decide)
      · exact absurd rfl hc
      · exact h4 hc
    · rw [convert_postfix_prefix_eq] at h
      cases ht : tokenize e with
      | error m => rw [ht] at h; cases h
      | ok toks =>
        rw [ht] at h
        simp only [Except.ok.injEq] at h
        subst h
        obtain ⟨h1, ⟨last, h2, h3⟩, h4⟩ := direct_ordering
          (fun s tok rest => postfixPrefixStep s tok (jsJoin " " rest)) postfixPrefixLoop
          (fun _ => rfl) (fun _ _ _ => rfl) (fun s tok _ => postfixPrefixStep_push s tok _) toks
        exact ⟨h1, ⟨last, h2, Or.inl ⟨by decide, Or.inl h3⟩⟩, fun _ => h4⟩
    · rw [convert_prefix_postfix_eq] at h
      cases ht : tokenize e with
      | error m => rw [ht] at h; cases h
      | ok toks =>
        rw [ht] at h
        simp only [Except.ok.injEq] at h
        subst h
        obtain ⟨h1, ⟨last, h2, h3⟩, h4⟩ := direct_ordering
          (fun s tok rest => prefixPostfixStep s tok (jsJoin " " rest.reverse))
          prefixPostfixLoop (fun _ => rfl) (fun _ _ _ => rfl)
          (fun s tok _ => prefixPostfixStep_push s tok _) toks.reverse
        exact ⟨h1, ⟨last, h2, Or.inl ⟨by decide, Or.inl h3⟩⟩, fun _ => h4⟩

/-- Claim C17 at `convert('Postfix', 'Infix', "A B +")`. -/
theorem trace_ordering_witness :
    (postfixSample.steps.map Step.iter).Pairwise (· < ·) ∧
      (∃ last, postfixSample.steps.getLast? = some last ∧
        (("Postfix" ≠ "Infix" ∧
            (last.action = "finalize" ∨ last.action = "pop remaining operators")) ∨
          ("Postfix" = "Infix" ∧ last.action = "same notation"))) ∧
      (("Postfix" = "Infix" ∨ "Infix" ≠ "Infix" ∨
          ∀ toks, tokenize "A B +" = .ok toks → "(" ∉ toks ∧ ")" ∉ toks) →
        postfixSample.steps.head?.map Step.iter = some 1) :=
  trace_ordering "Postfix" "Infix" "A B +" postfixSample (by decide)

/-! ## The tokenizer over code units -/

theorem tokenizeUnitsAux_succ (u : Nat) (rest : List Nat) (k : Nat) :
    tokenizeUnitsAux (u :: rest) (k + 1) = tokenizeUnitsAux rest k := by
  rw [tokenizeUnitsAux]

theorem isAcceptedUnit_false {u : Nat} (h : isAcceptedUnit u = false) :
    u ≠ ' '.toNat ∧ isLetterUnit u = false ∧ isDigitUnit u = false ∧ isSymbolUnit u = false := by
  simpa [isAcceptedUnit, and_assoc] using h

theorem tokenizeUnitsAux_rejected (u : Nat) (rest : List Nat) (h : isAcceptedUnit u = false) :
    tokenizeUnitsAux (u :: rest) 0 = .error (invalidCharacterText ++ [u]) := by
  obtain ⟨h1, h2, h3, h4⟩ := isAcceptedUnit_false h
  rw [tokenizeUnitsAux, if_neg h1, if_neg (by simp [h2]), if_neg (by simp [h3]),
    if_neg (by simp [h4])]

theorem tokenizeUnitsAux_accepted (u : Nat) (rest : List Nat) (h : isAcceptedUnit u = true) :
    tokenizeUnitsAux (u :: rest) 0 = tokenizeUnitsAux rest 0 ∨
      tokenizeUnitsAux (u :: rest) 0 = (tokenizeUnitsAux rest 0).map ([u] :: ·) ∨
      (isDigitUnit u = true ∧ tokenizeUnitsAux (u :: rest) 0 =
        (tokenizeUnitsAux rest (rest.takeWhile isDigitUnit).length).map
          ((u :: rest.takeWhile isDigitUnit) :: ·)) := by
  rw [tokenizeUnitsAux]
  by_cases h1 : u = ' '.toNat
  · rw [if_pos h1]; exact Or.inl rfl
  · rw [if_neg h1]
    by_cases h2 : isLetterUnit u = true
    · rw [if_pos h2]; exact Or.inr (Or.inl rfl)
    · rw [if_neg h2]
      by_cases h3 : isDigitUnit u = true
      · rw [if_pos h3]; exact Or.inr (Or.inr ⟨h3, rfl⟩)
      · rw [if_neg h3]
        by_cases h4 : isSymbolUnit u = true
        · rw [if_pos h4]; exact Or.inr (Or.inl rfl)
        · exfalso
          have h32 : ' '.toNat = 32 := rfl
          rw [h32] at h1
          simp [isAcceptedUnit, h1, h2, h3, h4] at h

theorem isAcceptedUnit_of_isDigitUnit {u : Nat} (h : isDigitUnit u = true) :
    isAcceptedUnit u = true := by
  simp [isAcceptedUnit, h]

/-- Over code units the tokenizer stops at the leftmost unit it does not accept. -/
theorem tokenizeUnitsAux_reject (pre : List Nat) (u : Nat) (post : List Nat)
    (hpre : ∀ x ∈ pre, isAcceptedUnit x = true) (hu : isAcceptedUnit u = false) :
    ∀ k, (∀ x ∈ (pre ++ u :: post).take k, isDigitUnit x = true) →
      tokenizeUnitsAux (pre ++ u :: post) k = .error (invalidCharacterText ++ [u]) := by
  induction pre with
  | nil =>
    intro k hk
    cases k with
    | succ k =>
      have := isAcceptedUnit_of_isDigitUnit (hk u (by simp))
      rw [hu] at this
      exact absurd this (by decide)
    | zero => exact tokenizeUnitsAux_rejected u post hu
  | cons p pre ih =>
    have ih := ih (fun x hx => hpre x (List.mem_cons_of_mem _ hx))
    intro k hk
    rw [List.cons_append]
    cases k with
    | succ k =>
      rw [tokenizeUnitsAux_succ]
      apply ih
      intro x hx
      exact hk x (by rw [List.cons_append, List.take_succ_cons]; exact List.mem_cons_of_mem _ hx)
    | zero =>
      rcases tokenizeUnitsAux_accepted p (pre ++ u :: post) (hpre p (List.mem_cons_self _ _))
        with e | e | ⟨_, e⟩
      · rw [e, ih 0 (by simp)]
      · rw [e, ih 0 (by simp)]; rfl
      · rw [e, ih _ (by rw [take_takeWhile_length]; exact takeWhile_all _ _)]; rfl

/-- Claim C12: for every string, given by its code units, that holds a unit
which is not a letter, a digit, a space or one of `( ) + - * / ^`,
`tokenize` fails with the message `Invalid character: ` followed by the
leftmost such unit, and returns no token. -/
theorem tokenizeUnits_invalid_character (s : List Nat) (u : Nat)
    (h : s.find? (fun x => !isAcceptedUnit x) = some u) :
    tokenizeUnits s = .error (invalidCharacterText ++ [u]) := by
  obtain ⟨hu, pre, post, hs, hpre⟩ := List.find?_eq_some.1 h
  have hu' : isAcceptedUnit u = false := by simpa using hu
  have hpre' : ∀ x ∈ pre, isAcceptedUnit x = true := by
    intro x hx
    simpa using hpre x hx
  have := tokenizeUnitsAux_reject pre u post hpre' hu' 0 (by simp)
  rw [← hs] at this
  exact this

/-- Claim C12 at `A # B`, which fails naming `#`, and at `A`, U+1F600, `B`,
which fails naming the high surrogate `D83D`. -/
theorem tokenizeUnits_invalid_character_witness :
    tokenizeUnits (toUnits "A # B") = .error (toUnits "Invalid character: #") ∧
      tokenizeUnits [0x41, 0xD83D, 0xDE00, 0x42] = .error (invalidCharacterText ++ [0xD83D]) :=
  ⟨tokenizeUnits_invalid_character (toUnits "A # B") 0x23 (by decide),
    tokenizeUnits_invalid_character [0x41, 0xD83D, 0xDE00, 0x42] 0xD83D (by decide)⟩

/-! ## The two embeddings of the tokenizer agree -/

theorem char_eq_of_toNat_eq {c d : Char} (h : c.toNat = d.toNat) : c = d := by
  rw [← Char.ofNat_toNat c, ← Char.ofNat_toNat d, h]

theorem isSymbolChar_iff (c : Char) :
    isSymbolChar c = true ↔ c ∈ ['(', ')', '+', '-', '*', '/', '^'] := by
  simp [isSymbolChar, jsIncludes, List.tails, List.isPrefixOf, String.singleton, String.push]

theorem isSymbolUnit_iff (u : Nat) :
    isSymbolUnit u = true ↔ u ∈ [40, 41, 43, 45, 42, 47, 94] := by
  have e : toUnits "()+-*/^" = [40, 41, 43, 45, 42, 47, 94] := by decide
  simp [isSymbolUnit, e, List.tails, List.isPrefixOf]

theorem isSymbolUnit_toNat (c : Char) : isSymbolUnit c.toNat = isSymbolChar c := by
  rw [Bool.eq_iff_iff, isSymbolUnit_iff, isSymbolChar_iff]
  simp only [List.mem_cons, List.mem_singleton, List.not_mem_nil, or_false]
  constructor
  · rintro (h | h | h | h | h | h | h)
    · exact Or.inl (char_eq_of_toNat_eq h)
    · exact Or.inr (Or.inl (char_eq_of_toNat_eq h))
    · exact Or.inr (Or.inr (Or.inl (char_eq_of_toNat_eq h)))
    · exact Or.inr (Or.inr (Or.inr (Or.inl (char_eq_of_toNat_eq h))))
    · exact Or.inr (Or.inr (Or.inr (Or.inr (Or.inl (char_eq_of_toNat_eq h)))))
    · exact Or.inr (Or.inr (Or.inr (Or.inr (Or.inr (Or.inl (char_eq_of_toNat_eq h))))))
    · exact Or.inr (Or.inr (Or.inr (Or.inr (Or.inr (Or.inr (char_eq_of_toNat_eq h))))))
  · rintro (rfl | rfl | rfl | rfl | rfl | rfl | rfl) <;> decide

theorem isAcceptedUnit_toNat (c : Char) : isAcceptedUnit c.toNat = isAccepted c := by
  have hsp : decide (c.toNat = ' '.toNat) = decide (c = ' ') := by
    rw [Bool.eq_iff_iff]
    simp only [decide_eq_true_eq]
    exact ⟨char_eq_of_toNat_eq, fun h => by rw [h]⟩
  simp only [isAcceptedUnit, isAccepted, hsp, isSymbolUnit_toNat]
  rfl

theorem isAccepted_bmp {c : Char} (h : isAccepted c = true) : c.toNat < 0x10000 := by
  have h0 : '0'.toNat = 48 := by decide
  have h9 : '9'.toNat = 57 := by decide
  have hA : 'A'.toNat = 65 := by decide
  have hZ : 'Z'.toNat = 90 := by decide
  have ha : 'a'.toNat = 97 := by decide
  have hz : 'z'.toNat = 122 := by decide
  simp only [isAccepted, Bool.or_eq_true, decide_eq_true_eq] at h
  rcases h with ((h | h) | h) | h
  · rw [h]; decide
  · simp only [isLetter, hA, hZ, ha, hz, Bool.or_eq_true, Bool.and_eq_true,
      decide_eq_true_eq] at h
    omega
  · simp only [isDigit, h0, h9, Bool.and_eq_true, decide_eq_true_eq] at h
    omega
  · rw [isSymbolChar_iff] at h
    simp only [List.mem_cons, List.mem_singleton, List.not_mem_nil, or_false] at h
    rcases h with rfl | rfl | rfl | rfl | rfl | rfl | rfl <;> decide

theorem charUnits_bmp {c : Char} (h : c.toNat < 0x10000) : charUnits c = [c.toNat] := by
  rw [charUnits, if_pos h]

theorem high_unit_rejected {u : Nat} (h : 0xD800 ≤ u) : isAcceptedUnit u = false := by
  have h0 : '0'.toNat = 48 := by decide
  have h9 : '9'.toNat = 57 := by decide
  have hA : 'A'.toNat = 65 := by decide
  have hZ : 'Z'.toNat = 90 := by decide
  have ha : 'a'.toNat = 97 := by decide
  have hz : 'z'.toNat = 122 := by decide
  have hs : ' '.toNat = 32 := by decide
  have hsym : isSymbolUnit u = false := by
    rw [Bool.eq_false_iff]
    intro hu
    rw [isSymbolUnit_iff] at hu
    simp only [List.mem_cons, List.mem_singleton, List.not_mem_nil, or_false] at hu
    omega
  simp only [isAcceptedUnit, isLetterUnit, isDigitUnit, hsym, h0, h9, hA, hZ, ha, hz, hs,
    Bool.or_eq_false_iff, Bool.and_eq_false_iff, decide_eq_false_iff_not, Bool.or_false]
  omega

/-- The first code unit of a character is accepted exactly when the
character is, and an accepted character is that one unit. -/
theorem charUnits_head (c : Char) :
    ∃ u tl, charUnits c = u :: tl ∧ isAcceptedUnit u = isAccepted c ∧
      (isAccepted c = true → u = c.toNat ∧ tl = []) := by
  by_cases h : c.toNat < 0x10000
  · exact ⟨c.toNat, [], charUnits_bmp h, isAcceptedUnit_toNat c, fun _ => ⟨rfl, rfl⟩⟩
  · have hrej : isAccepted c = false := by
      cases hc : isAccepted c with
      | false => rfl
      | true => exact absurd (isAccepted_bmp hc) h
    refine ⟨_, _, by rw [charUnits, if_neg h], ?_, ?_⟩
    · rw [hrej]
      exact high_unit_rejected (Nat.le_add_right _ _)
    · intro hc
      rw [hrej] at hc
      exact absurd hc (by decide)

theorem unitsOf_append (a b : List Char) : unitsOf (a ++ b) = unitsOf a ++ unitsOf b := by
  induction a with
  | nil => rfl
  | cons c a ih => simp [unitsOf, ih]

theorem unitsOf_accepted_cons {c : Char} (h : isAccepted c = true) (rest : List Char) :
    unitsOf (c :: rest) = c.toNat :: unitsOf rest := by
  rw [unitsOf, charUnits_bmp (isAccepted_bmp h)]
  rfl

theorem isDigitUnit_toNat (c : Char) : isDigitUnit c.toNat = isDigit c := rfl

theorem isLetterUnit_toNat (c : Char) : isLetterUnit c.toNat = isLetter c := rfl

theorem isDigitUnit_accepted {u : Nat} (h : isDigitUnit u = true) : isAcceptedUnit u = true :=
  isAcceptedUnit_of_isDigitUnit h

/-- The digits the inner loop merges are the same in both embeddings. -/
theorem unitsOf_takeWhile (rest : List Char) :
    unitsOf (rest.takeWhile isDigit) = (unitsOf rest).takeWhile isDigitUnit ∧
      (unitsOf (rest.takeWhile isDigit)).length = (rest.takeWhile isDigit).length := by
  induction rest with
  | nil => exact ⟨rfl, rfl⟩
  | cons c rest ih =>
    by_cases hd : isDigit c = true
    · have hu := unitsOf_accepted_cons (isAccepted_of_isDigit hd)
      have hdu : isDigitUnit c.toNat = true := hd
      rw [List.takeWhile_cons, if_pos hd, hu, hu, List.takeWhile_cons, if_pos hdu]
      exact ⟨by rw [ih.1], by simp [ih.2]⟩
    · rw [List.takeWhile_cons, if_neg hd]
      obtain ⟨u, tl, e, hacc, hbmp⟩ := charUnits_head c
      have hnd : isDigitUnit u = false := by
        cases hc : isAccepted c with
        | true =>
          rw [(hbmp hc).1]
          simpa using hd
        | false =>
          rw [hc] at hacc
          cases hdu : isDigitUnit u with
          | false => rfl
          | true =>
            rw [isDigitUnit_accepted hdu] at hacc
            exact absurd hacc (by decide)
      have e2 : unitsOf (c :: rest) = u :: (tl ++ unitsOf rest) := by
        show charUnits c ++ unitsOf rest = _
        rw [e]
        rfl
      have e3 : unitsOf ([] : List Char) = [] := rfl
      rw [e2, List.takeWhile_cons, if_neg (by simp [hnd]), e3]
      exact ⟨rfl, rfl⟩

theorem unitsOutcome_map (tok : String) (x : Except String (List String)) :
    unitsOutcome (x.map (tok :: ·)) = (unitsOutcome x).map (toUnits tok :: ·) := by
  cases x <;> rfl

theorem take_text_succ (pre : List Nat) (u : Nat) (tl : List Nat) :
    (pre ++ u :: tl).take (pre.length + 1) = pre ++ [u] := by
  induction pre with
  | nil => simp
  | cons a pre ih => simpa using ih

theorem unitsOutcome_error (c : Char) (u : Nat) (tl : List Nat) (e : charUnits c = u :: tl) :
    unitsOutcome (.error ("Invalid character: " ++ String.singleton c)) =
      .error (invalidCharacterText ++ [u]) := by
  have h1 : toUnits ("Invalid character: " ++ String.singleton c) =
      invalidCharacterText ++ u :: tl := by
    rw [toUnits, String.data_append, unitsOf_append]
    have : unitsOf (String.singleton c).data = u :: tl := by
      show charUnits c ++ unitsOf [] = u :: tl
      rw [e]
      simp [unitsOf]
    rw [this]
    rfl
  rw [unitsOutcome, h1, take_text_succ]

theorem tokenizeUnitsAux_space (rest : List Nat) :
    tokenizeUnitsAux (' '.toNat :: rest) 0 = tokenizeUnitsAux rest 0 := by
  rw [tokenizeUnitsAux, if_pos rfl]

theorem tokenizeUnitsAux_single (u : Nat) (rest : List Nat) (h1 : u ≠ ' '.toNat)
    (h2 : isDigitUnit u = false) (h3 : isLetterUnit u = true ∨ isSymbolUnit u = true) :
    tokenizeUnitsAux (u :: rest) 0 = (tokenizeUnitsAux rest 0).map ([u] :: ·) := by
  rw [tokenizeUnitsAux, if_neg h1]
  by_cases hl : isLetterUnit u = true
  · rw [if_pos hl]
  · rw [if_neg hl, if_neg (by simp [h2]), if_pos (h3.resolve_left hl)]

theorem tokenizeUnitsAux_digit (u : Nat) (rest : List Nat) (h1 : u ≠ ' '.toNat)
    (h2 : isLetterUnit u = false) (hd : isDigitUnit u = true) :
    tokenizeUnitsAux (u :: rest) 0 =
      (tokenizeUnitsAux rest (rest.takeWhile isDigitUnit).length).map
        ((u :: rest.takeWhile isDigitUnit) :: ·) := by
  rw [tokenizeUnitsAux, if_neg h1, if_neg (by simp [h2]), if_pos hd]

theorem toNat_ne_space {c : Char} (h : c ≠ ' ') : c.toNat ≠ ' '.toNat :=
  fun he => h (char_eq_of_toNat_eq he)

/-- The tokenizer over code units, run on the code units of a list of
characters, gives the outcome of the tokenizer over characters. -/
theorem tokenizeUnitsAux_refines (cs : List Char) :
    ∀ k, (∀ x ∈ cs.take k, isDigit x = true) →
      tokenizeUnitsAux (unitsOf cs) k = unitsOutcome (tokenizeAux cs k) := by
  induction cs with
  | nil =>
    intro k _
    cases k <;> rfl
  | cons c rest ih =>
    intro k hk
    cases k with
    | succ k =>
      have hd : isDigit c = true := hk c (by simp)
      rw [unitsOf_accepted_cons (isAccepted_of_isDigit hd), tokenizeUnitsAux_succ,
        tokenizeAux_succ]
      apply ih
      intro x hx
      exact hk x (by rw [List.take_succ_cons]; exact List.mem_cons_of_mem _ hx)
    | zero =>
      rcases tokenizeAux_cases c rest with ⟨hc, e⟩ | ⟨h1, h2, h3, e⟩ | ⟨hd, e⟩ | ⟨ha, e⟩
      · subst hc
        rw [e, unitsOf_accepted_cons isAccepted_space, tokenizeUnitsAux_space]
        exact ih 0 (by simp)
      · have h3' : isLetterUnit c.toNat = true ∨ isSymbolUnit c.toNat = true := by
          rw [isSymbolUnit_toNat]
          exact h3
        rw [e, unitsOf_accepted_cons (isAccepted_of_single h3),
          tokenizeUnitsAux_single c.toNat _ (toNat_ne_space h1) h2 h3', unitsOutcome_map,
          ih 0 (by simp)]
        have : toUnits (String.singleton c) = [c.toNat] :=
          unitsOf_accepted_cons (isAccepted_of_single h3) []
        rw [this]
      · have htw := unitsOf_takeWhile rest
        rw [e, unitsOf_accepted_cons (isAccepted_of_isDigit hd),
          tokenizeUnitsAux_digit c.toNat _ (toNat_ne_space (isDigit_ne_space hd))
            (isDigit_not_isLetter hd) hd,
          unitsOutcome_map, ← htw.1, htw.2,
          ih _ (by rw [take_takeWhile_length]; exact takeWhile_all _ _)]
        have : toUnits (String.mk (c :: rest.takeWhile isDigit)) =
            c.toNat :: unitsOf (rest.takeWhile isDigit) :=
          unitsOf_accepted_cons (isAccepted_of_isDigit hd) _
        rw [this]
      · obtain ⟨u, tl, eu, hacc, _⟩ := charUnits_head c
        rw [ha] at hacc
        have e2 : unitsOf (c :: rest) = u :: (tl ++ unitsOf rest) := by
          show charUnits c ++ unitsOf rest = _
          rw [eu]
          rfl
        rw [e, e2, tokenizeUnitsAux_rejected u _ hacc, unitsOutcome_error c u tl eu]

/-- The two embeddings of `tokenize` agree on every string of characters:
the same tokens, and as message the text `Invalid character: ` followed by
the first code unit of the rejected character. -/
theorem tokenizeUnits_refines (s : String) :
    tokenizeUnits (toUnits s) = unitsOutcome (tokenize s) :=
  tokenizeUnitsAux_refines s.data 0 (by simp)

end NotationConverter
